import Mathlib

/-! Porter stemmer and naive Bayes classifier: embedding and properties

The C++ sources `porterStemmer.cpp`, `classifier.cpp`, `documentClassifier.cpp`,
`catWordData.cpp`, both `generateInfo` of `catWordDataFactory.cpp` (one root, and the
merge over several roots), and of the validator the lookups of `expectedResults.cpp` and
the counting and the measures of `categoryValidator.cpp` are embedded as Lean functions.
The directory search, the reading of a document and `getTotalWordCount` are parameters.

* A `std::string` is the list of its characters and a `std::map` the list of its
  entries in key order. Positions are natural numbers; a `size_t` subtraction, and an
  addition whose operand can be `string::npos`, wraps modulo `2 ^ 64` as in the source.
  The sums `suffix.length() + stemLength` and `syllables[i] + 1` of `replaceSuffix` are
  sums of natural numbers; a theorem that depends on one of them for numbers that are
  not lengths or positions of the string at hand takes the sum below `2 ^ 64`.
* A run of the C++ code that leaves defined behaviour (an `operator[]` beyond the
  end) or throws yields `Except.error`; every loop of the source carries an iteration
  bound, and exceeding it is a fault of its own, so a result `Except.ok s` always
  stands for a run that returned `s`.
* A `double` is an exact value of a field, see the section on `classifier.cpp`; the
  section on `double` with its infinities and NaN gives the classifier once more on the
  values a division by zero and the logarithm of zero produce, with the rounding of
  finite results as a parameter.
-/

namespace BayeseanClassifier

/-! ## Machine model -/

/-- Ways in which a run can fail to return a value. -/
inductive Fault where
  /-- `operator[]` applied at `index` on a container of `size` elements. -/
  | outOfBounds (index size : Nat)
  /-- `std::out_of_range` thrown by `erase` or `replace` at `pos`. -/
  | outOfRange (pos size : Nat)
  /-- The iteration bound given to a loop was not enough. -/
  | loopBound
  /-- A `BaseException` thrown with `message` by `THROW_BASE_EXCEPTION`. -/
  | baseException (message : List Char)
  deriving DecidableEq, Repr

/-- Equality of results is decidable, so a run on a given word can be evaluated. -/
instance decEqResult {α : Type} [DecidableEq α] : DecidableEq (Except Fault α)
  | .ok a, .ok b => if h : a = b then isTrue (by rw [h]) else isFalse (fun e => h (by cases e; rfl))
  | .error a, .error b =>
    if h : a = b then isTrue (by rw [h]) else isFalse (fun e => h (by cases e; rfl))
  | .ok _, .error _ => isFalse (fun e => by cases e)
  | .error _, .ok _ => isFalse (fun e => by cases e)

/-- Number of values of `size_t`. -/
def sizeMod : Nat := 2 ^ 64

/-- The constant `string::npos`. -/
def npos : Nat := sizeMod - 1

/-- Subtraction of `size_t` values, wrapping below zero. -/
def subSz (a b : Nat) : Nat := (a + sizeMod - b) % sizeMod

/-- Addition of `size_t` values, wrapping at `2 ^ 64`. -/
def addSz (a b : Nat) : Nat := (a + b) % sizeMod

/-- The read `s[i]` of a string; an index is valid when it is below the length (the
position of the terminator, `s[s.size()]`, counts as outside). -/
def charAt (s : List Char) (i : Nat) : Except Fault Char :=
  match s[i]? with
  | some c => .ok c
  | none => .error (.outOfBounds i s.length)

/-- The read `v[i]` of a `vector<size_t>`. -/
def sylAt (v : List Nat) (i : Nat) : Except Fault Nat :=
  match v[i]? with
  | some c => .ok c
  | none => .error (.outOfBounds i v.length)

/-- First position, counted from `i`, of a character of `cs` that satisfies `p`. -/
def findFrom (p : Char → Bool) : List Char → Nat → Nat
  | [], _ => npos
  | c :: cs, i => if p c then i else findFrom p cs (i + 1)

/-- The call `s.find_first_of(chars, pos)`. -/
def findFirstOf (s chars : List Char) (pos : Nat) : Nat :=
  findFrom (fun c => chars.contains c) (s.drop pos) pos

/-- The call `s.find_first_not_of(chars, pos)`. -/
def findFirstNotOf (s chars : List Char) (pos : Nat) : Nat :=
  findFrom (fun c => !chars.contains c) (s.drop pos) pos

/-- Last position at or before `i` whose character satisfies `p`. -/
def rfindFrom (p : Char → Bool) (s : List Char) : Nat → Nat
  | 0 =>
    match s[0]? with
    | some c => if p c then 0 else npos
    | none => npos
  | i + 1 =>
    match s[i + 1]? with
    | some c => if p c then i + 1 else rfindFrom p s i
    | none => rfindFrom p s i

/-- The call `s.find_last_of(chars, pos)`. -/
def findLastOf (s chars : List Char) (pos : Nat) : Nat :=
  if s.isEmpty then npos
  else rfindFrom (fun c => chars.contains c) s (min pos (s.length - 1))

/-- The call `s.rfind(ch, pos)` for a single character. -/
def rfind (s : List Char) (ch : Char) (pos : Nat) : Nat :=
  if s.isEmpty then npos
  else rfindFrom (fun c => c == ch) s (min pos (s.length - 1))

/-- The call `s.erase(pos)`: drops everything from `pos` on. -/
def eraseFrom (s : List Char) (pos : Nat) : Except Fault (List Char) :=
  if pos > s.length then .error (.outOfRange pos s.length) else .ok (s.take pos)

/-- The call `s.erase(pos, 1)`. -/
def eraseOne (s : List Char) (pos : Nat) : Except Fault (List Char) :=
  if pos > s.length then .error (.outOfRange pos s.length)
  else .ok (s.take pos ++ s.drop (pos + 1))

/-- The call `s.replace(pos, n, r)`. -/
def replaceAt (s : List Char) (pos n : Nat) (r : List Char) : Except Fault (List Char) :=
  if pos > s.length then .error (.outOfRange pos s.length)
  else .ok (s.take pos ++ r ++ s.drop (pos + n))

/-! ## `porterStemmer.cpp` -/

/-- The constant `_vowels`. -/
def vowels : List Char := ['a', 'e', 'i', 'o', 'u']

/-- The constant `_vowelsAndY`. -/
def vowelsAndY : List Char := ['a', 'e', 'i', 'o', 'u', 'y']

/-- `PorterStemmer::isConsonant`. -/
def isConsonant (letter : Char) : Bool := !vowelsAndY.contains letter

/-- The `while` loop of `stemHasVowel`, run from the position `index` of a `y`. -/
def stemHasVowelLoop (word : List Char) : Nat → Nat → Except Fault Nat
  | 0, _ => .error .loopBound
  | fuel + 1, index =>
    if index != npos && index != 0 then do
      let c ← charAt word (subSz index 1)
      if !isConsonant c then stemHasVowelLoop word fuel (rfind word 'y' (subSz index 1))
      else pure index
    else pure index

/-- `PorterStemmer::stemHasVowel`. -/
def stemHasVowel (word : List Char) (pos : Nat) : Except Fault Bool :=
  if findLastOf word vowels (subSz pos 1) != npos then pure true
  else do
    let index ← stemHasVowelLoop word (word.length + 1) (rfind word 'y' (subSz pos 1))
    pure (index != npos && index != 0)

/-- `PorterStemmer::hasSuffix`. -/
def hasSuffix (word suffix : List Char) : Bool :=
  if word.length ≤ suffix.length then false
  else ((word.drop (word.length - suffix.length)).take suffix.length) == suffix

/-- `PorterStemmer::hasSyllableCount`. -/
def hasSyllableCount (stem : List Char) (syllables : List Nat)
    (wantSyllable suffixSize : Nat) : Except Fault Bool :=
  if wantSyllable == 1 then pure true
  else if syllables.length ≥ subSz wantSyllable 1 then do
    let s ← sylAt syllables (subSz wantSyllable 2)
    pure (decide (s < subSz stem.length suffixSize))
  else pure false

/-- `PorterStemmer::replaceSuffix` with a minimum stem length; the result is the
word after the call together with the returned flag. The sum of the test is the sum of
the two numbers, which the `size_t` sum of the source is whenever it is below `2 ^ 64`. -/
def replaceSuffix (word suffix : List Char) (stemLength : Nat) (replacement : List Char) :
    Except Fault (List Char × Bool) :=
  if suffix.length + stemLength > word.length || !hasSuffix word suffix then
    pure (word, false)
  else do
    let w ← replaceAt word (word.length - suffix.length) suffix.length replacement
    pure (w, true)

/-- `PorterStemmer::replaceSuffix` without a stem length: the minimum is 1. -/
def replaceSuffix1 (word suffix replacement : List Char) : Except Fault (List Char × Bool) :=
  replaceSuffix word suffix 1 replacement

/-- A list of (suffix, replacement) rules, the type `SuffixReplacements`. -/
abbrev SuffixReplacements := List (List Char × List Char)

/-- The `while` loop of the rule-list `replaceSuffix`. -/
def replaceSuffixLoop (word : List Char) (wantStemSize : Nat) :
    SuffixReplacements → Except Fault (List Char × Bool)
  | [] => pure (word, false)
  | rule :: rest => do
    let r ← replaceSuffix word rule.1 wantStemSize rule.2
    if r.2 then pure r else replaceSuffixLoop r.1 wantStemSize rest

/-- `PorterStemmer::replaceSuffix` over a rule list. The stem size `s + 1` is the sum of
the numbers, which the `size_t` sum of the source is for every `s` below `2 ^ 64 - 1`. -/
def replaceSuffixList (word : List Char) (syllables : List Nat) (wantSyllable : Nat)
    (suffixes : SuffixReplacements) : Except Fault (List Char × Bool) :=
  if syllables.length + 1 < wantSyllable then pure (word, false)
  else do
    let wantStemSize ←
      if wantSyllable > 1 then do
        let s ← sylAt syllables (subSz wantSyllable 2)
        pure (s + 1)
      else pure 1
    replaceSuffixLoop word wantStemSize suffixes

/-- The test of the first loop of `nextSyllable`: the letter at `index` is a vowel. -/
def vowelAt (word : List Char) (index : Nat) : Except Fault Bool := do
  let c ← charAt word index
  if c != 'y' then pure true
  else if index != 0 then do
    let p ← charAt word (subSz index 1)
    pure (isConsonant p)
  else pure false

/-- The first `while` loop of `nextSyllable`. -/
def vowelLoop (word : List Char) : Nat → Nat → Except Fault Nat
  | 0, _ => .error .loopBound
  | fuel + 1, index =>
    if index != npos then do
      let v ← vowelAt word index
      if v then pure index
      else vowelLoop word fuel (findFirstOf word vowelsAndY (addSz index 1))
    else pure index

/-- The test of the second loop of `nextSyllable`: the letter at `index` is a
consonant. -/
def consonantAt (word : List Char) (index : Nat) : Except Fault Bool := do
  let c ← charAt word index
  if c != 'y' then pure true
  else if index != 0 then do
    let p ← charAt word (subSz index 1)
    pure (p != 'y')
  else pure false

/-- The second `while` loop of `nextSyllable`. -/
def consonantLoop (word : List Char) : Nat → Nat → Except Fault Nat
  | 0, _ => .error .loopBound
  | fuel + 1, index =>
    if index != npos then do
      let v ← consonantAt word index
      if v then pure index
      else consonantLoop word fuel (findFirstNotOf word vowels (addSz index 1))
    else pure index

/-- `PorterStemmer::nextSyllable`. -/
def nextSyllable (word : List Char) (pos : Nat) : Except Fault Nat := do
  let index ← vowelLoop word (word.length + 1) (findFirstOf word vowelsAndY pos)
  if index == npos then pure index
  else consonantLoop word (word.length + 1) (findFirstNotOf word vowels (addSz index 1))

/-- The `while` loop of `getSyllables`. -/
def getSyllablesLoop (word : List Char) : Nat → Nat → List Nat → Except Fault (List Nat)
  | 0, _, _ => .error .loopBound
  | fuel + 1, index, syllables =>
    if index != npos && decide (syllables.length < 4) then do
      let next ← nextSyllable word index
      if next != npos then getSyllablesLoop word fuel (addSz next 1) (syllables ++ [next])
      else getSyllablesLoop word fuel next syllables
    else pure syllables

/-- `PorterStemmer::getSyllables`: at most four pushes, one failed search and the
closing test of the loop condition. -/
def getSyllables (word : List Char) : Except Fault (List Nat) :=
  getSyllablesLoop word 6 0 []

/-- The C++ `a && b` on tests that read the string: `b` is evaluated only when `a`
holds. -/
def andAlso (a b : Except Fault Bool) : Except Fault Bool := do
  if (← a) then b else pure false

/-- The C++ `a || b` on tests that read the string: `b` is evaluated only when `a`
fails. -/
def orElse (a b : Except Fault Bool) : Except Fault Bool := do
  if (← a) then pure true else b

/-- Characters of a string literal of the source. -/
def lit (s : String) : List Char := s.toList

/-- Rule list built by successive `push_back(make_pair(suffix, replacement))`. -/
def rules (l : List (String × String)) : SuffixReplacements :=
  l.map fun p => (lit p.1, lit p.2)

/-- Plural to singular, the body of `if (stem[stem.length() - 1] == 's')` in
`getStem`. -/
def pluralStep (stem : List Char) : Except Fault (List Char) := do
  let r ← replaceSuffix1 stem (lit "sses") (lit "ss")
  if r.2 then pure r.1
  else do
    let r ← replaceSuffix1 r.1 (lit "ies") (lit "i")
    if r.2 then pure r.1
    else do
      let stem := r.1
      let strip ← andAlso (pure (decide (stem.length > 1)))
        (do let c ← charAt stem (subSz stem.length 2); pure (c != 's'))
      if strip then eraseFrom stem (subSz stem.length 1) else pure stem

/-- The body of `if (haveTenseConv)` in `getStem`: undo what adding `ed` or `ing`
did to the stem. -/
def tenseCleanup (stem : List Char) (syllables : List Nat) : Except Fault (List Char) := do
  if hasSuffix stem (lit "at") || hasSuffix stem (lit "bl") || hasSuffix stem (lit "iz") then
    pure (stem ++ lit "e")
  else do
    let lastChar ← charAt stem (subSz stem.length 1)
    let doubled ← andAlso
      (pure (lastChar != 'l' && lastChar != 's' && lastChar != 'z' && decide (stem.length > 1)))
      (do let c ← charAt stem (subSz stem.length 2); pure (lastChar == c))
    if doubled then eraseFrom stem (subSz stem.length 1)
    else do
      let cvc ←
        andAlso (pure (decide (stem.length ≥ 3)))
        (andAlso (hasSyllableCount stem syllables 2 0)
        (andAlso (do let b ← hasSyllableCount stem syllables 3 0; pure (!b))
        (andAlso (do let c ← charAt stem (subSz stem.length 1); pure (isConsonant c))
        (andAlso (do let c ← charAt stem (subSz stem.length 2); pure (!isConsonant c))
          (do let c ← charAt stem (subSz stem.length 3); pure (isConsonant c))))))
      if cvc then pure (stem ++ lit "e") else pure stem

/-- The last `else` branch of the first statement of `getStem`: `ed` and `ing`. -/
def tenseStep (stem : List Char) (syllables : List Nat) : Except Fault (List Char) := do
  let ed ← andAlso (pure (hasSuffix stem (lit "ed")))
    (stemHasVowel stem (subSz stem.length 2))
  if ed then do
    let stem ← eraseFrom stem (subSz stem.length 2)
    tenseCleanup stem syllables
  else do
    let ing ← andAlso (pure (hasSuffix stem (lit "ing")))
      (stemHasVowel stem (subSz stem.length 3))
    if ing then do
      let stem ← eraseFrom stem (subSz stem.length 3)
      tenseCleanup stem syllables
    else pure stem

/-- The first statement of `getStem`: plurals and verb tenses. -/
def pluralTense (stem : List Char) (syllables : List Nat) : Except Fault (List Char) := do
  let last ← charAt stem (subSz stem.length 1)
  if last == 's' then pluralStep stem
  else if hasSuffix stem (lit "eed") then do
    if (← hasSyllableCount stem syllables 2 3) then eraseFrom stem (subSz stem.length 1)
    else pure stem
  else tenseStep stem syllables

/-- The loop `while ((lastIndex >= 0) && (stem[lastIndex] == 'y')) lastIndex--;`.
`lastIndex` is a `size_t`, so the first test always holds. -/
def lastNonYLoop (stem : List Char) : Nat → Nat → Except Fault Nat
  | 0, _ => .error .loopBound
  | fuel + 1, lastIndex => do
    let go ← andAlso (pure (decide (lastIndex ≥ 0)))
      (do let c ← charAt stem lastIndex; pure (c == 'y'))
    if go then lastNonYLoop stem fuel (subSz lastIndex 1) else pure lastIndex

/-- The second statement of `getStem`: a final `y` becomes `i`. -/
def terminalY (stem : List Char) : Except Fault (List Char) := do
  let enter ← andAlso (do let c ← charAt stem (subSz stem.length 1); pure (c == 'y'))
    (pure (decide (stem.length > 1)))
  if enter then do
    let lastIndex ← lastNonYLoop stem (stem.length + 1) (subSz stem.length 2)
    if lastIndex ≥ 0 then do
      if (← stemHasVowel stem (addSz lastIndex 1)) then
        replaceAt stem (subSz stem.length 1) 1 (lit "i")
      else pure stem
    else pure stem
  else pure stem

/-- The `switch` of the first suffix pass, on the second to last letter. -/
def suffixes1 : Char → SuffixReplacements
  | 'a' => rules [("ational", "ate"), ("tional", "tion")]
  | 'c' => rules [("enci", "ence"), ("anci", "ance")]
  | 'e' => rules [("izer", "ize")]
  | 'l' => rules [("abli", "able"), ("alli", "al"), ("entli", "ent"), ("eli", "e"),
      ("ousli", "ous")]
  | 'o' => rules [("ization", "ize"), ("ation", "ate"), ("ator", "ate")]
  | 's' => rules [("alism", "al"), ("iveness", "ive"), ("fulness", "ful"),
      ("ousness", "ous")]
  | 't' => rules [("aliti", "al"), ("iviti", "ive"), ("biliti", "ble")]
  | _ => []

/-- The `switch` of the second suffix pass, on the last letter. -/
def suffixes2 : Char → SuffixReplacements
  | 'e' => rules [("icate", "ic"), ("ative", ""), ("alize", "al")]
  | 'i' => rules [("iciti", "ic")]
  | 'l' => rules [("ical", "ic"), ("ful", "")]
  | 's' => rules [("ness", "")]
  | _ => []

/-- The `switch` of the third suffix pass, on the second to last letter. -/
def suffixes3 : Char → SuffixReplacements
  | 'a' => rules [("al", "")]
  | 'c' => rules [("ance", ""), ("ence", "")]
  | 'e' => rules [("er", "")]
  | 'i' => rules [("ic", "")]
  | 'l' => rules [("able", ""), ("ible", "")]
  | 'n' => rules [("ant", ""), ("ement", ""), ("ment", ""), ("ent", "")]
  | 'o' => rules [("sion", "s"), ("tion", "t"), ("ou", "")]
  | 's' => rules [("ism", "")]
  | 't' => rules [("ate", ""), ("iti", "")]
  | 'u' => rules [("ous", "")]
  | 'v' => rules [("ive", "")]
  | 'z' => rules [("ize", "")]
  | _ => []

/-- One suffix pass of `getStem`: the length and syllable gate, the `switch` on the
letter `back` places from the end, and the rule list applied when it is not empty. -/
def suffixPass (table : Char → SuffixReplacements) (minLength back wantSyllable gateSyllable
    gateSuffix : Nat) (stem : List Char) (syllables : List Nat) :
    Except Fault (List Char) := do
  let enter ← andAlso (pure (decide (stem.length > minLength)))
    (hasSyllableCount stem syllables gateSyllable gateSuffix)
  if enter then do
    let c ← charAt stem (subSz stem.length back)
    let suffixes := table c
    if !suffixes.isEmpty then do
      let r ← replaceSuffixList stem syllables wantSyllable suffixes
      pure r.1
    else pure stem
  else pure stem

/-- The statement `if (stem[stem.length() - 1] == 'e')` closing `getStem`. -/
def finalE (stem : List Char) (syllables : List Nat) : Except Fault (List Char) := do
  let last ← charAt stem (subSz stem.length 1)
  if last == 'e' then do
    if (← hasSyllableCount stem syllables 3 1) then eraseOne stem (subSz stem.length 1)
    else if (← hasSyllableCount stem syllables 2 1) then do
      let testChar ← charAt stem (subSz stem.length 2)
      let strip ←
        orElse (pure (decide (stem.length < 4)))
        (orElse (do let c ← charAt stem (subSz stem.length 4); pure (!isConsonant c))
        (orElse (do let c ← charAt stem (subSz stem.length 3); pure (isConsonant c))
          (pure (!isConsonant testChar || testChar == 'w' || testChar == 'x'))))
      if strip then eraseOne stem (subSz stem.length 1) else pure stem
    else pure stem
  else pure stem

/-- The last statement of `getStem`: a final `ll` loses one `l`. -/
def finalL (stem : List Char) (syllables : List Nat) : Except Fault (List Char) := do
  let strip ← andAlso (hasSyllableCount stem syllables 3 1) (pure (hasSuffix stem (lit "ll")))
  if strip then eraseFrom stem (subSz stem.length 1) else pure stem

/-- `PorterStemmer::getStem`. -/
def getStem (word : List Char) : Except Fault (List Char) := do
  let syllables ← getSyllables word
  let stem := word
  let stem ← pluralTense stem syllables
  let stem ← terminalY stem
  let stem ← suffixPass suffixes1 3 2 2 2 3 stem syllables
  let stem ← suffixPass suffixes2 2 1 2 2 3 stem syllables
  let stem ← suffixPass suffixes3 3 2 3 3 2 stem syllables
  let stem ← finalE stem syllables
  finalL stem syllables

/-- A stem of two or more letters, all of them `y`. -/
def onlyY (s : List Char) : Bool := decide (2 ≤ s.length) && s.all fun c => c == 'y'

/-- The words that reach the terminal-y step of `getStem` as a stem made of `y` only:
two or more `y`, optionally followed by one `s`. -/
def yScanOverruns (word : List Char) : Bool :=
  onlyY word || (word.getLast? == some 's' && onlyY word.dropLast)

/-! ## `std::map`, `documentWordMapFactory.h`, `catWordData.h` -/

/-- A `std::map<K, V>`: the list of its entries in iteration order. -/
abbrev StdMap (K V : Type) := List (K × V)

/-- The invariant of a `std::map`: keys strictly ascending in iteration order. -/
def Ordered {K V : Type} [LT K] (m : StdMap K V) : Prop :=
  List.Pairwise (fun a b => a.1 < b.1) m

instance decOrdered {K V : Type} [LT K] [DecidableRel (fun a b : K => a < b)]
    (m : StdMap K V) : Decidable (Ordered m) := by
  unfold Ordered
  infer_instance

/-- The call `m.find(k)`; `none` stands for `m.end()`. -/
def mapFind {K V : Type} [DecidableEq K] : StdMap K V → K → Option V
  | [], _ => none
  | (k', v) :: rest, k => if k' = k then some v else mapFind rest k

/-- The call `m.insert(make_pair(k, v))`: the entry goes to its place in key order,
and an entry already stored under `k` is kept. -/
def mapInsert {K V : Type} [LinearOrder K] : StdMap K V → K → V → StdMap K V
  | [], k, v => [(k, v)]
  | (k', v') :: rest, k, v =>
    if k < k' then (k, v) :: (k', v') :: rest
    else if k' < k then (k', v') :: mapInsert rest k v
    else (k', v') :: rest

/-- A `std::string`: the list of its characters, ordered lexicographically as by
`operator<`. -/
abbrev Str := List Char

/-- `DocumentWordMap`, a `map<string, unsigned short>` from word to count. -/
abbrev DocumentWordMap := StdMap Str Nat

/-- `CatWordData`: the statistics of one category. -/
structure CatWordData where
  /-- `_docCount`, an `unsigned short`. -/
  docCount : Nat
  /-- `_wordCount`, an `unsigned int`. -/
  wordCount : Nat
  /-- `_totalWordCount`, an `unsigned int`. -/
  totalWordCount : Nat
  /-- `_wordData`. -/
  wordData : DocumentWordMap

/-- `InfoByCategory`, a `map<string, CatWordData>`. -/
abbrev InfoByCategory := StdMap Str CatWordData

/-! ## `classifier.cpp`

A `double` is a value of a field `R`; the function `log` of `<cmath>` is a parameter.
Taking the reals for `R` and the natural logarithm for `log` gives the exact
arithmetic the formulas of the classifier are written in. -/

/-- The data members of `Classifier`. -/
structure Classifier (R : Type) where
  /-- `_docProbability`. -/
  docProbability : R
  /-- `_wordProbability`. -/
  wordProbability : StdMap Str R
  /-- `_unknownWordProbability`. -/
  unknownWordProbability : R

/-- `CategoryClassifiers`, a `map<string, Classifier>`. -/
abbrev CategoryClassifiers (R : Type) := StdMap Str (Classifier R)

/-- `DocClassifyMap`, a `map<string, string>` from file name to category. -/
abbrev DocClassifyMap := StdMap Str Str

/-- The local `adjustedWordCount` of the constructor of `Classifier`. -/
def adjustedWordCount {R : Type} [DivisionRing R] (trainingData : CatWordData)
    (knownWordWeight : R) : R :=
  (trainingData.totalWordCount : R) + (trainingData.wordCount : R) * knownWordWeight

/-- The constructor `Classifier::Classifier`. -/
def Classifier.create {R : Type} [DivisionRing R] (log : R → R) (trainingData : CatWordData)
    (totalDocCount : Nat) (knownWordWeight : R) : Classifier R where
  docProbability := log ((trainingData.docCount : R) / (totalDocCount : R))
  wordProbability :=
    trainingData.wordData.foldl
      (fun m p =>
        mapInsert m p.1
          (log (((p.2 : R) + knownWordWeight) / adjustedWordCount trainingData knownWordWeight)))
      []
  unknownWordProbability := log (knownWordWeight / adjustedWordCount trainingData knownWordWeight)

/-- `Classifier::getCategoryProbability`. -/
def Classifier.getCategoryProbability {R : Type} [DivisionRing R] (c : Classifier R)
    (document : DocumentWordMap) : R :=
  document.foldl
    (fun probability p =>
      match mapFind c.wordProbability p.1 with
      | none => probability + c.unknownWordProbability * (p.2 : R)
      | some wordProbability => probability + wordProbability * (p.2 : R))
    c.docProbability

/-! ## `documentClassifier.cpp` -/

/-- The model-building part of the constructor `DocumentClassifier::DocumentClassifier`,
from the aggregated `trainingData` on: the two size tests, the total document count in
an `unsigned short`, and one `Classifier` inserted per entry with weight `1.0`. -/
def buildClassifiers {R : Type} [DivisionRing R] (log : R → R) (trainingData : InfoByCategory) :
    Except Fault (CategoryClassifiers R) :=
  if trainingData.length < 1 then
    .error (.baseException (lit "Error, no training data found in specified directories"))
  else if trainingData.length < 2 then
    .error (.baseException
      (lit "Error, training data found only for categoy " ++
        (trainingData.map Prod.fst).headD []))
  else
    let totalDocCount := trainingData.foldl (fun total p => (total + p.2.docCount) % 65536) 0
    .ok (trainingData.foldl
      (fun classifiers p => mapInsert classifiers p.1 (Classifier.create log p.2 totalDocCount 1))
      [])

/-- The `while` loop of `classifyFile`, carrying the locals `category` and
`logProbability`. -/
def classifyLoop {R : Type} [LinearOrderedField R] (wordMap : DocumentWordMap) :
    List (Str × Classifier R) → Str × R → Str × R
  | [], best => best
  | (label, c) :: rest, (category, logProbability) =>
    let newProbability := c.getCategoryProbability wordMap
    if newProbability > logProbability then classifyLoop wordMap rest (label, newProbability)
    else classifyLoop wordMap rest (category, logProbability)

/-- The category `classifyFile` chooses for a document with word map `wordMap`.
Dereferencing `begin()` of an empty map is outside defined behaviour. -/
def chooseCategory {R : Type} [LinearOrderedField R] (classifiers : CategoryClassifiers R)
    (wordMap : DocumentWordMap) : Except Fault Str :=
  match classifiers with
  | [] => .error (.outOfBounds 0 0)
  | (label, c) :: rest =>
    .ok (classifyLoop wordMap rest (label, c.getCategoryProbability wordMap)).1

/-- `DocumentClassifier::classifyFile`, given the word map read from the file: the
chosen category is inserted into `results` under the file name. -/
def classifyFile {R : Type} [LinearOrderedField R] (classifiers : CategoryClassifiers R)
    (fileName : Str) (wordMap : DocumentWordMap) (results : DocClassifyMap) :
    Except Fault DocClassifyMap := do
  let category ← chooseCategory classifiers wordMap
  pure (mapInsert results fileName category)

/-! ## Operations of `DocumentWordMap` and `CatWordData`

Counts are the machine integers of the source: an `unsigned short` wraps modulo
`65536` and an `unsigned int` modulo `4294967296`. -/

/-- `DocumentWordMap::addWordCount`: `lower_bound` walks past the keys below `word`; an
entry found there under `word` gets `count` added in its `unsigned short`, otherwise
the pair is inserted at that place. -/
def addWordCount {K : Type} [LinearOrder K] [DecidableEq K] :
    StdMap K Nat → K → Nat → StdMap K Nat
  | [], word, count => [(word, count)]
  | (k, v) :: rest, word, count =>
    if k < word then (k, v) :: addWordCount rest word count
    else if k = word then (k, (v + count) % 65536) :: rest
    else (word, count) :: (k, v) :: rest

/-- `DocumentWordMap::addWord`. -/
def addWord {K : Type} [LinearOrder K] [DecidableEq K] (m : StdMap K Nat) (word : K) :
    StdMap K Nat :=
  addWordCount m word 1

/-- `DocumentWordMap::mergeMap`: the map after the call, `other` being read only. -/
def mergeMap {K : Type} [LinearOrder K] [DecidableEq K] (m other : StdMap K Nat) :
    StdMap K Nat :=
  other.foldl (fun acc p => addWordCount acc p.1 p.2) m

/-- The count a word has after a merge, from its entries in the two maps: the sum in an
`unsigned short` when both hold the word, else the entry of the map that holds it. -/
def mergedCount : Option Nat → Option Nat → Option Nat
  | some a, some b => some ((a + b) % 65536)
  | some a, none => some a
  | none, some b => some b
  | none, none => none

/-- The sum of all counts of a word map, as a natural number. -/
def sumCounts {K : Type} (m : StdMap K Nat) : Nat := (m.map Prod.snd).sum

/-- The constructor `CatWordData::CatWordData`, which calls `clear()`. -/
def CatWordData.init : CatWordData := ⟨0, 0, 0, []⟩

/-- `CatWordData::addDocument`. The body of `DocumentWordMap::getTotalWordCount` is not
part of the sources at hand, so the function is a parameter. -/
def CatWordData.addDocument (getTotalWordCount : DocumentWordMap → Nat) (s : CatWordData)
    (docData : DocumentWordMap) : CatWordData where
  wordData := mergeMap s.wordData docData
  docCount := (s.docCount + 1) % 65536
  wordCount := (s.wordCount + docData.length) % 4294967296
  totalWordCount := (s.totalWordCount + getTotalWordCount docData) % 4294967296

/-- `CatWordData::mergeData`. -/
def CatWordData.mergeData (s other : CatWordData) : CatWordData where
  wordData := mergeMap s.wordData other.wordData
  docCount := (s.docCount + other.docCount) % 65536
  wordCount := (s.wordCount + other.wordCount) % 4294967296
  totalWordCount := (s.totalWordCount + other.totalWordCount) % 4294967296

/-- A sequence of `addWord` and `mergeMap` calls that starts from an empty map, the
merged maps being built the same way. -/
inductive WordMapOps where
  | empty
  | addWord (m : WordMapOps) (word : Str)
  | mergeMap (m other : WordMapOps)

/-- The map a sequence of calls builds. -/
def WordMapOps.run : WordMapOps → DocumentWordMap
  | .empty => []
  | .addWord m word => BayeseanClassifier.addWord m.run word
  | .mergeMap m other => BayeseanClassifier.mergeMap m.run other.run

/-- How often a sequence of calls adds `word`, the additions to merged maps included. -/
def WordMapOps.occurrences (word : Str) : WordMapOps → Nat
  | .empty => 0
  | .addWord m w => if w = word then m.occurrences word + 1 else m.occurrences word
  | .mergeMap m other => m.occurrences word + other.occurrences word

/-- A sequence of `addDocument` and `mergeData` calls on a freshly constructed
`CatWordData`, the merged statistics being built the same way. -/
inductive StatsOps where
  | fresh
  | addDocument (s : StatsOps) (docData : DocumentWordMap)
  | mergeData (s other : StatsOps)

/-- The statistics a sequence of calls builds. -/
def StatsOps.run (getTotalWordCount : DocumentWordMap → Nat) : StatsOps → CatWordData
  | .fresh => CatWordData.init
  | .addDocument s docData =>
    CatWordData.addDocument getTotalWordCount (s.run getTotalWordCount) docData
  | .mergeData s other =>
    CatWordData.mergeData (s.run getTotalWordCount) (other.run getTotalWordCount)

/-- Merging `other` into `m` wraps no count: wherever both hold a word the sum of the two
counts is below `65536`. -/
def mergeFits (m other : DocumentWordMap) : Bool :=
  other.all fun p =>
    match mapFind m p.1 with
    | some a => decide (a + p.2 < 65536)
    | none => true

/-- No addition of a sequence of calls wraps, and every document is a map with strictly
ascending keys: the per-word sums stay below `65536` and the totals below
`4294967296`. -/
def StatsOps.exact (getTotalWordCount : DocumentWordMap → Nat) : StatsOps → Bool
  | .fresh => true
  | .addDocument s docData =>
    s.exact getTotalWordCount && decide (Ordered docData) &&
      mergeFits (s.run getTotalWordCount).wordData docData &&
      decide ((s.run getTotalWordCount).totalWordCount + sumCounts docData < 4294967296)
  | .mergeData s other =>
    s.exact getTotalWordCount && other.exact getTotalWordCount &&
      mergeFits (s.run getTotalWordCount).wordData (other.run getTotalWordCount).wordData &&
      decide ((s.run getTotalWordCount).totalWordCount +
        (other.run getTotalWordCount).totalWordCount < 4294967296)

/-- The sequence of calls that merges a map into itself `n` times over, doubling every
count each time. -/
def WordMapOps.doubled : Nat → WordMapOps → WordMapOps
  | 0, m => m
  | n + 1, m => WordMapOps.doubled n (.mergeMap m m)

/-! ## `DocumentClassifier::classify`

The directory search and the reading of a file are the collaborators `findFiles` and
`getWordMap`, either of which can throw. The caller's `results` map is passed by
reference, so a call yields the exception it throws, if any, together with the map as
the call leaves it. -/

/-- The loop of `classifyDirs` over the files found. -/
def classifyFiles {R : Type} [LinearOrderedField R]
    (getWordMap : Str → Except Fault DocumentWordMap) (classifiers : CategoryClassifiers R) :
    List Str → DocClassifyMap → Option Fault × DocClassifyMap
  | [], results => (none, results)
  | fileName :: rest, results =>
    match getWordMap fileName with
    | .error e => (some e, results)
    | .ok wordMap =>
      match classifyFile classifiers fileName wordMap results with
      | .error e => (some e, results)
      | .ok results' => classifyFiles getWordMap classifiers rest results'

/-- `DocumentClassifier::classifyDirs`. -/
def classifyDirs {R : Type} [LinearOrderedField R]
    (findFiles : Str → Except Fault (List Str))
    (getWordMap : Str → Except Fault DocumentWordMap) (classifiers : CategoryClassifiers R)
    (dirName : Str) (results : DocClassifyMap) : Option Fault × DocClassifyMap :=
  match findFiles dirName with
  | .error e => (some e, results)
  | .ok fileList =>
    if fileList.isEmpty then
      (some (.baseException
        (lit "ERROR, directory or file to classify " ++ dirName ++ lit " contains no files")),
        results)
    else classifyFiles getWordMap classifiers fileList results

/-- The loop of `classify` over the list of targets. -/
def classifyTargets {R : Type} [LinearOrderedField R]
    (findFiles : Str → Except Fault (List Str))
    (getWordMap : Str → Except Fault DocumentWordMap) (classifiers : CategoryClassifiers R) :
    List Str → DocClassifyMap → Option Fault × DocClassifyMap
  | [], results => (none, results)
  | dirName :: rest, results =>
    match classifyDirs findFiles getWordMap classifiers dirName results with
    | (some e, results') => (some e, results')
    | (none, results') => classifyTargets findFiles getWordMap classifiers rest results'

/-- `DocumentClassifier::classify` on a list of files or directories. -/
def classifyList {R : Type} [LinearOrderedField R]
    (findFiles : Str → Except Fault (List Str))
    (getWordMap : Str → Except Fault DocumentWordMap) (classifiers : CategoryClassifiers R)
    (targets : List Str) (results : DocClassifyMap) : Option Fault × DocClassifyMap :=
  if classifiers.isEmpty then
    (some (.baseException
      (lit "Internal error: attempt to classify documents with invalid classifier")), results)
  else classifyTargets findFiles getWordMap classifiers targets []

/-- `DocumentClassifier::classify` on one file or directory. -/
def classify {R : Type} [LinearOrderedField R]
    (findFiles : Str → Except Fault (List Str))
    (getWordMap : Str → Except Fault DocumentWordMap) (classifiers : CategoryClassifiers R)
    (classifyDir : Str) (results : DocClassifyMap) : Option Fault × DocClassifyMap :=
  if classifiers.isEmpty then
    (some (.baseException
      (lit "Internal error: attempt to classify documents with invalid classifier")), results)
  else classifyDirs findFiles getWordMap classifiers classifyDir []

/-! ## Rule lists of the suffix passes

The rules each `switch` of `getStem` can push, and the test a rule has to pass. -/

/-- The test `replaceSuffix` makes before it rewrites the word: the suffix of the rule
ends the word and the stem left of it has at least `stemLength` letters. -/
def ruleApplies (word : List Char) (stemLength : Nat) (rule : List Char × List Char) : Bool :=
  !(decide (rule.1.length + stemLength > word.length) || !hasSuffix word rule.1)

/-- The word `replaceSuffix` leaves when the rule is applied: the suffix gives way to the
replacement. -/
def applyRule (word : List Char) (rule : List Char × List Char) : List Char :=
  word.take (word.length - rule.1.length) ++ rule.2

/-- Position at which the wanted syllable starts: `0` for the first syllable, else the
entry `syllables[wantSyllable - 2]`; `none` when the word never had that many
syllables. -/
def syllableBoundary (syllables : List Nat) (wantSyllable : Nat) : Option Nat :=
  if wantSyllable ≤ 1 then some 0 else syllables[wantSyllable - 2]?

/-- Every `case` of the `switch` of the first suffix pass, in source order. -/
def allSuffixes1 : SuffixReplacements :=
  suffixes1 'a' ++ suffixes1 'c' ++ suffixes1 'e' ++ suffixes1 'l' ++ suffixes1 'o' ++
    suffixes1 's' ++ suffixes1 't'

/-- Every `case` of the `switch` of the second suffix pass, in source order. -/
def allSuffixes2 : SuffixReplacements :=
  suffixes2 'e' ++ suffixes2 'i' ++ suffixes2 'l' ++ suffixes2 's'

/-- Every `case` of the `switch` of the third suffix pass, in source order. -/
def allSuffixes3 : SuffixReplacements :=
  suffixes3 'a' ++ suffixes3 'c' ++ suffixes3 'e' ++ suffixes3 'i' ++ suffixes3 'l' ++
    suffixes3 'n' ++ suffixes3 'o' ++ suffixes3 's' ++ suffixes3 't' ++ suffixes3 'u' ++
    suffixes3 'v' ++ suffixes3 'z'

/-- A suffix pass without its optimisations: neither the length and syllable gate nor the
`switch`, only the rule-list `replaceSuffix` over all the rules of the pass. -/
def ungatedPass (suffixes : SuffixReplacements) (wantSyllable : Nat) (stem : List Char)
    (syllables : List Nat) : Except Fault (List Char) := do
  let r ← replaceSuffixList stem syllables wantSyllable suffixes
  pure r.1

/-- The letter a rule list is dispatched on: the letter `back` places from the end of
the suffix. -/
def dispatchLetter (back : Nat) (rule : List Char × List Char) : Option Char :=
  rule.1[rule.1.length - back]?

/-! ## Letter classes of the syllable search -/

/-- The letter at `i` stops the first loop of `nextSyllable`: it is one of `aeiou`, or a
`y` that follows a consonant. -/
def countsAsVowel (word : List Char) (i : Nat) : Bool :=
  match word[i]? with
  | none => false
  | some c =>
    vowels.contains c ||
      (c == 'y' && i != 0 &&
        match word[i - 1]? with
        | some p => isConsonant p
        | none => false)

/-- The letter at `i` stops the second loop of `nextSyllable`: it is outside `aeiou` and
not a `y` that follows a `y`. -/
def closesSyllable (word : List Char) (i : Nat) : Bool :=
  match word[i]? with
  | none => false
  | some c =>
    !vowels.contains c &&
      (c != 'y' ||
        (i != 0 &&
          match word[i - 1]? with
          | some p => p != 'y'
          | none => false))

/-! ## The decision of `classifyFile` on given scores -/

/-- The `while` loop of `classifyFile` with the value `score` gives for a model in the
place of the call `getCategoryProbability(wordMap)`. -/
def classifyLoopOn {R : Type} [LinearOrderedField R] (score : Classifier R → R) :
    List (Str × Classifier R) → Str × R → Str × R
  | [], best => best
  | (label, c) :: rest, (category, logProbability) =>
    let newProbability := score c
    if newProbability > logProbability then classifyLoopOn score rest (label, newProbability)
    else classifyLoopOn score rest (category, logProbability)

/-- The category `classifyFile` chooses when the models are scored by `score`. -/
def chooseCategoryOn {R : Type} [LinearOrderedField R] (score : Classifier R → R)
    (classifiers : CategoryClassifiers R) : Except Fault Str :=
  match classifiers with
  | [] => .error (.outOfBounds 0 0)
  | (label, c) :: rest => .ok (classifyLoopOn score rest (label, score c)).1

/-! ## `catWordDataFactory.cpp` and the constructor of `DocumentClassifier`

The training of one root directory, `generateInfo(const string&, InfoByCategory&)`, reads
the file system; it is the collaborator `generateInfo`, which yields the map of the root
or throws. -/

/-- One step of the merge loop of `generateInfo`: `lower_bound` walks past the smaller
categories; statistics found under `category` get `data` merged in, otherwise the pair is
inserted at that place. -/
def mergeCategory : InfoByCategory → Str → CatWordData → InfoByCategory
  | [], category, data => [(category, data)]
  | (k, v) :: rest, category, data =>
    if k < category then (k, v) :: mergeCategory rest category data
    else if k = category then (k, v.mergeData data) :: rest
    else (category, data) :: (k, v) :: rest

/-- The merge loop of `generateInfo` over the categories of one root. -/
def mergeRoot (info newInfo : InfoByCategory) : InfoByCategory :=
  newInfo.foldl (fun acc p => mergeCategory acc p.1 p.2) info

/-- The `for` loop inside the `try` block of `generateInfo` over a list of roots: the
exception of the first root that fails, if any, and `info` as the loop leaves it. -/
def generateInfoLoop (generateInfo : Str → Except Fault InfoByCategory) :
    List Str → InfoByCategory → Option Fault × InfoByCategory
  | [], info => (none, info)
  | root :: rest, info =>
    match generateInfo root with
    | .error e => (some e, info)
    | .ok newInfo => generateInfoLoop generateInfo rest (mergeRoot info newInfo)

/-- `CatWordDataFactory::generateInfo` over a list of roots: `info.clear()`, the loop, and
the handler `catch (...) { info.clear(); throw; }`. The result is the exception thrown, if
any, and the caller's map on exit; the contents the map came with play no part. -/
def generateInfoList (generateInfo : Str → Except Fault InfoByCategory) (filesRoot : List Str)
    (_ : InfoByCategory) : Option Fault × InfoByCategory :=
  match generateInfoLoop generateInfo filesRoot [] with
  | (some e, _) => (some e, [])
  | (none, info) => (none, info)

/-- The body of the constructor `DocumentClassifier::DocumentClassifier`: the training
data of all roots, the models built from it, and the handler
`catch (...) { _classifiers.clear(); throw; }`. The result is the exception thrown, if
any, and the member `_classifiers` on exit. -/
def DocumentClassifier.create {R : Type} [DivisionRing R] (log : R → R)
    (generateInfo : Str → Except Fault InfoByCategory) (trainingDirs : List Str) :
    Option Fault × CategoryClassifiers R :=
  match generateInfoList generateInfo trainingDirs [] with
  | (some e, _) => (some e, [])
  | (none, trainingData) =>
    match buildClassifiers log trainingData with
    | .error e => (some e, [])
    | .ok classifiers => (none, classifiers)

/-! ## `categoryValidator.cpp`

A `double` of the report is `some x` for a finite value `x` of the field and `none` for
the outcome of a division by zero, which is not a finite number; `0.0 / 0.0` is a NaN. An
operation on `none` gives `none`, and a NaN converted to `bool` is `true`. -/

/-- `CatStats`: the three counters of a category, each an `unsigned short`. -/
structure CatStats where
  /-- `_correct`. -/
  correct : Nat
  /-- `_misclassToThis`. -/
  misclassToThis : Nat
  /-- `_misclassToOther`. -/
  misclassToOther : Nat

/-- Division of two `double` values. -/
def divDouble {R : Type} [Field R] [DecidableEq R] (a b : Option R) : Option R :=
  match a, b with
  | some x, some y => if y = 0 then none else some (x / y)
  | _, _ => none

/-- Sum of two `double` values. -/
def addDouble {R : Type} [Field R] (a b : Option R) : Option R :=
  match a, b with
  | some x, some y => some (x + y)
  | _, _ => none

/-- Product of two `double` values. -/
def mulDouble {R : Type} [Field R] (a b : Option R) : Option R :=
  match a, b with
  | some x, some y => some (x * y)
  | _, _ => none

/-- The local `precision` of the loop of `main`. -/
def precisionOf {R : Type} [Field R] [DecidableEq R] (s : CatStats) : Option R :=
  if s.correct ≠ 0 ∨ s.misclassToThis ≠ 0 then
    divDouble (some (s.correct : R))
      (addDouble (some (s.correct : R)) (some (s.misclassToThis : R)))
  else some 0

/-- The local `recall` of the loop of `main`; the test is the one of `precision`. -/
def recallOf {R : Type} [Field R] [DecidableEq R] (s : CatStats) : Option R :=
  if s.correct ≠ 0 ∨ s.misclassToThis ≠ 0 then
    divDouble (some (s.correct : R))
      (addDouble (some (s.correct : R)) (some (s.misclassToOther : R)))
  else some 0

/-- The local `fmeasure` of the loop of `main`. -/
def fmeasureOf {R : Type} [Field R] [DecidableEq R] (s : CatStats) : Option R :=
  let precision : Option R := precisionOf s
  let recallValue : Option R := recallOf s
  if addDouble precision recallValue ≠ some 0 then
    divDouble (mulDouble (mulDouble precision recallValue) (some 2))
      (addDouble precision recallValue)
  else some 0

/-! ## The measure of a word

What `getSyllables` is compared with: the places at which a letter outside `aeiou`
follows one of `aeiou`. -/

/-- The letter at `i` is outside `aeiou` and follows one of `aeiou`. -/
def vcTransition (word : List Char) (i : Nat) : Bool :=
  i != 0 &&
    (match word[i - 1]? with
      | some p => vowels.contains p
      | none => false) &&
    match word[i]? with
    | some c => !vowels.contains c
    | none => false

/-- The positions from `start` on at which a consonant follows a vowel, in ascending
order. -/
def vcTransitionsFrom (word : List Char) (start : Nat) : List Nat :=
  (List.range' start (word.length - start)).filter (vcTransition word)

/-- All positions at which a consonant follows a vowel. -/
def vcTransitions (word : List Char) : List Nat := vcTransitionsFrom word 0

/-- The measure of a word in the sense of Porter: how often a run of vowels is followed
by a consonant. -/
def measure (word : List Char) : Nat := (vcTransitions word).length

/-! ## `catWordDataFactory.cpp`, one root

The directory search and the reading of a file are the collaborators `findFiles` and
`getWordMap`. An `unsigned int` holds a position modulo `4294967296`. -/

/-- The argument `"/\\"` of `find_last_of`. -/
def pathSeparators : List Char := ['/', '\\']

/-- The call `s.substr(pos, n)`. -/
def substr (s : List Char) (pos n : Nat) : Except Fault (List Char) :=
  if pos > s.length then .error (.outOfRange pos s.length) else .ok ((s.drop pos).take n)

/-- The category of a file path in `generateInfo`: the two `unsigned int` positions, the
test that throws, and the `substr` between the positions. -/
def categoryOf (path : Str) : Except Fault Str :=
  let lastSlash := findLastOf path pathSeparators npos % 4294967296
  let secondLastSlash :=
    if lastSlash != npos && lastSlash != 0 then
      findLastOf path pathSeparators ((lastSlash + 4294967296 - 1) % 4294967296) % 4294967296
    else npos % 4294967296
  if secondLastSlash == npos ||
      decide ((lastSlash + 4294967296 - secondLastSlash) % 4294967296 ≤ 1) then
    .error (.baseException (lit "ERROR: could not extact category from file path " ++ path))
  else
    substr path ((secondLastSlash + 1) % 4294967296)
      ((lastSlash + 4294967296 - secondLastSlash + 4294967296 - 1) % 4294967296)

/-- The loop of `generateInfo` over the files found. `current` is `none` at
`fileList.begin()` and holds the locals `category` and `results` afterwards; the last
statement of the function inserts them when the list is at its end. -/
def generateInfoFiles (getTotalWordCount : DocumentWordMap → Nat)
    (getWordMap : Str → Except Fault DocumentWordMap) :
    List Str → Option (Str × CatWordData) → InfoByCategory → Except Fault InfoByCategory
  | [], none, info => .ok info
  | [], some (category, results), info => .ok (mapInsert info category results)
  | path :: rest, current, info => do
    let currCategory ← categoryOf path
    let (results, info) :=
      match current with
      | none => (CatWordData.init, info)
      | some (category, results) =>
        if category != currCategory then (CatWordData.init, mapInsert info category results)
        else (results, info)
    let data ← getWordMap path
    generateInfoFiles getTotalWordCount getWordMap rest
      (some (currCategory, results.addDocument getTotalWordCount data)) info

/-- `CatWordDataFactory::generateInfo` on one root: the map the caller's `info` holds
when the call returns. -/
def generateInfo (findFiles : Str → Except Fault (List Str))
    (getTotalWordCount : DocumentWordMap → Nat)
    (getWordMap : Str → Except Fault DocumentWordMap) (filesRoot : Str) :
    Except Fault InfoByCategory := do
  let fileList ← findFiles filesRoot
  generateInfoFiles getTotalWordCount getWordMap fileList none []

/-- The statistics of the first run of consecutive documents of `category` in a list of
documents with their categories; `none` when the category has no document. -/
def firstRunStats (getTotalWordCount : DocumentWordMap → Nat) (category : Str)
    (documents : List (Str × DocumentWordMap)) : Option CatWordData :=
  match documents.dropWhile (fun p => p.1 != category) with
  | [] => none
  | found =>
    some (((found.takeWhile (fun p => p.1 == category)).map Prod.snd).foldl
      (CatWordData.addDocument getTotalWordCount) CatWordData.init)

/-- The documents of every category stand together in the list: once the first run of a
category has ended the category does not come again. -/
def contiguous (documents : List (Str × DocumentWordMap)) : Bool :=
  documents.all fun q =>
    ((documents.dropWhile (fun p => p.1 != q.1)).dropWhile (fun p => p.1 == q.1)).all
      fun p => p.1 != q.1

/-- What two statistics of one category from two roots combine to; a category that only
one of them has keeps what it has. -/
def mergedStats : Option CatWordData → Option CatWordData → Option CatWordData
  | some a, some b => some (a.mergeData b)
  | some a, none => some a
  | none, some b => some b
  | none, none => none

/-- The word maps are `std::map`s all the way down: the categories stand in key order and
so do the words of every category. -/
def wellFormed (info : InfoByCategory) : Prop :=
  Ordered info ∧ ∀ p ∈ info, Ordered p.2.wordData

/-! ## Sequences of calls without overflow -/

/-- The documents a sequence of calls has added, those of merged statistics included. -/
def StatsOps.documents : StatsOps → List DocumentWordMap
  | .fresh => []
  | .addDocument s docData => s.documents ++ [docData]
  | .mergeData s other => s.documents ++ other.documents

/-- No addition to `_wordCount` wraps in a sequence of calls. -/
def StatsOps.wordCountExact (getTotalWordCount : DocumentWordMap → Nat) : StatsOps → Bool
  | .fresh => true
  | .addDocument s docData =>
    s.wordCountExact getTotalWordCount &&
      decide ((s.run getTotalWordCount).wordCount + docData.length < 4294967296)
  | .mergeData s other =>
    s.wordCountExact getTotalWordCount && other.wordCountExact getTotalWordCount &&
      decide ((s.run getTotalWordCount).wordCount + (other.run getTotalWordCount).wordCount <
        4294967296)

/-! ## `expectedResults.h` and `getClassifyResultStats` -/

/-- The data members of `ExpectedResults`. -/
structure ExpectedResults where
  /-- `_expectedResults`, from file path to category. -/
  expectedResults : StdMap Str Str
  /-- `_validCategories`, a `set<string>`: its elements in order. -/
  validCategories : List Str

/-- `ExpectedResults::getCorrectCategory`. -/
def ExpectedResults.getCorrectCategory (e : ExpectedResults) (fileName : Str) : Str :=
  match mapFind e.expectedResults fileName with
  | some category => category
  | none => []

/-- `ExpectedResults::isCatValid`. -/
def ExpectedResults.isCatValid (e : ExpectedResults) (category : Str) : Bool :=
  e.validCategories.contains category

/-- `CategoryStatsMap`, a `map<string, CatStats>`. -/
abbrev CategoryStatsMap := StdMap Str CatStats

/-- The access `stats[category]` followed by an update of the entry: an entry that is
missing is first inserted with the three counters at 0. -/
def updateStats : CategoryStatsMap → Str → (CatStats → CatStats) → CategoryStatsMap
  | [], category, f => [(category, f ⟨0, 0, 0⟩)]
  | (k, v) :: rest, category, f =>
    if k < category then (k, v) :: updateStats rest category f
    else if k = category then (k, f v) :: rest
    else (category, f ⟨0, 0, 0⟩) :: (k, v) :: rest

/-- The body of the loop of `getClassifyResultStats` for a line that splits into a file
and a category. -/
def recordResult (expected : ExpectedResults) (stats : CategoryStatsMap)
    (classifyFile category : Str) : CategoryStatsMap :=
  let expectedCategory := expected.getCorrectCategory classifyFile
  if expectedCategory.isEmpty then stats
  else if expectedCategory != category then
    let stats := updateStats stats expectedCategory fun s =>
      { s with misclassToOther := (s.misclassToOther + 1) % 65536 }
    if expected.isCatValid category then
      updateStats stats category fun s =>
        { s with misclassToThis := (s.misclassToThis + 1) % 65536 }
    else stats
  else
    updateStats stats expectedCategory fun s => { s with correct := (s.correct + 1) % 65536 }

/-- `getClassifyResultStats` on the lines of a results file that split into a file and a
category: the statistics map, or the exception thrown when it stays empty. -/
def getClassifyResultStats (resultsFile : Str) (expected : ExpectedResults)
    (results : List (Str × Str)) : Except Fault CategoryStatsMap :=
  let stats := results.foldl (fun stats line => recordResult expected stats line.1 line.2) []
  if stats.length ≤ 0 then
    .error (.baseException
      (lit "ERROR: results file " ++ resultsFile ++
        lit " contained no files in expected category directories"))
  else .ok stats

/-! ## `double` with its infinities and NaN

The constructor of `Classifier`, `getCategoryProbability` and the loop of `classifyFile`
once more, now on the values a `double` has: the finite ones, the two infinities and NaN.
A finite result is `round` of the exact result, where `round` is the identity for exact
arithmetic and `roundDouble` for the 53-bit significand of a `double`. A zero is the
positive zero (the divisors of the source are converted counts and sums with them), and
neither overflow nor underflow of a finite result is modelled. -/

/-- A value of type `double`. -/
inductive Dbl (R : Type) where
  /-- A finite value. -/
  | fin (x : R)
  /-- Positive infinity. -/
  | posInf
  /-- Negative infinity. -/
  | negInf
  /-- Not a number. -/
  | nan

/-- The function `log` of `<cmath>` on a `double`, `log` being its value on the positive
finite numbers: negative infinity at zero, NaN below zero. -/
def Dbl.log {R : Type} [LinearOrderedField R] (log : R → R) : Dbl R → Dbl R
  | .fin x => if 0 < x then .fin (log x) else if x = 0 then .negInf else .nan
  | .posInf => .posInf
  | .negInf => .nan
  | .nan => .nan

/-- Rounding to the nearest number with a significand of 53 bits, ties to the even
significand: the rounding of a `double`, the exponent taken without bounds. -/
def roundDouble (x : ℚ) : ℚ :=
  if x = 0 then 0
  else
    let quantum : ℚ := 2 ^ (Int.log 2 |x| - 52)
    let scaled : ℚ := |x| / quantum
    let lower : ℤ := ⌊scaled⌋
    let significand : ℤ :=
      if scaled - lower < 1 / 2 then lower
      else if 1 / 2 < scaled - lower then lower + 1
      else if lower % 2 = 0 then lower
      else lower + 1
    (if 0 < x then 1 else -1) * significand * quantum

/-- C1: `getStem` returns the expected stem for every pair of the test table of
`testStemmer` that exercises plurals, verb tenses and the final `y`. -/
theorem getStem_table_plural_tense :
    getStem (lit "caresses") = .ok (lit "caress") ∧
    getStem (lit "ponies") = .ok (lit "poni") ∧
    getStem (lit "ties") = .ok (lit "ti") ∧
    getStem (lit "caress") = .ok (lit "caress") ∧
    getStem (lit "cats") = .ok (lit "cat") ∧
    getStem (lit "syllables") = .ok (lit "syllabl") ∧
    getStem (lit "feed") = .ok (lit "feed") ∧
    getStem (lit "agreed") = .ok (lit "agre") ∧
    getStem (lit "plastered") = .ok (lit "plaster") ∧
    getStem (lit "bled") = .ok (lit "bled") ∧
    getStem (lit "sing") = .ok (lit "sing") ∧
    getStem (lit "flying") = .ok (lit "fly") ∧
    getStem (lit "conflated") = .ok (lit "conflat") ∧
    getStem (lit "troubled") = .ok (lit "troubl") ∧
    getStem (lit "sized") = .ok (lit "size") ∧
    getStem (lit "hopping") = .ok (lit "hop") ∧
    getStem (lit "falling") = .ok (lit "fall") ∧
    getStem (lit "hissing") = .ok (lit "hiss") ∧
    getStem (lit "failing") = .ok (lit "fail") ∧
    getStem (lit "filing") = .ok (lit "file") ∧
    getStem (lit "sky") = .ok (lit "sky") := by
  decide

/-- C2: `getStem` returns the expected stem for every pair of the test table of
`testStemmer` that exercises the first suffix table. -/
theorem getStem_table_first_suffixes :
    getStem (lit "relational") = .ok (lit "relat") ∧
    getStem (lit "conditional") = .ok (lit "condition") ∧
    getStem (lit "rational") = .ok (lit "ration") ∧
    getStem (lit "valency") = .ok (lit "valenc") ∧
    getStem (lit "digitizer") = .ok (lit "digit") ∧
    getStem (lit "conformably") = .ok (lit "conform") ∧
    getStem (lit "differently") = .ok (lit "differ") ∧
    getStem (lit "analogously") = .ok (lit "analog") ∧
    getStem (lit "authorization") = .ok (lit "author") ∧
    getStem (lit "predication") = .ok (lit "predic") ∧
    getStem (lit "operator") = .ok (lit "oper") ∧
    getStem (lit "feudalism") = .ok (lit "feudal") ∧
    getStem (lit "decisiveness") = .ok (lit "decis") ∧
    getStem (lit "hopefulness") = .ok (lit "hope") ∧
    getStem (lit "callousness") = .ok (lit "callous") ∧
    getStem (lit "formality") = .ok (lit "formal") ∧
    getStem (lit "sensitivity") = .ok (lit "sensit") ∧
    getStem (lit "sensibility") = .ok (lit "sensibl") ∧
    getStem (lit "ability") = .ok (lit "abil") := by
  decide

/-- C3: `getStem` returns the expected stem for every pair of the test table of
`testStemmer` that exercises the second and third suffix tables and the final cleanup. -/
theorem getStem_table_later_suffixes :
    getStem (lit "triplicate") = .ok (lit "triplic") ∧
    getStem (lit "formative") = .ok (lit "form") ∧
    getStem (lit "formalize") = .ok (lit "formal") ∧
    getStem (lit "electricity") = .ok (lit "electr") ∧
    getStem (lit "electrical") = .ok (lit "electr") ∧
    getStem (lit "revival") = .ok (lit "reviv") ∧
    getStem (lit "allowance") = .ok (lit "allow") ∧
    getStem (lit "inference") = .ok (lit "infer") ∧
    getStem (lit "airliner") = .ok (lit "airlin") ∧
    getStem (lit "adjustable") = .ok (lit "adjust") ∧
    getStem (lit "defensible") = .ok (lit "defens") ∧
    getStem (lit "replacement") = .ok (lit "replac") ∧
    getStem (lit "element") = .ok (lit "elem") ∧
    getStem (lit "dependent") = .ok (lit "depend") ∧
    getStem (lit "activate") = .ok (lit "activ") ∧
    getStem (lit "effective") = .ok (lit "effect") ∧
    getStem (lit "rate") = .ok (lit "rate") ∧
    getStem (lit "cease") = .ok (lit "ceas") ∧
    getStem (lit "controller") = .ok (lit "control") ∧
    getStem (lit "roll") = .ok (lit "roll") := by
  decide

/-- C4: on the word `yy` the backwards scan of the terminal-y step runs past the
first letter: `lastIndex` wraps to `2 ^ 64 - 1` and `stem[lastIndex]` is read outside
the two-letter stem, so `getStem` does not return a stem. -/
theorem getStem_yy_outOfBounds :
    getStem (lit "yy") = .error (.outOfBounds (2 ^ 64 - 1) 2) := by
  decide

/-! ## Bounds: every read of the syllable search stays inside the word -/

@[simp] theorem bind_ok {α β : Type} (a : α) (f : α → Except Fault β) :
    (Except.ok a >>= f) = f a := rfl

@[simp] theorem bind_error {α β : Type} (e : Fault) (f : α → Except Fault β) :
    (Except.error e >>= f) = Except.error e := rfl

@[simp] theorem pure_eq_ok {α : Type} (a : α) : (pure a : Except Fault α) = Except.ok a := rfl

theorem sizeMod_val : sizeMod = 18446744073709551616 := by decide

theorem npos_val : npos = 18446744073709551615 := by decide

theorem subSz_of_le {a b : Nat} (hb : b ≤ a) (ha : a < sizeMod) : subSz a b = a - b := by
  unfold subSz
  rw [sizeMod_val] at *
  omega

theorem addSz_of_lt {a b : Nat} (h : a + b < sizeMod) : addSz a b = a + b := by
  unfold addSz
  exact Nat.mod_eq_of_lt h

theorem charAt_of_lt {s : List Char} {i : Nat} (h : i < s.length) :
    ∃ c, charAt s i = .ok c ∧ s[i]? = some c := by
  refine ⟨s[i], ?_, List.getElem?_eq_getElem h⟩
  simp [charAt, List.getElem?_eq_getElem h]

theorem sylAt_of_lt {v : List Nat} {i : Nat} (h : i < v.length) : ∃ c, sylAt v i = .ok c := by
  refine ⟨v[i], ?_⟩
  simp [sylAt, List.getElem?_eq_getElem h]

theorem findFrom_bound (p : Char → Bool) :
    ∀ (cs : List Char) (i : Nat),
      findFrom p cs i = npos ∨ (i ≤ findFrom p cs i ∧ findFrom p cs i < i + cs.length) := by
  intro cs
  induction cs with
  | nil => intro i; exact Or.inl rfl
  | cons c cs ih =>
    intro i
    simp only [findFrom]
    split
    · exact Or.inr ⟨le_refl _, by simp⟩
    · rcases ih (i + 1) with h | ⟨h1, h2⟩
      · exact Or.inl h
      · exact Or.inr ⟨by omega, by simp only [List.length_cons]; omega⟩

theorem findFirstOf_bound (s chars : List Char) (pos : Nat) :
    findFirstOf s chars pos = npos ∨
      (pos ≤ findFirstOf s chars pos ∧ findFirstOf s chars pos < s.length) := by
  unfold findFirstOf
  rcases findFrom_bound (fun c => chars.contains c) (s.drop pos) pos with h | ⟨h1, h2⟩
  · exact Or.inl h
  · refine Or.inr ⟨h1, ?_⟩
    rw [List.length_drop] at h2
    omega

theorem findFirstNotOf_bound (s chars : List Char) (pos : Nat) :
    findFirstNotOf s chars pos = npos ∨
      (pos ≤ findFirstNotOf s chars pos ∧ findFirstNotOf s chars pos < s.length) := by
  unfold findFirstNotOf
  rcases findFrom_bound (fun c => !chars.contains c) (s.drop pos) pos with h | ⟨h1, h2⟩
  · exact Or.inl h
  · refine Or.inr ⟨h1, ?_⟩
    rw [List.length_drop] at h2
    omega

theorem vowelAt_ok (s : List Char) (index : Nat) (hlen : s.length < sizeMod)
    (h : index < s.length) : ∃ v, vowelAt s index = .ok v := by
  obtain ⟨c, hc, -⟩ := charAt_of_lt h
  unfold vowelAt
  rw [hc]
  simp only [bind_ok]
  split
  · exact ⟨_, rfl⟩
  · split
    · rename_i h0
      have h0' : index ≠ 0 := by simpa using h0
      have hlt : subSz index 1 < s.length := by
        rw [subSz_of_le (by omega) (by omega)]
        omega
      obtain ⟨d, hd, -⟩ := charAt_of_lt hlt
      rw [hd]
      exact ⟨_, rfl⟩
    · exact ⟨_, rfl⟩

theorem consonantAt_ok (s : List Char) (index : Nat) (hlen : s.length < sizeMod)
    (h : index < s.length) : ∃ v, consonantAt s index = .ok v := by
  obtain ⟨c, hc, -⟩ := charAt_of_lt h
  unfold consonantAt
  rw [hc]
  simp only [bind_ok]
  split
  · exact ⟨_, rfl⟩
  · split
    · rename_i h0
      have h0' : index ≠ 0 := by simpa using h0
      have hlt : subSz index 1 < s.length := by
        rw [subSz_of_le (by omega) (by omega)]
        omega
      obtain ⟨d, hd, -⟩ := charAt_of_lt hlt
      rw [hd]
      exact ⟨_, rfl⟩
    · exact ⟨_, rfl⟩

theorem vowelLoop_ok (s : List Char) (hlen : s.length < sizeMod) :
    ∀ (fuel index : Nat), 1 ≤ fuel →
      (index ≠ npos → index < s.length ∧ s.length + 1 ≤ fuel + index) →
      ∃ r, vowelLoop s fuel index = .ok r ∧ (r = npos ∨ r < s.length) := by
  intro fuel
  induction fuel with
  | zero => intro index h; omega
  | succ fuel ih =>
    intro index _ hidx
    simp only [vowelLoop]
    by_cases hn : index = npos
    · simp [hn]
    · obtain ⟨hlt, hfuel⟩ := hidx hn
      obtain ⟨v, hv⟩ := vowelAt_ok s index hlen hlt
      simp only [bne_iff_ne, ne_eq, hn, not_false_eq_true, if_true, hv, bind_ok]
      cases v with
      | true => exact ⟨index, by simp, Or.inr hlt⟩
      | false =>
        simp only [Bool.false_eq_true, if_false]
        rw [addSz_of_lt (by omega)]
        apply ih
        · omega
        · intro hne
          rcases findFirstOf_bound s vowelsAndY (index + 1) with h | ⟨h1, h2⟩
          · exact absurd h hne
          · exact ⟨h2, by omega⟩

theorem consonantLoop_ok (s : List Char) (hlen : s.length < sizeMod) :
    ∀ (fuel index : Nat), 1 ≤ fuel →
      (index ≠ npos → index < s.length ∧ s.length + 1 ≤ fuel + index) →
      ∃ r, consonantLoop s fuel index = .ok r ∧ (r = npos ∨ r < s.length) := by
  intro fuel
  induction fuel with
  | zero => intro index h; omega
  | succ fuel ih =>
    intro index _ hidx
    simp only [consonantLoop]
    by_cases hn : index = npos
    · simp [hn]
    · obtain ⟨hlt, hfuel⟩ := hidx hn
      obtain ⟨v, hv⟩ := consonantAt_ok s index hlen hlt
      simp only [bne_iff_ne, ne_eq, hn, not_false_eq_true, if_true, hv, bind_ok]
      cases v with
      | true => exact ⟨index, by simp, Or.inr hlt⟩
      | false =>
        simp only [Bool.false_eq_true, if_false]
        rw [addSz_of_lt (by omega)]
        apply ih
        · omega
        · intro hne
          rcases findFirstNotOf_bound s vowels (index + 1) with h | ⟨h1, h2⟩
          · exact absurd h hne
          · exact ⟨h2, by omega⟩

theorem nextSyllable_ok (s : List Char) (hlen : s.length < sizeMod) (pos : Nat) :
    ∃ r, nextSyllable s pos = .ok r ∧ (r = npos ∨ r < s.length) := by
  unfold nextSyllable
  obtain ⟨r1, h1, hr1⟩ := vowelLoop_ok s hlen (s.length + 1)
    (findFirstOf s vowelsAndY pos) (by omega) (by
      intro hne
      rcases findFirstOf_bound s vowelsAndY pos with h | ⟨_, h2⟩
      · exact absurd h hne
      · exact ⟨h2, by omega⟩)
  rw [h1]
  simp only [bind_ok]
  by_cases hn : r1 = npos
  · simp [hn]
  · have hlt : r1 < s.length := by
      rcases hr1 with h | h
      · exact absurd h hn
      · exact h
    simp only [beq_iff_eq, hn, if_false]
    rw [addSz_of_lt (by omega)]
    exact consonantLoop_ok s hlen (s.length + 1) _ (by omega) (by
      intro hne
      rcases findFirstNotOf_bound s vowels (r1 + 1) with h | ⟨_, h2⟩
      · exact absurd h hne
      · exact ⟨h2, by omega⟩)

theorem getSyllablesLoop_ok (s : List Char) (hlen : s.length < sizeMod) :
    ∀ (fuel index : Nat) (syllables : List Nat), 1 ≤ fuel →
      (index ≠ npos → (4 - syllables.length) + 2 ≤ fuel) →
      ∃ l, getSyllablesLoop s fuel index syllables = .ok l := by
  intro fuel
  induction fuel with
  | zero => intro index syllables h; omega
  | succ fuel ih =>
    intro index syllables _ hidx
    simp only [getSyllablesLoop]
    split
    · rename_i hc
      simp only [Bool.and_eq_true, bne_iff_ne, ne_eq, decide_eq_true_eq] at hc
      obtain ⟨next, hnext, -⟩ := nextSyllable_ok s hlen index
      have hf := hidx hc.1
      simp only [hnext, bind_ok]
      split
      · apply ih
        · omega
        · intro _
          simp only [List.length_append, List.length_singleton]
          omega
      · rename_i hn
        have hn' : next = npos := by simpa using hn
        apply ih
        · omega
        · intro h
          exact absurd hn' h
    · exact ⟨_, rfl⟩

theorem getSyllables_ok (s : List Char) (hlen : s.length < sizeMod) :
    ∃ l, getSyllables s = .ok l :=
  getSyllablesLoop_ok s hlen 6 0 [] (by omega) (by intro _; simp)

/-! ## The suffix rules keep a stem non-empty and never lengthen it -/

theorem andAlso_pure (b : Bool) (x : Except Fault Bool) :
    andAlso (pure b) x = if b then x else .ok false := by
  cases b <;> rfl

theorem orElse_pure (b : Bool) (x : Except Fault Bool) :
    orElse (pure b) x = if b then .ok true else x := by
  cases b <;> rfl

theorem hasSyllableCount_ok (stem : List Char) (syllables : List Nat) (want k : Nat)
    (hw : want = 2 ∨ want = 3) :
    ∃ b, hasSyllableCount stem syllables want k = .ok b ∧
      (b = true → 0 < subSz stem.length k) := by
  have e1 : subSz 2 1 = 1 := by decide
  have e2 : subSz 2 2 = 0 := by decide
  have e3 : subSz 3 1 = 2 := by decide
  have e4 : subSz 3 2 = 1 := by decide
  unfold hasSyllableCount
  rcases hw with rfl | rfl
  · simp only [e1, e2]
    by_cases hl : syllables.length ≥ 1
    · obtain ⟨c, hc⟩ := sylAt_of_lt (show 0 < syllables.length by omega)
      refine ⟨decide (c < subSz stem.length k), by simp [hl, hc], ?_⟩
      intro h
      have := of_decide_eq_true h
      omega
    · exact ⟨false, by simp [hl], by simp⟩
  · simp only [e3, e4]
    by_cases hl : syllables.length ≥ 2
    · obtain ⟨c, hc⟩ := sylAt_of_lt (show 1 < syllables.length by omega)
      refine ⟨decide (c < subSz stem.length k), by simp [hl, hc], ?_⟩
      intro h
      have := of_decide_eq_true h
      omega
    · exact ⟨false, by simp [hl], by simp⟩

theorem hasSuffix_length {word suffix : List Char} (h : hasSuffix word suffix = true) :
    suffix.length < word.length := by
  unfold hasSuffix at h
  by_contra hc
  simp [show word.length ≤ suffix.length by omega] at h

theorem replaceSuffix_spec (word suffix : List Char) (n : Nat) (replacement : List Char) :
    ∃ r, replaceSuffix word suffix n replacement = .ok r ∧
      ((r.2 = false ∧ r.1 = word) ∨
        (r.2 = true ∧ suffix.length < word.length ∧
          r.1 = word.take (word.length - suffix.length) ++ replacement)) := by
  unfold replaceSuffix
  split
  · exact ⟨_, rfl, Or.inl ⟨rfl, rfl⟩⟩
  · rename_i hc
    simp only [Bool.or_eq_true, decide_eq_true_eq, Bool.not_eq_true', not_or,
      Bool.not_eq_false] at hc
    have hlt := hasSuffix_length hc.2
    have hpos : ¬ word.length - suffix.length > word.length := by omega
    have hdrop : word.drop (word.length - suffix.length + suffix.length) = [] := by
      apply List.drop_eq_nil_of_le
      omega
    refine ⟨(word.take (word.length - suffix.length) ++ replacement, true), ?_,
      Or.inr ⟨rfl, hlt, rfl⟩⟩
    simp [replaceAt, hpos, hdrop]

theorem replaceSuffix_keeps (word suffix : List Char) (n : Nat) (replacement : List Char)
    (hne : word ≠ []) (hrule : replacement.length ≤ suffix.length) :
    ∃ r, replaceSuffix word suffix n replacement = .ok r ∧ r.1 ≠ [] ∧
      r.1.length ≤ word.length ∧ (r.2 = false → r.1 = word) := by
  obtain ⟨r, hr, h⟩ := replaceSuffix_spec word suffix n replacement
  refine ⟨r, hr, ?_⟩
  rcases h with ⟨hf, hw⟩ | ⟨ht, hlt, hw⟩
  · rw [hw]
    exact ⟨hne, le_refl _, fun _ => rfl⟩
  · rw [hw]
    refine ⟨?_, ?_, ?_⟩
    · intro he
      have := congrArg List.length he
      simp only [List.length_append, List.length_take, List.length_nil] at this
      omega
    · simp only [List.length_append, List.length_take]
      omega
    · intro hf
      rw [ht] at hf
      cases hf

theorem replaceSuffixLoop_keeps (n : Nat) :
    ∀ (suffixes : SuffixReplacements) (word : List Char), word ≠ [] →
      (∀ rule ∈ suffixes, rule.2.length ≤ rule.1.length) →
      ∃ r, replaceSuffixLoop word n suffixes = .ok r ∧ r.1 ≠ [] ∧
        r.1.length ≤ word.length := by
  intro suffixes
  induction suffixes with
  | nil => intro word hne _; exact ⟨_, rfl, hne, le_refl _⟩
  | cons rule rest ih =>
    intro word hne hrules
    obtain ⟨r, hr, h1, h2, h3⟩ := replaceSuffix_keeps word rule.1 n rule.2 hne
      (hrules rule (List.mem_cons_self _ _))
    simp only [replaceSuffixLoop, hr, bind_ok]
    cases hb : r.2 with
    | true => exact ⟨r, by simp, h1, h2⟩
    | false =>
      simp only [Bool.false_eq_true, if_false]
      rw [h3 hb]
      exact ih word hne (fun q hq => hrules q (List.mem_cons_of_mem _ hq))

theorem replaceSuffixList_keeps (word : List Char) (syllables : List Nat) (want : Nat)
    (suffixes : SuffixReplacements) (hw : want = 2 ∨ want = 3) (hne : word ≠ [])
    (hrules : ∀ rule ∈ suffixes, rule.2.length ≤ rule.1.length) :
    ∃ r, replaceSuffixList word syllables want suffixes = .ok r ∧ r.1 ≠ [] ∧
      r.1.length ≤ word.length := by
  have e2 : subSz 2 2 = 0 := by decide
  have e4 : subSz 3 2 = 1 := by decide
  unfold replaceSuffixList
  split
  · exact ⟨_, rfl, hne, le_refl _⟩
  · rename_i hc
    have hgt : want > 1 := by omega
    have hidx : subSz want 2 < syllables.length := by
      rcases hw with rfl | rfl
      · rw [e2]; omega
      · rw [e4]; omega
    obtain ⟨c, hc⟩ := sylAt_of_lt hidx
    simp only [hgt, if_true, hc, bind_ok, pure_eq_ok]
    exact replaceSuffixLoop_keeps (c + 1) suffixes word hne hrules

theorem suffixes1_rules (c : Char) : ∀ rule ∈ suffixes1 c, rule.2.length ≤ rule.1.length := by
  unfold suffixes1
  split <;> decide

theorem suffixes2_rules (c : Char) : ∀ rule ∈ suffixes2 c, rule.2.length ≤ rule.1.length := by
  unfold suffixes2
  split <;> decide

theorem suffixes3_rules (c : Char) : ∀ rule ∈ suffixes3 c, rule.2.length ≤ rule.1.length := by
  unfold suffixes3
  split <;> decide

theorem suffixPass_keeps (table : Char → SuffixReplacements) (minLength back want gate k : Nat)
    (stem : List Char) (syllables : List Nat)
    (htable : ∀ c, ∀ rule ∈ table c, rule.2.length ≤ rule.1.length)
    (hw : want = 2 ∨ want = 3) (hg : gate = 2 ∨ gate = 3) (hback : back ≤ minLength)
    (hback1 : 1 ≤ back) (hne : stem ≠ []) (hlen : stem.length < sizeMod) :
    ∃ s, suffixPass table minLength back want gate k stem syllables = .ok s ∧ s ≠ [] ∧
      s.length ≤ stem.length := by
  obtain ⟨b, hb, -⟩ := hasSyllableCount_ok stem syllables gate k hg
  unfold suffixPass
  rw [andAlso_pure, hb]
  by_cases hmin : stem.length > minLength
  · cases b with
    | false => simp only [hmin, decide_True, if_true, bind_ok]; exact ⟨_, rfl, hne, le_refl _⟩
    | true =>
      have hidx : subSz stem.length back < stem.length := by
        rw [subSz_of_le (by omega) hlen]
        omega
      obtain ⟨c, hc, -⟩ := charAt_of_lt hidx
      simp only [hmin, decide_True, if_true, bind_ok, hc]
      split
      · obtain ⟨r, hr, h1, h2⟩ :=
          replaceSuffixList_keeps stem syllables want (table c) hw hne (htable c)
        exact ⟨r.1, by simp [hr], h1, h2⟩
      · exact ⟨_, rfl, hne, le_refl _⟩
  · simp only [hmin, decide_False, Bool.false_eq_true, if_false, bind_ok]
    exact ⟨_, rfl, hne, le_refl _⟩

theorem length_pos_of_ne_nil {s : List Char} (h : s ≠ []) : 0 < s.length :=
  List.length_pos.mpr h

theorem finalE_keeps (stem : List Char) (syllables : List Nat) (hne : stem ≠ [])
    (hlen : stem.length < sizeMod) :
    ∃ s, finalE stem syllables = .ok s ∧ s ≠ [] ∧ s.length ≤ stem.length := by
  have hpos := length_pos_of_ne_nil hne
  have h1 : subSz stem.length 1 = stem.length - 1 := subSz_of_le (by omega) hlen
  obtain ⟨last, hlast, -⟩ := charAt_of_lt (show subSz stem.length 1 < stem.length by omega)
  obtain ⟨b3, hb3, h3⟩ := hasSyllableCount_ok stem syllables 3 1 (Or.inr rfl)
  obtain ⟨b2, hb2, h2⟩ := hasSyllableCount_ok stem syllables 2 1 (Or.inl rfl)
  have herase : 2 ≤ stem.length →
      ∃ s, eraseOne stem (subSz stem.length 1) = .ok s ∧ s ≠ [] ∧ s.length ≤ stem.length := by
    intro h2
    refine ⟨stem.take (stem.length - 1) ++ stem.drop (stem.length - 1 + 1), ?_, ?_, ?_⟩
    · simp [eraseOne, h1]
    · intro he
      have := congrArg List.length he
      simp only [List.length_append, List.length_take, List.length_nil] at this
      omega
    · simp only [List.length_append, List.length_take, List.length_drop]
      omega
  unfold finalE
  simp only [hlast, bind_ok, hb3, hb2]
  split
  · cases b3 with
    | true =>
      simp only [if_true]
      exact herase (by have := h3 rfl; omega)
    | false =>
      simp only [Bool.false_eq_true, if_false]
      cases b2 with
      | false => exact ⟨_, rfl, hne, le_refl _⟩
      | true =>
        have hl2 : 2 ≤ stem.length := by have := h2 rfl; omega
        have e2 : subSz stem.length 2 = stem.length - 2 := subSz_of_le hl2 hlen
        obtain ⟨t, ht, -⟩ := charAt_of_lt (show subSz stem.length 2 < stem.length by omega)
        simp only [if_true, ht, bind_ok, orElse_pure]
        have hstrip : ∃ b, (if decide (stem.length < 4) = true then Except.ok true
            else orElse (do let c ← charAt stem (subSz stem.length 4); pure (!isConsonant c))
              (orElse (do let c ← charAt stem (subSz stem.length 3); pure (isConsonant c))
                (pure (!isConsonant t || t == 'w' || t == 'x')))) = .ok b := by
          by_cases h4 : stem.length < 4
          · exact ⟨true, by simp [h4]⟩
          · have e4 : subSz stem.length 4 = stem.length - 4 := subSz_of_le (by omega) hlen
            have e3 : subSz stem.length 3 = stem.length - 3 := subSz_of_le (by omega) hlen
            obtain ⟨c4, hc4, -⟩ :=
              charAt_of_lt (show subSz stem.length 4 < stem.length by omega)
            obtain ⟨c3, hc3, -⟩ :=
              charAt_of_lt (show subSz stem.length 3 < stem.length by omega)
            simp only [h4, decide_False, Bool.false_eq_true, if_false, hc4, hc3, bind_ok,
              pure_eq_ok, orElse]
            cases isConsonant c4 <;> cases isConsonant c3 <;> simp
        obtain ⟨b, hb⟩ := hstrip
        rw [hb]
        simp only [bind_ok]
        cases b with
        | true => simp only [if_true]; exact herase hl2
        | false => exact ⟨_, rfl, hne, le_refl _⟩
  · exact ⟨_, rfl, hne, le_refl _⟩

theorem finalL_keeps (stem : List Char) (syllables : List Nat) (hne : stem ≠ [])
    (hlen : stem.length < sizeMod) :
    ∃ s, finalL stem syllables = .ok s ∧ s ≠ [] ∧ s.length ≤ stem.length := by
  have hpos := length_pos_of_ne_nil hne
  have h1 : subSz stem.length 1 = stem.length - 1 := subSz_of_le (by omega) hlen
  obtain ⟨b3, hb3, h3⟩ := hasSyllableCount_ok stem syllables 3 1 (Or.inr rfl)
  unfold finalL
  simp only [andAlso, hb3, bind_ok, pure_eq_ok]
  cases b3 with
  | false => exact ⟨_, rfl, hne, le_refl _⟩
  | true =>
    simp only [if_true, bind_ok]
    split
    · have hl := h3 rfl
      refine ⟨stem.take (stem.length - 1), by simp [eraseFrom, h1], ?_, ?_⟩
      · intro he
        have := congrArg List.length he
        simp only [List.length_take, List.length_nil] at this
        omega
      · simp only [List.length_take]
        omega
    · exact ⟨_, rfl, hne, le_refl _⟩

/-! ## The vowel test and the terminal-y step -/

theorem rfindFrom_spec (p : Char → Bool) (s : List Char) :
    ∀ i : Nat, rfindFrom p s i = npos ∨
      (rfindFrom p s i ≤ i ∧ ∃ c, s[rfindFrom p s i]? = some c ∧ p c = true) := by
  intro i
  induction i with
  | zero =>
    simp only [rfindFrom]
    cases h : s[0]? with
    | none => exact Or.inl rfl
    | some c =>
      by_cases hp : p c = true
      · simp only [hp, if_true]
        exact Or.inr ⟨le_refl _, c, h, hp⟩
      · simp only [hp, if_false]
        exact Or.inl rfl
  | succ i ih =>
    simp only [rfindFrom]
    have hrec : rfindFrom p s i = npos ∨
        (rfindFrom p s i ≤ i + 1 ∧ ∃ c, s[rfindFrom p s i]? = some c ∧ p c = true) := by
      rcases ih with h | ⟨h1, h2⟩
      · exact Or.inl h
      · exact Or.inr ⟨by omega, h2⟩
    cases h : s[i + 1]? with
    | none => exact hrec
    | some c =>
      by_cases hp : p c = true
      · simp only [hp, if_true]
        exact Or.inr ⟨le_refl _, c, h, hp⟩
      · simp only [hp, if_false]
        exact hrec

theorem getElem?_lt {s : List Char} {i : Nat} {c : Char} (h : s[i]? = some c) :
    i < s.length := by
  by_contra hc
  rw [List.getElem?_eq_none (by omega)] at h
  cases h

theorem findLastOf_spec (s chars : List Char) (pos : Nat) :
    findLastOf s chars pos = npos ∨
      (findLastOf s chars pos ≤ pos ∧
        ∃ c, s[findLastOf s chars pos]? = some c ∧ chars.contains c = true) := by
  unfold findLastOf
  split
  · exact Or.inl rfl
  · rcases rfindFrom_spec (fun c => chars.contains c) s (min pos (s.length - 1)) with h | ⟨h1, h2⟩
    · exact Or.inl h
    · exact Or.inr ⟨le_trans h1 (min_le_left _ _), h2⟩

theorem rfind_spec (s : List Char) (ch : Char) (pos : Nat) :
    rfind s ch pos = npos ∨
      (rfind s ch pos ≤ pos ∧ rfind s ch pos < s.length) := by
  unfold rfind
  split
  · exact Or.inl rfl
  · rcases rfindFrom_spec (fun c => c == ch) s (min pos (s.length - 1)) with h | ⟨h1, c, h2, -⟩
    · exact Or.inl h
    · exact Or.inr ⟨le_trans h1 (min_le_left _ _), getElem?_lt h2⟩

theorem stemHasVowelLoop_ok (s : List Char) (hlen : s.length < sizeMod) :
    ∀ (fuel index : Nat), 1 ≤ fuel →
      (index ≠ npos → index < s.length ∧ index + 1 ≤ fuel) →
      ∃ r, stemHasVowelLoop s fuel index = .ok r ∧
        (r ≠ npos → r ≠ 0 →
          r ≤ index ∧ index ≠ npos ∧ ∃ c, s[r - 1]? = some c ∧ isConsonant c = true) := by
  intro fuel
  induction fuel with
  | zero => intro index h; omega
  | succ fuel ih =>
    intro index _ hidx
    simp only [stemHasVowelLoop]
    split
    · rename_i hc
      simp only [Bool.and_eq_true, bne_iff_ne, ne_eq] at hc
      obtain ⟨hlt, hfuel⟩ := hidx hc.1
      have e1 : subSz index 1 = index - 1 := subSz_of_le (by omega) (by omega)
      obtain ⟨c, hcAt, hget⟩ := charAt_of_lt (show subSz index 1 < s.length by omega)
      simp only [hcAt, bind_ok]
      cases hcons : isConsonant c with
      | true =>
        refine ⟨index, by simp, fun _ _ => ⟨le_refl _, hc.1, c, ?_, hcons⟩⟩
        rw [← e1]
        exact hget
      | false =>
        simp only [Bool.not_false, if_true]
        obtain ⟨r, hr, hspec⟩ := ih (rfind s 'y' (subSz index 1)) (by omega) (by
          intro hne
          rcases rfind_spec s 'y' (subSz index 1) with h | ⟨h1, h2⟩
          · exact absurd h hne
          · exact ⟨h2, by omega⟩)
        refine ⟨r, hr, fun h1 h2 => ?_⟩
        obtain ⟨hle, hnp, hc'⟩ := hspec h1 h2
        refine ⟨?_, hc.1, hc'⟩
        rcases rfind_spec s 'y' (subSz index 1) with h | ⟨h3, _⟩
        · exact absurd h hnp
        · rw [e1] at h3 hle
          omega
    · rename_i hc
      refine ⟨index, rfl, fun h1 h2 => ?_⟩
      simp [h1, h2] at hc

theorem isConsonant_ne_y {c : Char} (h : isConsonant c = true) : c ≠ 'y' := by
  intro he
  rw [he] at h
  revert h
  decide

theorem vowels_ne_y {c : Char} (h : vowels.contains c = true) : c ≠ 'y' := by
  intro he
  rw [he] at h
  revert h
  decide

theorem stemHasVowel_ok (s : List Char) (pos : Nat) (hlen : s.length < sizeMod) :
    ∃ b, stemHasVowel s pos = .ok b ∧
      (b = true → 1 ≤ pos → pos ≤ s.length →
        ∃ j c, j < pos ∧ s[j]? = some c ∧ c ≠ 'y') := by
  unfold stemHasVowel
  split
  · rename_i hfound
    refine ⟨true, rfl, fun _ h1 h2 => ?_⟩
    have e1 : subSz pos 1 = pos - 1 := subSz_of_le h1 (by omega)
    rcases findLastOf_spec s vowels (subSz pos 1) with h | ⟨hle, c, hc, hv⟩
    · simp [h] at hfound
    · exact ⟨_, c, by omega, hc, vowels_ne_y hv⟩
  · obtain ⟨r, hr, hspec⟩ := stemHasVowelLoop_ok s hlen (s.length + 1)
      (rfind s 'y' (subSz pos 1)) (by omega) (by
        intro hne
        rcases rfind_spec s 'y' (subSz pos 1) with h | ⟨_, h2⟩
        · exact absurd h hne
        · exact ⟨h2, by omega⟩)
    refine ⟨(r != npos && r != 0), by simp [hr], fun hb h1 h2 => ?_⟩
    simp only [Bool.and_eq_true, bne_iff_ne, ne_eq] at hb
    have e1 : subSz pos 1 = pos - 1 := subSz_of_le h1 (by omega)
    obtain ⟨hle, hnp, c, hc, hcons⟩ := hspec hb.1 hb.2
    refine ⟨r - 1, c, ?_, hc, isConsonant_ne_y hcons⟩
    rcases rfind_spec s 'y' (subSz pos 1) with h | ⟨h3, _⟩
    · exact absurd h hnp
    · rw [e1] at h3 hle
      have := hb.2
      omega

theorem lastNonYLoop_ok (s : List Char) (hlen : s.length < sizeMod) :
    ∀ (fuel index : Nat), index < s.length → index + 1 ≤ fuel →
      (∃ j c, j ≤ index ∧ s[j]? = some c ∧ c ≠ 'y') →
      ∃ r, lastNonYLoop s fuel index = .ok r ∧ r < s.length := by
  intro fuel
  induction fuel with
  | zero => intro index _ h; omega
  | succ fuel ih =>
    intro index hlt hfuel hex
    obtain ⟨c, hc, hget⟩ := charAt_of_lt hlt
    simp only [lastNonYLoop, andAlso_pure, ge_iff_le, Nat.zero_le, decide_True, if_true, hc,
      bind_ok, pure_eq_ok]
    by_cases hy : c = 'y'
    · obtain ⟨j, d, hj, hd, hdy⟩ := hex
      have hji : j ≠ index := by
        intro he
        rw [he, hget] at hd
        cases hd
        exact hdy hy
      have e1 : subSz index 1 = index - 1 := subSz_of_le (by omega) (by omega)
      simp only [hy, beq_self_eq_true, if_true]
      rw [e1]
      exact ih (index - 1) (by omega) (by omega) ⟨j, d, by omega, hd, hdy⟩
    · have : (c == 'y') = false := by simpa using hy
      simp only [this, Bool.false_eq_true, if_false]
      exact ⟨index, rfl, hlt⟩

theorem terminalY_keeps (stem : List Char) (hne : stem ≠ []) (hlen : stem.length < sizeMod)
    (hy : stem.length < 2 ∨ ∃ c ∈ stem, c ≠ 'y') :
    ∃ s, terminalY stem = .ok s ∧ s ≠ [] ∧ s.length ≤ stem.length := by
  have hpos := length_pos_of_ne_nil hne
  have h1 : subSz stem.length 1 = stem.length - 1 := subSz_of_le (by omega) hlen
  obtain ⟨last, hlast, hget⟩ := charAt_of_lt (show subSz stem.length 1 < stem.length by omega)
  unfold terminalY
  simp only [andAlso, hlast, bind_ok, pure_eq_ok]
  by_cases hl : last = 'y'
  · by_cases h2 : stem.length > 1
    · have e2 : subSz stem.length 2 = stem.length - 2 := subSz_of_le (by omega) hlen
      have hex : ∃ j c, j ≤ stem.length - 2 ∧ stem[j]? = some c ∧ c ≠ 'y' := by
        rcases hy with hy | ⟨c, hc, hcy⟩
        · omega
        · obtain ⟨j, hj⟩ := List.mem_iff_getElem?.mp hc
          refine ⟨j, c, ?_, hj, hcy⟩
          have hjlt := getElem?_lt hj
          by_contra hgt
          have hje : j = subSz stem.length 1 := by omega
          rw [hje, hget] at hj
          cases hj
          exact hcy hl
      obtain ⟨r, hr, hrlt⟩ := lastNonYLoop_ok stem hlen (stem.length + 1) (stem.length - 2)
        (by omega) (by omega) hex
      obtain ⟨b, hb, -⟩ := stemHasVowel_ok stem (addSz r 1) hlen
      simp only [hl, beq_self_eq_true, if_true, h2, decide_True, bind_ok, e2, hr, ge_iff_le,
        Nat.zero_le, hb]
      cases b with
      | false => exact ⟨_, rfl, hne, le_refl _⟩
      | true =>
        refine ⟨stem.take (stem.length - 1) ++ lit "i" ++ stem.drop (stem.length - 1 + 1), ?_,
          ?_, ?_⟩
        · simp [replaceAt, h1]
        · simp [lit]
        · simp only [List.length_append, List.length_take, List.length_drop, lit]
          simp only [String.toList, List.length_cons, List.length_nil]
          omega
    · simp only [hl, beq_self_eq_true, if_true, h2, decide_False, Bool.false_eq_true, if_false,
        bind_ok]
      exact ⟨_, rfl, hne, le_refl _⟩
  · have : (last == 'y') = false := by simpa using hl
    simp only [this, Bool.false_eq_true, if_false, bind_ok]
    exact ⟨_, rfl, hne, le_refl _⟩

/-! ## Plurals and tenses -/

theorem andAlso_ok {x y : Except Fault Bool} (hx : ∃ a, x = .ok a) (hy : ∃ b, y = .ok b) :
    ∃ c, andAlso x y = .ok c := by
  obtain ⟨a, rfl⟩ := hx
  obtain ⟨b, rfl⟩ := hy
  cases a
  · exact ⟨false, rfl⟩
  · exact ⟨b, rfl⟩

theorem nonY_of_getElem? {s : List Char} {j : Nat} {c : Char} (h : s[j]? = some c)
    (hc : c ≠ 'y') : ∃ d ∈ s, d ≠ 'y' :=
  ⟨c, List.mem_iff_getElem?.mpr ⟨j, h⟩, hc⟩

theorem nonY_take {s : List Char} {n j : Nat} {c : Char} (hj : j < n) (h : s[j]? = some c)
    (hc : c ≠ 'y') : ∃ d ∈ s.take n, d ≠ 'y' := by
  refine ⟨c, List.mem_iff_getElem?.mpr ⟨j, ?_⟩, hc⟩
  rw [List.getElem?_take_of_lt hj]
  exact h

theorem nonY_append_left {s t : List Char} (h : ∃ d ∈ s, d ≠ 'y') : ∃ d ∈ s ++ t, d ≠ 'y' := by
  obtain ⟨d, hd, hy⟩ := h
  exact ⟨d, List.mem_append_left _ hd, hy⟩

theorem hasSuffix_drop {word suffix : List Char} (h : hasSuffix word suffix = true) :
    word.drop (word.length - suffix.length) = suffix := by
  have hlt := hasSuffix_length h
  unfold hasSuffix at h
  simp only [show ¬ word.length ≤ suffix.length by omega, if_false, beq_iff_eq] at h
  have htake : (word.drop (word.length - suffix.length)).take suffix.length =
      word.drop (word.length - suffix.length) := by
    apply List.take_of_length_le
    rw [List.length_drop]
    omega
  rw [htake] at h
  exact h

theorem hasSuffix_split {word suffix : List Char} (h : hasSuffix word suffix = true) :
    suffix.length < word.length ∧
      word = word.take (word.length - suffix.length) ++ suffix := by
  refine ⟨hasSuffix_length h, ?_⟩
  conv_lhs => rw [← List.take_append_drop (word.length - suffix.length) word]
  rw [hasSuffix_drop h]

theorem hasSuffix_getElem? {word suffix : List Char} (h : hasSuffix word suffix = true)
    (i : Nat) : word[word.length - suffix.length + i]? = suffix[i]? := by
  rw [← List.getElem?_drop, hasSuffix_drop h]

theorem onlyY_false_of_nonY {s : List Char} (h : ∃ d ∈ s, d ≠ 'y') : onlyY s = false := by
  obtain ⟨d, hd, hy⟩ := h
  unfold onlyY
  rw [Bool.and_eq_false_iff]
  right
  rw [List.all_eq_false]
  exact ⟨d, hd, by simpa using hy⟩

theorem nonY_or_onlyY (s : List Char) :
    s.length < 2 ∨ (∃ d ∈ s, d ≠ 'y') ∨ onlyY s = true := by
  by_cases hl : s.length < 2
  · exact Or.inl hl
  · by_cases hn : ∃ d ∈ s, d ≠ 'y'
    · exact Or.inr (Or.inl hn)
    · refine Or.inr (Or.inr ?_)
      unfold onlyY
      simp only [Bool.and_eq_true, decide_eq_true_eq, List.all_eq_true, beq_iff_eq]
      refine ⟨by omega, fun c hc => ?_⟩
      by_contra hcy
      exact hn ⟨c, hc, hcy⟩

theorem pluralStep_keeps (word : List Char) (hne : word ≠ []) (hlen : word.length < sizeMod)
    (hlast : word[word.length - 1]? = some 's') :
    ∃ s, pluralStep word = .ok s ∧ s ≠ [] ∧ s.length ≤ word.length ∧
      (s.length < 2 ∨ (∃ d ∈ s, d ≠ 'y') ∨ yScanOverruns word = true) := by
  have hpos := length_pos_of_ne_nil hne
  have h1 : subSz word.length 1 = word.length - 1 := subSz_of_le (by omega) hlen
  have hs : ('s' : Char) ≠ 'y' := by decide
  have hi : ('i' : Char) ≠ 'y' := by decide
  unfold pluralStep
  obtain ⟨r1, hr1, hspec1⟩ := replaceSuffix_spec word (lit "sses") 1 (lit "ss")
  simp only [replaceSuffix1, hr1, bind_ok]
  rcases hspec1 with ⟨hf1, hw1⟩ | ⟨ht1, hlt1, hw1⟩
  · simp only [hf1, Bool.false_eq_true, if_false, hw1]
    obtain ⟨r2, hr2, hspec2⟩ := replaceSuffix_spec word (lit "ies") 1 (lit "i")
    simp only [hr2, bind_ok]
    rcases hspec2 with ⟨hf2, hw2⟩ | ⟨ht2, hlt2, hw2⟩
    · simp only [hf2, Bool.false_eq_true, if_false, hw2, andAlso_pure]
      by_cases h2 : word.length > 1
      · have e2 : subSz word.length 2 = word.length - 2 := subSz_of_le (by omega) hlen
        obtain ⟨c, hc, -⟩ := charAt_of_lt (show subSz word.length 2 < word.length by omega)
        simp only [h2, decide_True, if_true, hc, bind_ok, pure_eq_ok]
        cases hcs : (c != 's') with
        | true =>
          simp only [if_true]
          refine ⟨word.take (word.length - 1), by simp [eraseFrom, h1], ?_, ?_, ?_⟩
          · intro he
            have := congrArg List.length he
            simp only [List.length_take, List.length_nil] at this
            omega
          · simp only [List.length_take]
            omega
          · rcases nonY_or_onlyY (word.take (word.length - 1)) with h | h | h
            · exact Or.inl h
            · exact Or.inr (Or.inl h)
            · refine Or.inr (Or.inr ?_)
              unfold yScanOverruns
              rw [List.getLast?_eq_getElem?, hlast, List.dropLast_eq_take, h]
              simp
        | false =>
          simp only [Bool.false_eq_true, if_false]
          exact ⟨word, rfl, hne, le_refl _, Or.inr (Or.inl (nonY_of_getElem? hlast hs))⟩
      · simp only [h2, decide_False, Bool.false_eq_true, if_false, bind_ok]
        exact ⟨word, rfl, hne, le_refl _, Or.inl (by omega)⟩
    · simp only [ht2, if_true, hw2]
      refine ⟨_, rfl, by simp [lit], ?_, Or.inr (Or.inl ⟨'i', by simp [lit], hi⟩)⟩
      simp only [List.length_append, List.length_take, lit, String.toList, List.length_cons,
        List.length_nil] at hlt2 ⊢
      omega
  · simp only [ht1, if_true, hw1]
    refine ⟨_, rfl, by simp [lit], ?_, Or.inr (Or.inl ⟨'s', by simp [lit], hs⟩)⟩
    simp only [List.length_append, List.length_take, lit, String.toList, List.length_cons,
      List.length_nil] at hlt1 ⊢
    omega

theorem tenseCleanup_keeps (stem : List Char) (syllables : List Nat) (hne : stem ≠ [])
    (hlen : stem.length < sizeMod) (hnonY : ∃ d ∈ stem, d ≠ 'y') :
    ∃ s, tenseCleanup stem syllables = .ok s ∧ s ≠ [] ∧ s.length ≤ stem.length + 1 ∧
      ∃ d ∈ s, d ≠ 'y' := by
  have hpos := length_pos_of_ne_nil hne
  have h1 : subSz stem.length 1 = stem.length - 1 := subSz_of_le (by omega) hlen
  have happ : ∃ s, (Except.ok (stem ++ lit "e") : Except Fault (List Char)) = .ok s ∧ s ≠ [] ∧
      s.length ≤ stem.length + 1 ∧ ∃ d ∈ s, d ≠ 'y' :=
    ⟨_, rfl, by simp [lit], by simp [lit], nonY_append_left hnonY⟩
  have hsame : ∃ s, (Except.ok stem : Except Fault (List Char)) = .ok s ∧ s ≠ [] ∧
      s.length ≤ stem.length + 1 ∧ ∃ d ∈ s, d ≠ 'y' :=
    ⟨_, rfl, hne, by omega, hnonY⟩
  have hcvc : ∃ b,
      andAlso (pure (decide (stem.length ≥ 3)))
        (andAlso (hasSyllableCount stem syllables 2 0)
        (andAlso (do let b ← hasSyllableCount stem syllables 3 0; pure (!b))
        (andAlso (do let c ← charAt stem (subSz stem.length 1); pure (isConsonant c))
        (andAlso (do let c ← charAt stem (subSz stem.length 2); pure (!isConsonant c))
          (do let c ← charAt stem (subSz stem.length 3); pure (isConsonant c)))))) =
        .ok b := by
    rw [andAlso_pure]
    split
    · rename_i h3
      have h3' : 3 ≤ stem.length := by simpa using h3
      have e2 : subSz stem.length 2 = stem.length - 2 := subSz_of_le (by omega) hlen
      have e3 : subSz stem.length 3 = stem.length - 3 := subSz_of_le (by omega) hlen
      obtain ⟨b2, hb2, -⟩ := hasSyllableCount_ok stem syllables 2 0 (Or.inl rfl)
      obtain ⟨b3, hb3, -⟩ := hasSyllableCount_ok stem syllables 3 0 (Or.inr rfl)
      obtain ⟨c1, hc1, -⟩ :=
        charAt_of_lt (show subSz stem.length 1 < stem.length by omega)
      obtain ⟨c2, hc2, -⟩ :=
        charAt_of_lt (show subSz stem.length 2 < stem.length by omega)
      obtain ⟨c3, hc3, -⟩ :=
        charAt_of_lt (show subSz stem.length 3 < stem.length by omega)
      apply andAlso_ok ⟨_, hb2⟩
      apply andAlso_ok ⟨!b3, by simp [hb3]⟩
      apply andAlso_ok ⟨isConsonant c1, by simp [hc1]⟩
      apply andAlso_ok ⟨!isConsonant c2, by simp [hc2]⟩
      exact ⟨isConsonant c3, by simp [hc3]⟩
    · exact ⟨false, rfl⟩
  obtain ⟨cvc, hcvcEq⟩ := hcvc
  unfold tenseCleanup
  split
  · exact happ
  · simp only [hcvcEq]
    obtain ⟨last, hlast, hgetLast⟩ :=
      charAt_of_lt (show subSz stem.length 1 < stem.length by omega)
    simp only [hlast, bind_ok, andAlso_pure]
    have hdoubled : ∃ b, (if (last != 'l' && last != 's' && last != 'z' &&
          decide (stem.length > 1)) = true then
        (do let c ← charAt stem (subSz stem.length 2); pure (last == c))
        else Except.ok false) = .ok b ∧
        (b = true → 1 < stem.length ∧ stem[stem.length - 2]? = some last) := by
      split
      · rename_i hc
        simp only [Bool.and_eq_true, decide_eq_true_eq] at hc
        have e2 : subSz stem.length 2 = stem.length - 2 := subSz_of_le (by omega) hlen
        obtain ⟨c, hcAt, hget⟩ :=
          charAt_of_lt (show subSz stem.length 2 < stem.length by omega)
        refine ⟨last == c, by simp [hcAt], fun hb => ⟨hc.2, ?_⟩⟩
        rw [← e2, hget, beq_iff_eq.mp hb]
      · exact ⟨false, rfl, by simp⟩
    obtain ⟨b, hb, hbspec⟩ := hdoubled
    rw [hb]
    simp only [bind_ok]
    cases b with
    | true =>
      obtain ⟨hl2, hprev⟩ := hbspec rfl
      simp only [if_true]
      refine ⟨stem.take (stem.length - 1), by simp [eraseFrom, h1], ?_, ?_, ?_⟩
      · intro he
        have := congrArg List.length he
        simp only [List.length_take, List.length_nil] at this
        omega
      · simp only [List.length_take]
        omega
      · obtain ⟨d, hd, hdy⟩ := hnonY
        obtain ⟨j, hj⟩ := List.mem_iff_getElem?.mp hd
        have hjlt := getElem?_lt hj
        by_cases hjl : j < stem.length - 1
        · exact nonY_take hjl hj hdy
        · have hje : j = subSz stem.length 1 := by omega
          rw [hje, hgetLast] at hj
          cases hj
          exact nonY_take (show stem.length - 2 < stem.length - 1 by omega) hprev hdy
    | false =>
      simp only [Bool.false_eq_true, if_false]
      cases cvc with
      | true => exact happ
      | false => exact hsame

theorem tenseStep_keeps (word : List Char) (syllables : List Nat) (hne : word ≠ [])
    (hlen : word.length < sizeMod) :
    ∃ s, tenseStep word syllables = .ok s ∧ s ≠ [] ∧ s.length ≤ word.length ∧
      (s.length < 2 ∨ (∃ d ∈ s, d ≠ 'y') ∨ yScanOverruns word = true) := by
  have hstrip : ∀ (suffix : List Char), 2 ≤ suffix.length →
      ∃ b, andAlso (pure (hasSuffix word suffix))
          (stemHasVowel word (subSz word.length suffix.length)) = .ok b ∧
        (b = true →
          ∃ s, (do
              let stem ← eraseFrom word (subSz word.length suffix.length)
              tenseCleanup stem syllables) = .ok s ∧ s ≠ [] ∧ s.length ≤ word.length ∧
            ∃ d ∈ s, d ≠ 'y') := by
    intro suffix hsl
    rw [andAlso_pure]
    cases hsuf : hasSuffix word suffix with
    | false => exact ⟨false, rfl, by simp⟩
    | true =>
      have hlt := hasSuffix_length hsuf
      have e : subSz word.length suffix.length = word.length - suffix.length :=
        subSz_of_le (by omega) hlen
      obtain ⟨b, hb, hspec⟩ := stemHasVowel_ok word (subSz word.length suffix.length) hlen
      refine ⟨b, by simp [hb], fun hbt => ?_⟩
      rw [e] at hspec ⊢
      obtain ⟨j, c, hj, hc, hcy⟩ := hspec hbt (by omega) (by omega)
      have herase : eraseFrom word (word.length - suffix.length) =
          .ok (word.take (word.length - suffix.length)) := by
        simp [eraseFrom]
      have hne' : word.take (word.length - suffix.length) ≠ [] := by
        intro he
        have := congrArg List.length he
        simp only [List.length_take, List.length_nil] at this
        omega
      obtain ⟨s, hs, h1, h2, h3⟩ := tenseCleanup_keeps (word.take (word.length - suffix.length))
        syllables hne' (by simp only [List.length_take]; omega) (nonY_take hj hc hcy)
      refine ⟨s, by simp [herase, hs], h1, ?_, h3⟩
      simp only [List.length_take] at h2
      omega
  obtain ⟨bed, hbed, hedspec⟩ := hstrip (lit "ed") (by decide)
  obtain ⟨bing, hbing, hingspec⟩ := hstrip (lit "ing") (by decide)
  have e2 : (lit "ed").length = 2 := by decide
  have e3 : (lit "ing").length = 3 := by decide
  rw [e2] at hbed hedspec
  rw [e3] at hbing hingspec
  unfold tenseStep
  simp only [hbed, bind_ok]
  cases bed with
  | true =>
    obtain ⟨s, hs, h1, h2, h3⟩ := hedspec rfl
    exact ⟨s, by simpa using hs, h1, h2, Or.inr (Or.inl h3)⟩
  | false =>
    simp only [Bool.false_eq_true, if_false, hbing, bind_ok]
    cases bing with
    | true =>
      obtain ⟨s, hs, h1, h2, h3⟩ := hingspec rfl
      exact ⟨s, by simpa using hs, h1, h2, Or.inr (Or.inl h3)⟩
    | false =>
      refine ⟨word, rfl, hne, le_refl _, ?_⟩
      rcases nonY_or_onlyY word with h | h | h
      · exact Or.inl h
      · exact Or.inr (Or.inl h)
      · exact Or.inr (Or.inr (by simp [yScanOverruns, h]))

theorem pluralTense_keeps (word : List Char) (syllables : List Nat) (hne : word ≠ [])
    (hlen : word.length < sizeMod) :
    ∃ s, pluralTense word syllables = .ok s ∧ s ≠ [] ∧ s.length ≤ word.length ∧
      (s.length < 2 ∨ (∃ d ∈ s, d ≠ 'y') ∨ yScanOverruns word = true) := by
  have hpos := length_pos_of_ne_nil hne
  have h1 : subSz word.length 1 = word.length - 1 := subSz_of_le (by omega) hlen
  obtain ⟨last, hlast, hget⟩ := charAt_of_lt (show subSz word.length 1 < word.length by omega)
  unfold pluralTense
  simp only [hlast, bind_ok]
  split
  · rename_i hs
    rw [h1, beq_iff_eq.mp hs] at hget
    exact pluralStep_keeps word hne hlen hget
  · split
    · rename_i heed
      obtain ⟨hlt, hsplit⟩ := hasSuffix_split heed
      have e3 : (lit "eed").length = 3 := by decide
      rw [e3] at hlt hsplit
      have hget3 : word[word.length - 3]? = some 'e' := by
        have := hasSuffix_getElem? heed 0
        rw [e3] at this
        simpa using this
      have he : ('e' : Char) ≠ 'y' := by decide
      obtain ⟨b, hb, -⟩ := hasSyllableCount_ok word syllables 2 3 (Or.inl rfl)
      simp only [hb, bind_ok]
      cases b with
      | true =>
        simp only [if_true]
        refine ⟨word.take (word.length - 1), by simp [eraseFrom, h1], ?_, ?_,
          Or.inr (Or.inl (nonY_take (show word.length - 3 < word.length - 1 by omega) hget3 he))⟩
        · intro hnil
          have := congrArg List.length hnil
          simp only [List.length_take, List.length_nil] at this
          omega
        · simp only [List.length_take]
          omega
      | false =>
        exact ⟨word, rfl, hne, le_refl _, Or.inr (Or.inl (nonY_of_getElem? hget3 he))⟩
    · exact tenseStep_keeps word syllables hne hlen

/-! ## `getStem` as a whole -/

theorem getStem_keeps (word : List Char) (hne : word ≠ []) (hlen : word.length < sizeMod)
    (hy : yScanOverruns word = false) :
    ∃ s, getStem word = .ok s ∧ s ≠ [] ∧ s.length ≤ word.length := by
  obtain ⟨syllables, hsyl⟩ := getSyllables_ok word hlen
  obtain ⟨s1, hs1, n1, l1, y1⟩ := pluralTense_keeps word syllables hne hlen
  have y1' : s1.length < 2 ∨ ∃ d ∈ s1, d ≠ 'y' := by
    rcases y1 with h | h | h
    · exact Or.inl h
    · exact Or.inr h
    · rw [hy] at h
      cases h
  obtain ⟨s2, hs2, n2, l2⟩ := terminalY_keeps s1 n1 (by omega) y1'
  obtain ⟨s3, hs3, n3, l3⟩ := suffixPass_keeps suffixes1 3 2 2 2 3 s2 syllables suffixes1_rules
    (Or.inl rfl) (Or.inl rfl) (by omega) (by omega) n2 (by omega)
  obtain ⟨s4, hs4, n4, l4⟩ := suffixPass_keeps suffixes2 2 1 2 2 3 s3 syllables suffixes2_rules
    (Or.inl rfl) (Or.inl rfl) (by omega) (by omega) n3 (by omega)
  obtain ⟨s5, hs5, n5, l5⟩ := suffixPass_keeps suffixes3 3 2 3 3 2 s4 syllables suffixes3_rules
    (Or.inr rfl) (Or.inr rfl) (by omega) (by omega) n4 (by omega)
  obtain ⟨s6, hs6, n6, l6⟩ := finalE_keeps s5 syllables n5 (by omega)
  obtain ⟨s7, hs7, n7, l7⟩ := finalL_keeps s6 syllables n6 (by omega)
  refine ⟨s7, ?_, n7, by omega⟩
  simp only [getStem, hsyl, bind_ok, hs1, hs2, hs3, hs4, hs5, hs6, hs7]

theorem onlyY_spec {s : List Char} (h : onlyY s = true) :
    2 ≤ s.length ∧ ∀ i, i < s.length → s[i]? = some 'y' := by
  unfold onlyY at h
  simp only [Bool.and_eq_true, decide_eq_true_eq, List.all_eq_true, beq_iff_eq] at h
  refine ⟨h.1, fun i hi => ?_⟩
  rw [List.getElem?_eq_getElem hi, h.2 _ (List.getElem_mem hi)]

theorem hasSuffix_false_of_getElem? {word suffix : List Char} {i : Nat} {c d : Char}
    (hi : i < suffix.length) (hw : word[word.length - (suffix.length - i)]? = some c)
    (hs : suffix[i]? = some d) (hcd : c ≠ d) : hasSuffix word suffix = false := by
  cases h : hasSuffix word suffix with
  | false => rfl
  | true =>
    have hlt := hasSuffix_length h
    have := hasSuffix_getElem? h i
    rw [show word.length - suffix.length + i = word.length - (suffix.length - i) by omega,
      hw, hs] at this
    cases this
    exact absurd rfl hcd

theorem andAlso_okl (b : Bool) (x : Except Fault Bool) :
    andAlso (.ok b) x = if b then x else .ok false := by
  cases b <;> rfl

theorem replaceSuffix_of_not_hasSuffix {word suffix : List Char} (n : Nat)
    (replacement : List Char) (h : hasSuffix word suffix = false) :
    replaceSuffix word suffix n replacement = .ok (word, false) := by
  simp [replaceSuffix, h]

theorem lastNonYLoop_fault (s : List Char) (hlen : s.length < sizeMod) :
    ∀ (fuel index : Nat), index < s.length → index + 2 ≤ fuel →
      (∀ i, i ≤ index → s[i]? = some 'y') →
      lastNonYLoop s fuel index = .error (.outOfBounds npos s.length) := by
  intro fuel
  induction fuel with
  | zero => intro index _ h; omega
  | succ fuel ih =>
    intro index hlt hfuel hall
    have hc : charAt s index = .ok 'y' := by
      simp [charAt, hall index (le_refl _)]
    simp only [lastNonYLoop, andAlso_pure, ge_iff_le, Nat.zero_le, decide_True, if_true, hc,
      bind_ok, pure_eq_ok, beq_self_eq_true]
    by_cases h0 : index = 0
    · have e : subSz index 1 = npos := by
        rw [h0]
        decide
      rw [e]
      cases fuel with
      | zero => omega
      | succ fuel =>
        have hnone : s[npos]? = none := by
          apply List.getElem?_eq_none
          rw [npos_val]
          rw [sizeMod_val] at hlen
          omega
        simp [lastNonYLoop, andAlso_okl, charAt, hnone]
    · have e : subSz index 1 = index - 1 := subSz_of_le (by omega) (by omega)
      rw [e]
      exact ih (index - 1) (by omega) (by omega) (fun i hi => hall i (by omega))

theorem terminalY_fault (stem : List Char) (hlen : stem.length < sizeMod)
    (hy : onlyY stem = true) :
    terminalY stem = .error (.outOfBounds npos stem.length) := by
  obtain ⟨h2, hall⟩ := onlyY_spec hy
  have h1 : subSz stem.length 1 = stem.length - 1 := subSz_of_le (by omega) hlen
  have e2 : subSz stem.length 2 = stem.length - 2 := subSz_of_le (by omega) hlen
  have hc : charAt stem (stem.length - 1) = .ok 'y' := by
    simp [charAt, hall (stem.length - 1) (by omega)]
  have hloop := lastNonYLoop_fault stem hlen (stem.length + 1) (stem.length - 2) (by omega)
    (by omega) (fun i hi => hall i (by omega))
  simp [terminalY, andAlso, h1, e2, hc, hloop, show 1 < stem.length by omega]

theorem pluralTense_onlyY (word : List Char) (syllables : List Nat)
    (hlen : word.length < sizeMod) (hy : onlyY word = true) :
    pluralTense word syllables = .ok word := by
  obtain ⟨h2, hall⟩ := onlyY_spec hy
  have h1 : subSz word.length 1 = word.length - 1 := subSz_of_le (by omega) hlen
  have hc : charAt word (word.length - 1) = .ok 'y' := by
    simp [charAt, hall (word.length - 1) (by omega)]
  have hlast : ∀ (suffix : List Char) (d : Char), suffix[suffix.length - 1]? = some d →
      'y' ≠ d → hasSuffix word suffix = false := by
    intro suffix d hd hne
    have hsl : 0 < suffix.length := by
      by_contra h0
      rw [List.getElem?_eq_none (by omega)] at hd
      cases hd
    refine hasSuffix_false_of_getElem? (i := suffix.length - 1) (by omega) ?_ hd hne
    rw [show suffix.length - (suffix.length - 1) = 1 by omega]
    exact hall _ (by omega)
  have heed := hlast (lit "eed") 'd' (by decide) (by decide)
  have hed := hlast (lit "ed") 'd' (by decide) (by decide)
  have hing := hlast (lit "ing") 'g' (by decide) (by decide)
  simp [pluralTense, h1, hc, heed, tenseStep, andAlso, hed, hing]

theorem pluralTense_onlyY_s (word : List Char) (syllables : List Nat)
    (hlen : word.length < sizeMod) (hlast : word.getLast? = some 's')
    (hy : onlyY word.dropLast = true) :
    pluralTense word syllables = .ok word.dropLast := by
  obtain ⟨h2, hall⟩ := onlyY_spec hy
  rw [List.length_dropLast] at h2 hall
  have h1 : subSz word.length 1 = word.length - 1 := subSz_of_le (by omega) hlen
  have e2 : subSz word.length 2 = word.length - 2 := subSz_of_le (by omega) hlen
  have hget : ∀ i, i < word.length - 1 → word[i]? = some 'y' := by
    intro i hi
    have := hall i hi
    rw [List.dropLast_eq_take, List.getElem?_take_of_lt hi] at this
    exact this
  have hc : charAt word (word.length - 1) = .ok 's' := by
    rw [List.getLast?_eq_getElem?] at hlast
    simp [charAt, hlast]
  have hc2 : charAt word (word.length - 2) = .ok 'y' := by
    simp [charAt, hget (word.length - 2) (by omega)]
  have hsses : hasSuffix word (lit "sses") = false :=
    hasSuffix_false_of_getElem? (i := 2) (c := 'y') (d := 'e') (by decide)
      (by rw [show (lit "sses").length - 2 = 2 by decide]
          exact hget _ (by omega)) (by decide) (by decide)
  have hies : hasSuffix word (lit "ies") = false :=
    hasSuffix_false_of_getElem? (i := 1) (c := 'y') (d := 'e') (by decide)
      (by rw [show (lit "ies").length - 1 = 2 by decide]
          exact hget _ (by omega)) (by decide) (by decide)
  simp [pluralTense, h1, hc, pluralStep, replaceSuffix1, replaceSuffix_of_not_hasSuffix, hsses,
    hies, andAlso, e2, hc2, show 1 < word.length by omega, eraseFrom, List.dropLast_eq_take]

theorem getStem_fault (word : List Char) (hlen : word.length < sizeMod)
    (hy : yScanOverruns word = true) :
    ∃ n, getStem word = .error (.outOfBounds npos n) := by
  obtain ⟨syllables, hsyl⟩ := getSyllables_ok word hlen
  unfold yScanOverruns at hy
  simp only [Bool.or_eq_true, Bool.and_eq_true, beq_iff_eq] at hy
  rcases hy with hy | ⟨hlast, hy⟩
  · refine ⟨word.length, ?_⟩
    simp only [getStem, hsyl, bind_ok, pluralTense_onlyY word syllables hlen hy,
      terminalY_fault word hlen hy, bind_error]
  · refine ⟨word.dropLast.length, ?_⟩
    have hl : word.dropLast.length < sizeMod := by
      rw [List.length_dropLast]
      omega
    simp only [getStem, hsyl, bind_ok, pluralTense_onlyY_s word syllables hlen hlast hy,
      terminalY_fault word.dropLast hl hy, bind_error]

/-- C5: no rule of `getStem` truncates a non-empty word to zero length. Every stem
`getStem` returns for a non-empty word is non-empty, and `getStem` does return a stem on
every non-empty word other than those made of two or more `y`, optionally followed by one
`s`, on which the backwards scan of the terminal-y step reads outside the stem. Step by
step: the plural and tense step leaves a non-empty stem on every non-empty word, and on
every non-empty stem the terminal-y step, when it returns, the three suffix passes, and
the removal of a final `e` and of a final `l` each leave a non-empty stem. -/
theorem getStem_nonempty (word : List Char) (hne : word ≠ []) (hlen : word.length < sizeMod) :
    (∀ s, getStem word = .ok s → s ≠ []) ∧
    (yScanOverruns word = false → ∃ s, getStem word = .ok s ∧ s ≠ []) ∧
    (∃ syllables stem, getSyllables word = .ok syllables ∧
      pluralTense word syllables = .ok stem ∧ stem ≠ []) ∧
    ∀ (stem : List Char) (syllables : List Nat), stem ≠ [] → stem.length < sizeMod →
      (∀ s, terminalY stem = .ok s → s ≠ []) ∧
      (∃ s, suffixPass suffixes1 3 2 2 2 3 stem syllables = .ok s ∧ s ≠ []) ∧
      (∃ s, suffixPass suffixes2 2 1 2 2 3 stem syllables = .ok s ∧ s ≠ []) ∧
      (∃ s, suffixPass suffixes3 3 2 3 3 2 stem syllables = .ok s ∧ s ≠ []) ∧
      (∃ s, finalE stem syllables = .ok s ∧ s ≠ []) ∧
      (∃ s, finalL stem syllables = .ok s ∧ s ≠ []) := by
  refine ⟨?_, ?_, ?_, ?_⟩
  · intro s hs
    cases hy : yScanOverruns word with
    | true =>
      obtain ⟨n, hn⟩ := getStem_fault word hlen hy
      rw [hn] at hs
      cases hs
    | false =>
      obtain ⟨s', hs', hn, -⟩ := getStem_keeps word hne hlen hy
      rw [hs'] at hs
      cases hs
      exact hn
  · intro hy
    obtain ⟨s, hs, hn, -⟩ := getStem_keeps word hne hlen hy
    exact ⟨s, hs, hn⟩
  · obtain ⟨syllables, hsyl⟩ := getSyllables_ok word hlen
    obtain ⟨stem, hstem, hn, -⟩ := pluralTense_keeps word syllables hne hlen
    exact ⟨syllables, stem, hsyl, hstem, hn⟩
  · intro stem syllables hstem hl
    refine ⟨?_, ?_, ?_, ?_, ?_, ?_⟩
    · intro s hs
      rcases nonY_or_onlyY stem with h | h | h
      · obtain ⟨s', hs', hn, -⟩ := terminalY_keeps stem hstem hl (Or.inl h)
        rw [hs'] at hs
        cases hs
        exact hn
      · obtain ⟨s', hs', hn, -⟩ := terminalY_keeps stem hstem hl (Or.inr h)
        rw [hs'] at hs
        cases hs
        exact hn
      · rw [terminalY_fault stem hl h] at hs
        cases hs
    · obtain ⟨s, hs, hn, -⟩ := suffixPass_keeps suffixes1 3 2 2 2 3 stem syllables
        suffixes1_rules (Or.inl rfl) (Or.inl rfl) (by omega) (by omega) hstem hl
      exact ⟨s, hs, hn⟩
    · obtain ⟨s, hs, hn, -⟩ := suffixPass_keeps suffixes2 2 1 2 2 3 stem syllables
        suffixes2_rules (Or.inl rfl) (Or.inl rfl) (by omega) (by omega) hstem hl
      exact ⟨s, hs, hn⟩
    · obtain ⟨s, hs, hn, -⟩ := suffixPass_keeps suffixes3 3 2 3 3 2 stem syllables
        suffixes3_rules (Or.inr rfl) (Or.inr rfl) (by omega) (by omega) hstem hl
      exact ⟨s, hs, hn⟩
    · obtain ⟨s, hs, hn, -⟩ := finalE_keeps stem syllables hstem hl
      exact ⟨s, hs, hn⟩
    · obtain ⟨s, hs, hn, -⟩ := finalL_keeps stem syllables hstem hl
      exact ⟨s, hs, hn⟩

/-- An instance: `caresses`, which loses its plural, and `a`, the shortest of words. -/
theorem getStem_nonempty_witness :
    (lit "caresses" ≠ [] ∧ (lit "caresses").length < sizeMod) ∧
    getStem (lit "caresses") = .ok (lit "caress") ∧ getStem (lit "a") = .ok (lit "a") ∧
    ∃ s, getStem (lit "caresses") = .ok s ∧ s ≠ [] :=
  ⟨by decide, by decide, by decide,
    (getStem_nonempty (lit "caresses") (by decide) (by decide)).2.1 (by decide)⟩

/-! ## Properties of the map operations -/

theorem mapInsert_last {K V : Type} [LinearOrder K] (m : StdMap K V) (k : K) (v : V)
    (h : ∀ p ∈ m, p.1 < k) : mapInsert m k v = m ++ [(k, v)] := by
  induction m with
  | nil => rfl
  | cons p rest ih =>
    obtain ⟨k', v'⟩ := p
    have hk : k' < k := h (k', v') (List.mem_cons_self _ _)
    have ih' := ih (fun q hq => h q (List.mem_cons_of_mem _ hq))
    simp [mapInsert, not_lt_of_lt hk, hk, ih']

theorem foldl_mapInsert_ordered {K A V : Type} [LinearOrder K] (g : K × A → V) :
    ∀ (l : StdMap K A) (acc : StdMap K V),
      List.Pairwise (fun a b : K => a < b) (acc.map Prod.fst ++ l.map Prod.fst) →
      l.foldl (fun m p => mapInsert m p.1 (g p)) acc = acc ++ l.map (fun p => (p.1, g p)) := by
  intro l
  induction l with
  | nil => intro acc _; simp
  | cons p rest ih =>
    intro acc h
    have hlast : ∀ q ∈ acc, q.1 < p.1 := by
      intro q hq
      rw [List.pairwise_append] at h
      exact h.2.2 q.1 (List.mem_map_of_mem _ hq) p.1 (by simp)
    rw [List.foldl_cons, mapInsert_last acc p.1 (g p) hlast, ih]
    · simp
    · simpa using h

theorem foldl_mapInsert_nil {K A V : Type} [LinearOrder K] (g : K × A → V) (l : StdMap K A)
    (h : Ordered l) :
    l.foldl (fun m p => mapInsert m p.1 (g p)) [] = l.map (fun p => (p.1, g p)) := by
  have := foldl_mapInsert_ordered g l [] (by simpa [Ordered, List.pairwise_map] using h)
  simpa using this

theorem mapFind_map {K A V : Type} [DecidableEq K] (g : A → V) (l : StdMap K A) (k : K) :
    mapFind (l.map (fun p => (p.1, g p.2))) k = (mapFind l k).map g := by
  induction l with
  | nil => rfl
  | cons p rest ih =>
    obtain ⟨k', a⟩ := p
    by_cases hk : k' = k <;> simp [mapFind, hk, ih]

theorem getCategoryProbability_fold {R : Type} [Field R] (c : Classifier R) :
    ∀ (document : DocumentWordMap) (start : R),
      document.foldl
        (fun probability p =>
          match mapFind c.wordProbability p.1 with
          | none => probability + c.unknownWordProbability * (p.2 : R)
          | some wordProbability => probability + wordProbability * (p.2 : R))
        start =
      start + (document.map fun p =>
        (p.2 : R) * (mapFind c.wordProbability p.1).getD c.unknownWordProbability).sum := by
  intro document
  induction document with
  | nil => intro start; simp
  | cons p rest ih =>
    intro start
    rw [List.foldl_cons, ih]
    cases hfind : mapFind c.wordProbability p.1 <;> simp [hfind] <;> ring

/-- C6: over the reals with the natural logarithm, the constructor of `Classifier`
builds from the statistics of a category, the total document count `D` and the weight `k`
the prior `ln (documentCount / D)`, for each word of the category's word map (and for no
other word) the likelihood `ln ((count + k) / (totalWordCount + uniqueWordCount * k))`,
and for unseen words `ln (k / (totalWordCount + uniqueWordCount * k))`. -/
theorem create_builds_model (trainingData : CatWordData) (totalDocCount : Nat) (k : ℝ)
    (hmap : Ordered trainingData.wordData) :
    (Classifier.create Real.log trainingData totalDocCount k).docProbability =
        Real.log ((trainingData.docCount : ℝ) / (totalDocCount : ℝ)) ∧
      (∀ w : Str,
        mapFind (Classifier.create Real.log trainingData totalDocCount k).wordProbability w =
          (mapFind trainingData.wordData w).map fun count : Nat =>
            Real.log (((count : ℝ) + k) /
              ((trainingData.totalWordCount : ℝ) + (trainingData.wordCount : ℝ) * k))) ∧
      (Classifier.create Real.log trainingData totalDocCount k).unknownWordProbability =
        Real.log (k / ((trainingData.totalWordCount : ℝ) + (trainingData.wordCount : ℝ) * k)) := by
  refine ⟨rfl, ?_, rfl⟩
  intro w
  simp only [Classifier.create]
  rw [foldl_mapInsert_nil
    (fun p : Str × Nat => Real.log (((p.2 : ℝ) + k) / adjustedWordCount trainingData k))
    trainingData.wordData hmap]
  exact mapFind_map
    (fun count : Nat => Real.log (((count : ℝ) + k) / adjustedWordCount trainingData k))
    trainingData.wordData w

/-- An instance: a category of three documents with the words `game` and `score`. -/
theorem create_builds_model_witness :
    Ordered (CatWordData.mk 3 2 9 [(lit "game", 6), (lit "score", 3)]).wordData ∧
      (Classifier.create Real.log (CatWordData.mk 3 2 9 [(lit "game", 6), (lit "score", 3)])
          6 1).unknownWordProbability =
        Real.log (1 / (((9 : Nat) : ℝ) + ((2 : Nat) : ℝ) * 1)) :=
  ⟨by decide,
    (create_builds_model (CatWordData.mk 3 2 9 [(lit "game", 6), (lit "score", 3)]) 6 1
      (by decide)).2.2⟩

/-- C7: `getCategoryProbability` returns the log prior plus the sum, over the (word,
count) pairs of the document, of count times the word's log likelihood when the model
holds the word and count times the unseen-word log likelihood otherwise; for the empty
document it returns the log prior. -/
theorem getCategoryProbability_sum {R : Type} [Field R] (c : Classifier R)
    (document : DocumentWordMap) :
    c.getCategoryProbability document =
        c.docProbability + (document.map fun p =>
          (p.2 : R) * (mapFind c.wordProbability p.1).getD c.unknownWordProbability).sum ∧
      c.getCategoryProbability [] = c.docProbability :=
  ⟨getCategoryProbability_fold c document c.docProbability, rfl⟩

/-- C10: given the aggregated category map, building the models raises an error if and
only if the map holds fewer than two categories; with two or more it builds exactly one
model per category label, each from that category's statistics and the total document
count. -/
theorem buildClassifiers_error_iff {R : Type} [LinearOrderedField R] (log : R → R)
    (trainingData : InfoByCategory) (hmap : Ordered trainingData) :
    ((∃ e, buildClassifiers log trainingData = .error e) ↔ trainingData.length < 2) ∧
      (2 ≤ trainingData.length →
        ∃ cs, buildClassifiers log trainingData = .ok cs ∧
          cs.map Prod.fst = trainingData.map Prod.fst ∧
          cs = trainingData.map fun p =>
            (p.1, Classifier.create log p.2
              (trainingData.foldl (fun total p => (total + p.2.docCount) % 65536) 0) 1)) := by
  have hbuild : 2 ≤ trainingData.length →
      buildClassifiers log trainingData = .ok (trainingData.map fun p =>
        (p.1, Classifier.create log p.2
          (trainingData.foldl (fun total p => (total + p.2.docCount) % 65536) 0) 1)) := by
    intro h2
    have h1 : ¬ trainingData.length < 1 := by omega
    have h2' : ¬ trainingData.length < 2 := by omega
    simp only [buildClassifiers, h1, h2', if_false]
    rw [foldl_mapInsert_nil
      (fun p : Str × CatWordData => Classifier.create log p.2
        (trainingData.foldl (fun total p => (total + p.2.docCount) % 65536) 0) 1)
      trainingData hmap]
  constructor
  · constructor
    · rintro ⟨e, he⟩
      by_contra hlen
      rw [hbuild (by omega)] at he
      cases he
    · intro hlen
      by_cases h1 : trainingData.length < 1
      · exact ⟨_, by simp only [buildClassifiers, h1, if_true]; rfl⟩
      · exact ⟨_, by simp only [buildClassifiers, h1, hlen, if_true, if_false]; rfl⟩
  · intro h2
    refine ⟨_, hbuild h2, ?_, rfl⟩
    simp [List.map_map, Function.comp_def]

/-- An instance: training data with the two categories `politics` and `sports`. -/
theorem buildClassifiers_error_iff_witness :
    Ordered ([(lit "politics", CatWordData.mk 3 2 9 [(lit "vote", 6), (lit "win", 3)]),
      (lit "sports", CatWordData.mk 2 2 5 [(lit "game", 3), (lit "score", 2)])] :
        InfoByCategory) ∧
      ∃ cs, buildClassifiers Real.log
          [(lit "politics", CatWordData.mk 3 2 9 [(lit "vote", 6), (lit "win", 3)]),
            (lit "sports", CatWordData.mk 2 2 5 [(lit "game", 3), (lit "score", 2)])] = .ok cs ∧
        cs.map Prod.fst = [lit "politics", lit "sports"] :=
  ⟨by decide,
    match (buildClassifiers_error_iff Real.log
      [(lit "politics", CatWordData.mk 3 2 9 [(lit "vote", 6), (lit "win", 3)]),
        (lit "sports", CatWordData.mk 2 2 5 [(lit "game", 3), (lit "score", 2)])]
      (by decide)).2 (by decide) with
    | ⟨cs, h, hk, _⟩ => ⟨cs, h, hk⟩⟩

/-! ## Properties of `addWordCount` and `mergeMap` -/

theorem mapFind_none_of_lt {K V : Type} [LinearOrder K] [DecidableEq K] (m : StdMap K V) (w : K)
    (h : ∀ p ∈ m, w < p.1) : mapFind m w = none := by
  induction m with
  | nil => rfl
  | cons p rest ih =>
    obtain ⟨k, v⟩ := p
    have hk : w < k := h (k, v) (List.mem_cons_self _ _)
    simp only [mapFind, ne_of_gt hk, if_false]
    exact ih (fun q hq => h q (List.mem_cons_of_mem _ hq))

theorem mapFind_of_mem {K V : Type} [LinearOrder K] [DecidableEq K] (m : StdMap K V)
    (hm : Ordered m) (k : K) (v : V) (h : (k, v) ∈ m) : mapFind m k = some v := by
  induction m with
  | nil => cases h
  | cons p rest ih =>
    obtain ⟨k', v'⟩ := p
    have hlt := (List.pairwise_cons.mp hm).1
    rcases List.mem_cons.mp h with he | he
    · cases he
      simp [mapFind]
    · have : k' ≠ k := ne_of_lt (hlt (k, v) he)
      simp only [mapFind, this, if_false]
      exact ih (List.pairwise_cons.mp hm).2 he

theorem mem_of_mapFind {K V : Type} [DecidableEq K] (m : StdMap K V) (k : K) (v : V)
    (h : mapFind m k = some v) : (k, v) ∈ m := by
  induction m with
  | nil => cases h
  | cons p rest ih =>
    obtain ⟨k', v'⟩ := p
    by_cases hk : k' = k
    · simp only [mapFind, hk, if_true, Option.some.injEq] at h
      rw [hk, h]
      exact List.mem_cons_self _ _
    · simp only [mapFind, hk, if_false] at h
      exact List.mem_cons_of_mem _ (ih h)

theorem addWordCount_lower {K : Type} [LinearOrder K] [DecidableEq K] (m : StdMap K Nat)
    (w : K) (c : Nat) (b : K) (hb : ∀ p ∈ m, b < p.1) (hw : b < w) :
    ∀ p ∈ addWordCount m w c, b < p.1 := by
  induction m with
  | nil =>
    intro p hp
    simp only [addWordCount, List.mem_singleton] at hp
    rw [hp]
    exact hw
  | cons q rest ih =>
    obtain ⟨k, v⟩ := q
    have hk : b < k := hb (k, v) (List.mem_cons_self _ _)
    have hrest : ∀ p ∈ rest, b < p.1 := fun p hp => hb p (List.mem_cons_of_mem _ hp)
    intro p hp
    simp only [addWordCount] at hp
    split at hp
    · rcases List.mem_cons.mp hp with he | he
      · rw [he]
        exact hk
      · exact ih hrest p he
    · split at hp
      · rcases List.mem_cons.mp hp with he | he
        · rw [he]
          exact hk
        · exact hrest p he
      · rcases List.mem_cons.mp hp with he | he
        · rw [he]
          exact hw
        · exact hb p he

theorem addWordCount_ordered {K : Type} [LinearOrder K] [DecidableEq K] (m : StdMap K Nat)
    (w : K) (c : Nat) (hm : Ordered m) : Ordered (addWordCount m w c) := by
  induction m with
  | nil => simp [addWordCount, Ordered]
  | cons q rest ih =>
    obtain ⟨k, v⟩ := q
    have hlt := (List.pairwise_cons.mp hm).1
    have hrest : Ordered rest := (List.pairwise_cons.mp hm).2
    simp only [addWordCount]
    split
    · rename_i hkw
      exact List.pairwise_cons.mpr
        ⟨fun p hp => addWordCount_lower rest w c k (fun q hq => hlt q hq) hkw p hp, ih hrest⟩
    · split
      · exact List.pairwise_cons.mpr ⟨fun p hp => hlt p hp, hrest⟩
      · rename_i h1 h2
        have hwk : w < k := lt_of_le_of_ne (not_lt.mp h1) (fun e => h2 e.symm)
        refine List.pairwise_cons.mpr ⟨?_, hm⟩
        intro p hp
        rcases List.mem_cons.mp hp with he | he
        · rw [he]
          exact hwk
        · exact lt_trans hwk (hlt p he)

theorem mapFind_addWordCount {K : Type} [LinearOrder K] [DecidableEq K] (m : StdMap K Nat)
    (w : K) (c : Nat) (hm : Ordered m) (x : K) :
    mapFind (addWordCount m w c) x =
      if x = w then mergedCount (mapFind m w) (some c) else mapFind m x := by
  induction m with
  | nil =>
    by_cases hx : x = w
    · simp [addWordCount, mapFind, hx, mergedCount]
    · have : w ≠ x := fun e => hx e.symm
      simp [addWordCount, mapFind, hx, this]
  | cons q rest ih =>
    obtain ⟨k, v⟩ := q
    have hlt := (List.pairwise_cons.mp hm).1
    have hrest : Ordered rest := (List.pairwise_cons.mp hm).2
    simp only [addWordCount]
    split
    · rename_i hkw
      have hkne : k ≠ w := ne_of_lt hkw
      by_cases hx : x = w
      · subst hx
        simp only [mapFind, hkne, if_false, ih hrest, if_true]
      · by_cases hkx : k = x
        · simp [mapFind, hkx, hx]
        · simp only [mapFind, hkx, if_false, ih hrest, hx]
    · split
      · rename_i h1 h2
        by_cases hx : x = w
        · simp [mapFind, h2, hx, mergedCount]
        · have hkx : k ≠ x := by rw [h2]; exact fun e => hx e.symm
          simp [mapFind, hkx, hx]
      · rename_i h1 h2
        have hwk : w < k := lt_of_le_of_ne (not_lt.mp h1) (fun e => h2 e.symm)
        have hnone : mapFind ((k, v) :: rest) w = none := by
          apply mapFind_none_of_lt
          intro p hp
          rcases List.mem_cons.mp hp with he | he
          · rw [he]
            exact hwk
          · exact lt_trans hwk (hlt p he)
        by_cases hx : x = w
        · rw [hnone]
          simp [mapFind, hx, mergedCount]
        · have hwx : w ≠ x := fun e => hx e.symm
          simp only [hx, if_false]
          conv_lhs => rw [mapFind]
          simp only [hwx, if_false]

theorem mergeMap_ordered {K : Type} [LinearOrder K] [DecidableEq K] :
    ∀ (other m : StdMap K Nat), Ordered m → Ordered (mergeMap m other) := by
  intro other
  induction other with
  | nil => intro m hm; exact hm
  | cons p rest ih =>
    intro m hm
    exact ih (addWordCount m p.1 p.2) (addWordCount_ordered m p.1 p.2 hm)

theorem mapFind_mergeMap {K : Type} [LinearOrder K] [DecidableEq K] :
    ∀ (other m : StdMap K Nat), Ordered m → Ordered other → ∀ x : K,
      mapFind (mergeMap m other) x = mergedCount (mapFind m x) (mapFind other x) := by
  intro other
  induction other with
  | nil =>
    intro m _ _ x
    cases h : mapFind m x <;> simp [mergeMap, mapFind, mergedCount, h]
  | cons p rest ih =>
    intro m hm ho x
    obtain ⟨w, c⟩ := p
    have hlt := (List.pairwise_cons.mp ho).1
    have hrest : Ordered rest := (List.pairwise_cons.mp ho).2
    have hstep : mergeMap m ((w, c) :: rest) = mergeMap (addWordCount m w c) rest := rfl
    rw [hstep, ih (addWordCount m w c) (addWordCount_ordered m w c hm) hrest x,
      mapFind_addWordCount m w c hm x]
    by_cases hx : x = w
    · have hnone : mapFind rest w = none := mapFind_none_of_lt rest w (fun q hq => hlt q hq)
      rw [hx, hnone]
      cases h : mapFind m w <;> simp [mapFind, mergedCount]
    · have hwx : w ≠ x := fun e => hx e.symm
      simp only [hx, if_false, mapFind, hwx]

theorem mergedCount_comm (a b : Option Nat) : mergedCount a b = mergedCount b a := by
  cases a <;> cases b <;> simp [mergedCount, Nat.add_comm]

theorem mergedCount_assoc (a b c : Option Nat) :
    mergedCount (mergedCount a b) c = mergedCount a (mergedCount b c) := by
  cases a <;> cases b <;> cases c <;> simp [mergedCount]
  omega

theorem ordered_ext {K V : Type} [LinearOrder K] [DecidableEq K] :
    ∀ (m₁ m₂ : StdMap K V), Ordered m₁ → Ordered m₂ →
      (∀ w, mapFind m₁ w = mapFind m₂ w) → m₁ = m₂ := by
  intro m₁
  induction m₁ with
  | nil =>
    intro m₂ _ _ h
    cases m₂ with
    | nil => rfl
    | cons p rest =>
      have := h p.1
      simp [mapFind] at this
  | cons p rest ih =>
    intro m₂ h₁ h₂ h
    obtain ⟨k, v⟩ := p
    have hlt₁ := (List.pairwise_cons.mp h₁).1
    cases m₂ with
    | nil =>
      have := h k
      simp [mapFind] at this
    | cons q rest₂ =>
      obtain ⟨k₂, v₂⟩ := q
      have hlt₂ := (List.pairwise_cons.mp h₂).1
      have hk : k = k₂ := by
        rcases lt_trichotomy k k₂ with hc | hc | hc
        · have h1 := h k
          rw [mapFind_none_of_lt ((k₂, v₂) :: rest₂) k (by
            intro p hp
            rcases List.mem_cons.mp hp with he | he
            · rw [he]; exact hc
            · exact lt_trans hc (hlt₂ p he))] at h1
          simp [mapFind] at h1
        · exact hc
        · have h1 := h k₂
          rw [mapFind_none_of_lt ((k, v) :: rest) k₂ (by
            intro p hp
            rcases List.mem_cons.mp hp with he | he
            · rw [he]; exact hc
            · exact lt_trans hc (hlt₁ p he))] at h1
          simp [mapFind] at h1
      subst hk
      have hv : v = v₂ := by
        have h1 := h k
        simpa [mapFind] using h1
      subst hv
      have hrest : rest = rest₂ := by
        apply ih rest₂ (List.pairwise_cons.mp h₁).2 (List.pairwise_cons.mp h₂).2
        intro w
        by_cases hw : k = w
        · subst hw
          rw [mapFind_none_of_lt rest k (fun p hp => hlt₁ p hp),
            mapFind_none_of_lt rest₂ k (fun p hp => hlt₂ p hp)]
        · have h1 := h w
          simpa [mapFind, hw] using h1
      rw [hrest]

theorem sumCounts_addWordCount {K : Type} [LinearOrder K] [DecidableEq K] (m : StdMap K Nat)
    (w : K) (c : Nat) (hm : Ordered m) (hfit : ∀ v, mapFind m w = some v → v + c < 65536) :
    sumCounts (addWordCount m w c) = sumCounts m + c := by
  induction m with
  | nil => simp [addWordCount, sumCounts]
  | cons q rest ih =>
    obtain ⟨k, v⟩ := q
    have hrest : Ordered rest := (List.pairwise_cons.mp hm).2
    simp only [addWordCount]
    split
    · rename_i hkw
      have hkne : k ≠ w := ne_of_lt hkw
      have := ih hrest (fun v' hv' => hfit v' (by simp only [mapFind, hkne, if_false]; exact hv'))
      simp only [sumCounts, List.map_cons, List.sum_cons] at this ⊢
      omega
    · split
      · rename_i h1 h2
        have := hfit v (by simp [mapFind, h2])
        simp only [sumCounts, List.map_cons, List.sum_cons]
        rw [Nat.mod_eq_of_lt this]
        omega
      · simp only [sumCounts, List.map_cons, List.sum_cons]
        omega

theorem sumCounts_mergeMap {K : Type} [LinearOrder K] [DecidableEq K] :
    ∀ (other m : StdMap K Nat), Ordered m → Ordered other →
      (∀ p ∈ other, ∀ v, mapFind m p.1 = some v → v + p.2 < 65536) →
      sumCounts (mergeMap m other) = sumCounts m + sumCounts other := by
  intro other
  induction other with
  | nil => intro m _ _ _; simp [mergeMap, sumCounts]
  | cons p rest ih =>
    intro m hm ho hfit
    obtain ⟨w, c⟩ := p
    have hlt := (List.pairwise_cons.mp ho).1
    have hrest : Ordered rest := (List.pairwise_cons.mp ho).2
    have hstep : mergeMap m ((w, c) :: rest) = mergeMap (addWordCount m w c) rest := rfl
    rw [hstep, ih (addWordCount m w c) (addWordCount_ordered m w c hm) hrest,
      sumCounts_addWordCount m w c hm (fun v hv => hfit (w, c) (List.mem_cons_self _ _) v hv)]
    · simp only [sumCounts, List.map_cons, List.sum_cons]
      omega
    · intro q hq v hv
      have hne : q.1 ≠ w := ne_of_gt (hlt q hq)
      rw [mapFind_addWordCount m w c hm q.1] at hv
      simp only [hne, if_false] at hv
      exact hfit q (List.mem_cons_of_mem _ hq) v hv

theorem mergeFits_spec (m other : DocumentWordMap) (h : mergeFits m other = true) :
    ∀ p ∈ other, ∀ v, mapFind m p.1 = some v → v + p.2 < 65536 := by
  intro p hp v hv
  unfold mergeFits at h
  rw [List.all_eq_true] at h
  have := h p hp
  rw [hv] at this
  simpa using this

/-! ## Claims on `DocumentWordMap` -/

/-- C13, with the count taken in its `unsigned short`: `addWord` sets the count of the
word to 1 when it was absent and to its previous count plus 1 modulo `65536` otherwise
(so to the previous count plus 1 when that was below `65535`), and leaves the entry of
every other word, present or absent, as it was. -/
theorem addWord_counts (m : DocumentWordMap) (w : Str) (hm : Ordered m) :
    Ordered (addWord m w) ∧
      (mapFind m w = none → mapFind (addWord m w) w = some 1) ∧
      (∀ c, mapFind m w = some c →
        mapFind (addWord m w) w = some ((c + 1) % 65536) ∧
          (c < 65535 → mapFind (addWord m w) w = some (c + 1))) ∧
      ∀ x, x ≠ w → mapFind (addWord m w) x = mapFind m x := by
  refine ⟨addWordCount_ordered m w 1 hm, ?_, ?_, ?_⟩
  · intro h
    simp [addWord, mapFind_addWordCount m w 1 hm w, h, mergedCount]
  · intro c h
    have h1 : mapFind (addWord m w) w = some ((c + 1) % 65536) := by
      simp [addWord, mapFind_addWordCount m w 1 hm w, h, mergedCount]
    refine ⟨h1, fun hc => ?_⟩
    rw [h1, Nat.mod_eq_of_lt (by omega)]
  · intro x hx
    simp [addWord, mapFind_addWordCount m w 1 hm x, hx]

/-- An instance: the word `game` added to a map that holds it twice. -/
theorem addWord_counts_witness :
    Ordered ([(lit "game", 2), (lit "score", 1)] : DocumentWordMap) ∧
      mapFind (addWord ([(lit "game", 2), (lit "score", 1)] : DocumentWordMap) (lit "game"))
        (lit "game") = some 3 :=
  ⟨by decide,
    ((addWord_counts [(lit "game", 2), (lit "score", 1)] (lit "game") (by decide)).2.2.1 2
      (by decide)).2 (by decide)⟩

/-- C13 as stated fails at a count of `65535`: one more `addWord` leaves the count 0, not
the previous count plus 1. -/
theorem addWord_wraps :
    mapFind ([(lit "a", 65535)] : DocumentWordMap) (lit "a") = some 65535 ∧
      mapFind (addWord ([(lit "a", 65535)] : DocumentWordMap) (lit "a")) (lit "a") = some 0 ∧
      mapFind (addWord ([(lit "a", 65535)] : DocumentWordMap) (lit "a")) (lit "a") ≠
        some (65535 + 1) := by
  decide

/-- C14, with the counts taken in their `unsigned short`: after `mergeMap` the keys are
those of either map; a word held by both maps has the sum of its two counts modulo
`65536`, a word held by one map keeps that count; so the count is the plain sum of the
two counts, an absent word counting as 0, whenever that sum is below `65536`. -/
theorem mergeMap_counts (a b : DocumentWordMap) (ha : Ordered a) (hb : Ordered b) :
    Ordered (mergeMap a b) ∧
      (∀ w, (mapFind (mergeMap a b) w).isSome =
        ((mapFind a w).isSome || (mapFind b w).isSome)) ∧
      (∀ w, mapFind (mergeMap a b) w = mergedCount (mapFind a w) (mapFind b w)) ∧
      ∀ w, (mapFind a w).getD 0 + (mapFind b w).getD 0 < 65536 →
        (mapFind (mergeMap a b) w).getD 0 = (mapFind a w).getD 0 + (mapFind b w).getD 0 := by
  refine ⟨mergeMap_ordered b a ha, ?_, mapFind_mergeMap b a ha hb, ?_⟩
  · intro w
    rw [mapFind_mergeMap b a ha hb w]
    cases mapFind a w <;> cases mapFind b w <;> rfl
  · intro w
    rw [mapFind_mergeMap b a ha hb w]
    cases mapFind a w <;> cases mapFind b w <;> simp [mergedCount]

/-- An instance: two maps that share the word `score`. -/
theorem mergeMap_counts_witness :
    (Ordered ([(lit "game", 2), (lit "score", 1)] : DocumentWordMap) ∧
        Ordered ([(lit "score", 4), (lit "vote", 1)] : DocumentWordMap)) ∧
      mapFind (mergeMap ([(lit "game", 2), (lit "score", 1)] : DocumentWordMap)
        [(lit "score", 4), (lit "vote", 1)]) (lit "score") =
        mergedCount (mapFind ([(lit "game", 2), (lit "score", 1)] : DocumentWordMap) (lit "score"))
          (mapFind ([(lit "score", 4), (lit "vote", 1)] : DocumentWordMap) (lit "score")) :=
  ⟨⟨by decide, by decide⟩,
    (mergeMap_counts [(lit "game", 2), (lit "score", 1)] [(lit "score", 4), (lit "vote", 1)]
      (by decide) (by decide)).2.2.1 (lit "score")⟩

/-- C14 as stated fails when a sum reaches `65536`: merging a count of 1 into a count of
`65535` leaves 0, not the sum of the two counts. -/
theorem mergeMap_wraps :
    mapFind (mergeMap ([(lit "a", 65535)] : DocumentWordMap) [(lit "a", 1)]) (lit "a") =
        some 0 ∧
      mapFind (mergeMap ([(lit "a", 65535)] : DocumentWordMap) [(lit "a", 1)]) (lit "a") ≠
        some (65535 + 1) := by
  decide

theorem mergeMap_ordered_comm_assoc {K : Type} [LinearOrder K] [DecidableEq K]
    (a b c : StdMap K Nat) (ha : Ordered a) (hb : Ordered b) (hc : Ordered c) :
    (mergeMap a b = mergeMap b a ∧
        ∀ w, mapFind (mergeMap a b) w = mapFind (mergeMap b a) w) ∧
      (mergeMap (mergeMap a b) c = mergeMap a (mergeMap b c) ∧
        ∀ w, mapFind (mergeMap (mergeMap a b) c) w = mapFind (mergeMap a (mergeMap b c)) w) := by
  have hab := mergeMap_ordered b a ha
  have hba := mergeMap_ordered a b hb
  have hbc := mergeMap_ordered c b hb
  have hcomm : ∀ w, mapFind (mergeMap a b) w = mapFind (mergeMap b a) w := by
    intro w
    rw [mapFind_mergeMap b a ha hb w, mapFind_mergeMap a b hb ha w, mergedCount_comm]
  have hassoc : ∀ w,
      mapFind (mergeMap (mergeMap a b) c) w = mapFind (mergeMap a (mergeMap b c)) w := by
    intro w
    rw [mapFind_mergeMap c (mergeMap a b) hab hc w, mapFind_mergeMap b a ha hb w,
      mapFind_mergeMap (mergeMap b c) a ha hbc w, mapFind_mergeMap c b hb hc w,
      mergedCount_assoc]
  exact ⟨⟨ordered_ext _ _ hab hba hcomm, hcomm⟩,
    ⟨ordered_ext _ _ (mergeMap_ordered c (mergeMap a b) hab)
      (mergeMap_ordered (mergeMap b c) a ha) hassoc, hassoc⟩⟩

/-- C15: merging is commutative and associative. Merging `b` into `a` and merging `a`
into `b` give the same map, and so do merging `c` into the merge of `a` and `b` and
merging the merge of `b` and `c` into `a`; in particular every word has the same count
on both sides. -/
theorem mergeMap_comm_assoc (a b c : DocumentWordMap) (ha : Ordered a) (hb : Ordered b)
    (hc : Ordered c) :
    (mergeMap a b = mergeMap b a ∧
        ∀ w, mapFind (mergeMap a b) w = mapFind (mergeMap b a) w) ∧
      (mergeMap (mergeMap a b) c = mergeMap a (mergeMap b c) ∧
        ∀ w, mapFind (mergeMap (mergeMap a b) c) w = mapFind (mergeMap a (mergeMap b c)) w) :=
  mergeMap_ordered_comm_assoc a b c ha hb hc

/-- An instance: three maps that share words pairwise. -/
theorem mergeMap_comm_assoc_witness :
    mergeMap ([(lit "game", 2), (lit "score", 1)] : DocumentWordMap)
        [(lit "score", 4), (lit "vote", 1)] =
      mergeMap ([(lit "score", 4), (lit "vote", 1)] : DocumentWordMap)
        [(lit "game", 2), (lit "score", 1)] :=
  (mergeMap_comm_assoc [(lit "game", 2), (lit "score", 1)] [(lit "score", 4), (lit "vote", 1)]
    [(lit "game", 65535)] (by decide) (by decide) (by decide)).1.1

/-- The count a sequence of calls leaves for a word is the number of times the word was
added, modulo `65536`, and the word is a key exactly when it was added at all. -/
theorem wordMapOps_find (ops : WordMapOps) :
    Ordered ops.run ∧
      ∀ w, mapFind ops.run w =
        if ops.occurrences w = 0 then none else some (ops.occurrences w % 65536) := by
  induction ops with
  | empty => exact ⟨List.Pairwise.nil, fun w => rfl⟩
  | addWord m word ih =>
    obtain ⟨ho, hf⟩ := ih
    refine ⟨addWordCount_ordered m.run word 1 ho, fun w => ?_⟩
    simp only [WordMapOps.run, addWord, WordMapOps.occurrences]
    rw [mapFind_addWordCount m.run word 1 ho w]
    by_cases hw : w = word
    · subst hw
      rw [hf w]
      by_cases h0 : m.occurrences w = 0
      · simp [h0, mergedCount]
      · simp [h0, mergedCount]
    · have hw' : word ≠ w := fun e => hw e.symm
      simp only [hw, hw', if_false]
      exact hf w
  | mergeMap m other ihm iho =>
    obtain ⟨hom, hfm⟩ := ihm
    obtain ⟨hoo, hfo⟩ := iho
    refine ⟨mergeMap_ordered other.run m.run hom, fun w => ?_⟩
    simp only [WordMapOps.run, WordMapOps.occurrences]
    rw [mapFind_mergeMap other.run m.run hom hoo w, hfm w, hfo w]
    by_cases h1 : m.occurrences w = 0 <;> by_cases h2 : other.occurrences w = 0 <;>
      simp [h1, h2, mergedCount]

/-- C16, with the proviso that the word was added fewer than `65536` times: after any
sequence of `addWord` and `mergeMap` calls from an empty map, the count stored under a
key is the number of times the word was added modulo `65536`, the word was added at
least once, and the count is at least 1 when the word was added fewer than `65536`
times. -/
theorem wordMapOps_count_pos (ops : WordMapOps) (w : Str) (c : Nat)
    (hfind : mapFind ops.run w = some c) :
    c = ops.occurrences w % 65536 ∧ 1 ≤ ops.occurrences w ∧
      (ops.occurrences w < 65536 → 1 ≤ c) := by
  have h := (wordMapOps_find ops).2 w
  rw [hfind] at h
  by_cases h0 : ops.occurrences w = 0
  · simp [h0] at h
  · simp only [h0, if_false, Option.some.injEq] at h
    refine ⟨h, by omega, fun hlt => ?_⟩
    rw [h, Nat.mod_eq_of_lt hlt]
    omega

/-- An instance: a word added twice and merged with a map that holds it once. -/
theorem wordMapOps_count_pos_witness :
    mapFind (WordMapOps.run (.mergeMap (.addWord (.addWord .empty (lit "a")) (lit "a"))
        (.addWord .empty (lit "a")))) (lit "a") = some 3 ∧
      (3 = WordMapOps.occurrences (lit "a") (.mergeMap (.addWord (.addWord .empty (lit "a"))
          (lit "a")) (.addWord .empty (lit "a"))) % 65536 ∧
        1 ≤ WordMapOps.occurrences (lit "a") (.mergeMap (.addWord (.addWord .empty (lit "a"))
          (lit "a")) (.addWord .empty (lit "a"))) ∧
        (WordMapOps.occurrences (lit "a") (.mergeMap (.addWord (.addWord .empty (lit "a"))
          (lit "a")) (.addWord .empty (lit "a"))) < 65536 → 1 ≤ 3)) :=
  ⟨by decide,
    wordMapOps_count_pos (.mergeMap (.addWord (.addWord .empty (lit "a")) (lit "a"))
      (.addWord .empty (lit "a"))) (lit "a") 3 (by decide)⟩

/-- C16 as stated fails: one `addWord` followed by sixteen merges of the map into itself
leaves the key `a` with the count 0. -/
theorem wordMapOps_count_zero :
    mapFind (WordMapOps.run (WordMapOps.doubled 16 (.addWord .empty (lit "a")))) (lit "a") =
        some 0 ∧
      ¬ (1 ≤ 0) := by
  decide

/-! ## Claims on `CatWordData` -/

/-- C17 fails on two documents that share a word: after `addDocument` of the one-word
document `a` twice on a fresh `CatWordData`, `getWordCount()` is 2 while the aggregated
word map holds the single word `a`. -/
theorem wordCount_counts_shared_words_twice :
    (StatsOps.run sumCounts
        (.addDocument (.addDocument .fresh [(lit "a", 1)]) [(lit "a", 1)])).wordCount = 2 ∧
      (StatsOps.run sumCounts
        (.addDocument (.addDocument .fresh [(lit "a", 1)]) [(lit "a", 1)])).wordData =
          [(lit "a", 2)] ∧
      (StatsOps.run sumCounts
        (.addDocument (.addDocument .fresh [(lit "a", 1)]) [(lit "a", 1)])).wordData.length =
          1 := by
  decide

theorem statsOps_exact_total (getTotalWordCount : DocumentWordMap → Nat)
    (hTotal : ∀ d, getTotalWordCount d = sumCounts d % 4294967296) :
    ∀ ops : StatsOps, ops.exact getTotalWordCount = true →
      Ordered (ops.run getTotalWordCount).wordData ∧
        (ops.run getTotalWordCount).totalWordCount =
          sumCounts (ops.run getTotalWordCount).wordData := by
  intro ops
  induction ops with
  | fresh => intro _; exact ⟨List.Pairwise.nil, rfl⟩
  | addDocument s d ih =>
    intro h
    simp only [StatsOps.exact, Bool.and_eq_true, decide_eq_true_eq] at h
    obtain ⟨⟨⟨hs, hd⟩, hfit⟩, hlt⟩ := h
    obtain ⟨ho, ht⟩ := ih hs
    refine ⟨mergeMap_ordered d _ ho, ?_⟩
    simp only [StatsOps.run, CatWordData.addDocument]
    rw [sumCounts_mergeMap d _ ho hd (mergeFits_spec _ d hfit), hTotal d, ← ht]
    omega
  | mergeData s o ihs iho =>
    intro h
    simp only [StatsOps.exact, Bool.and_eq_true, decide_eq_true_eq] at h
    obtain ⟨⟨⟨hs, hother⟩, hfit⟩, hlt⟩ := h
    obtain ⟨hso, hst⟩ := ihs hs
    obtain ⟨hoo, hot⟩ := iho hother
    refine ⟨mergeMap_ordered _ _ hso, ?_⟩
    simp only [StatsOps.run, CatWordData.mergeData]
    rw [sumCounts_mergeMap _ _ hso hoo (mergeFits_spec _ _ hfit), ← hst, ← hot]
    omega

/-- C18, with the proviso that no counter wrapped: after any sequence of `addDocument`
and `mergeData` calls on a fresh `CatWordData` in which every sum of per-word counts
stayed below `65536` and every total below `4294967296`, `getTotalWordCount()` equals
the sum of all counts of the aggregated word map, the total word count of a document
being the sum of its counts in an `unsigned int`. -/
theorem totalWordCount_eq_sum (getTotalWordCount : DocumentWordMap → Nat)
    (hTotal : ∀ d, getTotalWordCount d = sumCounts d % 4294967296) (ops : StatsOps)
    (hexact : ops.exact getTotalWordCount = true) :
    (ops.run getTotalWordCount).totalWordCount =
      sumCounts (ops.run getTotalWordCount).wordData :=
  (statsOps_exact_total getTotalWordCount hTotal ops hexact).2

/-- An instance: two documents that share the word `score`, merged with the statistics
of a third. -/
theorem totalWordCount_eq_sum_witness :
    StatsOps.exact (fun d => sumCounts d % 4294967296)
        (.mergeData
          (.addDocument (.addDocument .fresh [(lit "game", 2), (lit "score", 1)])
            [(lit "score", 4)])
          (.addDocument .fresh [(lit "game", 1), (lit "vote", 3)])) = true ∧
      (StatsOps.run (fun d => sumCounts d % 4294967296)
        (.mergeData
          (.addDocument (.addDocument .fresh [(lit "game", 2), (lit "score", 1)])
            [(lit "score", 4)])
          (.addDocument .fresh [(lit "game", 1), (lit "vote", 3)]))).totalWordCount =
        sumCounts (StatsOps.run (fun d => sumCounts d % 4294967296)
          (.mergeData
            (.addDocument (.addDocument .fresh [(lit "game", 2), (lit "score", 1)])
              [(lit "score", 4)])
            (.addDocument .fresh [(lit "game", 1), (lit "vote", 3)]))).wordData :=
  ⟨by decide,
    totalWordCount_eq_sum (fun d => sumCounts d % 4294967296) (fun _ => rfl)
      (.mergeData
        (.addDocument (.addDocument .fresh [(lit "game", 2), (lit "score", 1)])
          [(lit "score", 4)])
        (.addDocument .fresh [(lit "game", 1), (lit "vote", 3)])) (by decide)⟩

/-- C18 as stated fails when a per-word count wraps: after two documents that hold the
word `a` 32768 times each, `getTotalWordCount()` is 65536 while the aggregated count of
`a`, and with it the sum of all counts, is 0. -/
theorem totalWordCount_ne_sum :
    (StatsOps.run (fun d => sumCounts d % 4294967296)
        (.addDocument (.addDocument .fresh [(lit "a", 32768)])
          [(lit "a", 32768)])).totalWordCount = 65536 ∧
      sumCounts (StatsOps.run (fun d => sumCounts d % 4294967296)
        (.addDocument (.addDocument .fresh [(lit "a", 32768)])
          [(lit "a", 32768)])).wordData = 0 := by
  decide

theorem docCount_foldl (getTotalWordCount : DocumentWordMap → Nat) :
    ∀ (docs : List DocumentWordMap) (s : CatWordData), s.docCount < 65536 →
      (docs.foldl (CatWordData.addDocument getTotalWordCount) s).docCount =
        (s.docCount + docs.length) % 65536 := by
  intro docs
  induction docs with
  | nil =>
    intro s hs
    simp [Nat.mod_eq_of_lt hs]
  | cons d rest ih =>
    intro s _
    rw [List.foldl_cons, ih _ (Nat.mod_lt _ (by decide))]
    simp only [CatWordData.addDocument, List.length_cons]
    omega

/-- C19, with the counters taken in their machine width: `addDocument` sets the document
count to the old count plus 1 modulo `65536` (so plus 1 below `65535`), replaces the
aggregated word map by its merge with the document, and sets the total word count to
the old total plus the document's total modulo `4294967296` (so to the plain sum when
that is below `4294967296`); from a fresh `CatWordData`, `n` calls leave the document
count `n` modulo `65536`, which is `n` for fewer than `65536` calls. -/
theorem addDocument_counts (getTotalWordCount : DocumentWordMap → Nat) (s : CatWordData)
    (d : DocumentWordMap) (docs : List DocumentWordMap) :
    ((CatWordData.addDocument getTotalWordCount s d).docCount = (s.docCount + 1) % 65536 ∧
        (s.docCount < 65535 →
          (CatWordData.addDocument getTotalWordCount s d).docCount = s.docCount + 1)) ∧
      (CatWordData.addDocument getTotalWordCount s d).wordData = mergeMap s.wordData d ∧
      ((CatWordData.addDocument getTotalWordCount s d).totalWordCount =
          (s.totalWordCount + getTotalWordCount d) % 4294967296 ∧
        (s.totalWordCount + getTotalWordCount d < 4294967296 →
          (CatWordData.addDocument getTotalWordCount s d).totalWordCount =
            s.totalWordCount + getTotalWordCount d)) ∧
      ((docs.foldl (CatWordData.addDocument getTotalWordCount) CatWordData.init).docCount =
          docs.length % 65536 ∧
        (docs.length < 65536 →
          (docs.foldl (CatWordData.addDocument getTotalWordCount) CatWordData.init).docCount =
            docs.length)) := by
  have hfold := docCount_foldl getTotalWordCount docs CatWordData.init (by decide)
  have hinit : CatWordData.init.docCount = 0 := rfl
  rw [hinit, Nat.zero_add] at hfold
  refine ⟨⟨rfl, fun h => ?_⟩, rfl, ⟨rfl, fun h => ?_⟩, hfold, fun h => ?_⟩
  · exact Nat.mod_eq_of_lt (by omega)
  · exact Nat.mod_eq_of_lt h
  · rw [hfold, Nat.mod_eq_of_lt h]

/-- An instance: a third document added to statistics of two documents. -/
theorem addDocument_counts_witness :
    (3 : Nat) < 65535 ∧
      (CatWordData.addDocument sumCounts (CatWordData.mk 3 2 9 [(lit "game", 6), (lit "score", 3)])
        [(lit "game", 1)]).docCount = 3 + 1 :=
  ⟨by decide,
    (addDocument_counts sumCounts (CatWordData.mk 3 2 9 [(lit "game", 6), (lit "score", 3)])
      [(lit "game", 1)] []).1.2 (by decide)⟩

/-- C19 as stated fails at the width of the document counter: `addDocument` on statistics
of 65535 documents leaves the document count 0, and so do 65536 calls on a fresh
`CatWordData`. -/
theorem addDocument_docCount_wraps :
    (CatWordData.addDocument sumCounts (CatWordData.mk 65535 0 0 []) []).docCount = 0 ∧
      ((List.replicate 65536 ([] : DocumentWordMap)).foldl (CatWordData.addDocument sumCounts)
        CatWordData.init).docCount = 0 ∧
      ((List.replicate 65536 ([] : DocumentWordMap)).foldl (CatWordData.addDocument sumCounts)
        CatWordData.init).docCount ≠ 65536 := by
  have h := docCount_foldl sumCounts (List.replicate 65536 ([] : DocumentWordMap))
    CatWordData.init (by decide)
  have hinit : CatWordData.init.docCount = 0 := rfl
  rw [hinit, List.length_replicate] at h
  refine ⟨by decide, ?_, ?_⟩
  · rw [h]
  · rw [h]
    decide

/-- C20: `mergeData` is commutative and associative on the document count, the word count,
the total word count and the word map. -/
theorem mergeData_comm_assoc (a b c : CatWordData) (ha : Ordered a.wordData)
    (hb : Ordered b.wordData) (hc : Ordered c.wordData) :
    CatWordData.mergeData a b = CatWordData.mergeData b a ∧
      CatWordData.mergeData (CatWordData.mergeData a b) c =
        CatWordData.mergeData a (CatWordData.mergeData b c) := by
  obtain ⟨⟨h1, -⟩, ⟨h2, -⟩⟩ := mergeMap_ordered_comm_assoc a.wordData b.wordData c.wordData ha hb hc
  constructor
  · simp only [CatWordData.mergeData, CatWordData.mk.injEq]
    exact ⟨by omega, by omega, by omega, h1⟩
  · simp only [CatWordData.mergeData, CatWordData.mk.injEq]
    exact ⟨by omega, by omega, by omega, h2⟩

/-- An instance: three statistics that share words. -/
theorem mergeData_comm_assoc_witness :
    CatWordData.mergeData (CatWordData.mk 3 2 9 [(lit "game", 6), (lit "score", 3)])
        (CatWordData.mk 65535 1 5 [(lit "score", 65535)]) =
      CatWordData.mergeData (CatWordData.mk 65535 1 5 [(lit "score", 65535)])
        (CatWordData.mk 3 2 9 [(lit "game", 6), (lit "score", 3)]) :=
  (mergeData_comm_assoc (CatWordData.mk 3 2 9 [(lit "game", 6), (lit "score", 3)])
    (CatWordData.mk 65535 1 5 [(lit "score", 65535)]) (CatWordData.mk 1 1 1 [(lit "vote", 1)])
    (by decide) (by decide) (by decide)).1

/-! ## Claims on training and classification guards -/

theorem buildClassifiers_ok {R : Type} [LinearOrderedField R] (log : R → R)
    (trainingData : InfoByCategory) (hmap : Ordered trainingData)
    (h2 : 2 ≤ trainingData.length) :
    buildClassifiers log trainingData = .ok (trainingData.map fun p =>
      (p.1, Classifier.create log p.2
        (trainingData.foldl (fun total p => (total + p.2.docCount) % 65536) 0) 1)) := by
  have h1 : ¬ trainingData.length < 1 := by omega
  have h2' : ¬ trainingData.length < 2 := by omega
  simp only [buildClassifiers, h1, h2', if_false]
  rw [foldl_mapInsert_nil
    (fun p : Str × CatWordData => Classifier.create log p.2
      (trainingData.foldl (fun total p => (total + p.2.docCount) % 65536) 0) 1)
    trainingData hmap]

/-- C11 as the code has it: a category whose document count is zero is not rejected.
Training on two or more categories returns a model for it as for every other category,
with the log prior `log (0 / D)`; the constructor of `Classifier` has no failure path. -/
theorem zero_documents_model {R : Type} [LinearOrderedField R] (log : R → R)
    (trainingData : InfoByCategory) (label : Str) (data : CatWordData)
    (hmap : Ordered trainingData) (h2 : 2 ≤ trainingData.length)
    (hmem : (label, data) ∈ trainingData) (hzero : data.docCount = 0) :
    ∃ classifiers model,
      buildClassifiers log trainingData = .ok classifiers ∧
      mapFind classifiers label = some model ∧
      model = Classifier.create log data
        (trainingData.foldl (fun total p => (total + p.2.docCount) % 65536) 0) 1 ∧
      model.docProbability =
        log (0 / ((trainingData.foldl (fun total p => (total + p.2.docCount) % 65536) 0 : Nat) :
          R)) := by
  refine ⟨_, _, buildClassifiers_ok log trainingData hmap h2, ?_, rfl, ?_⟩
  · rw [mapFind_map
      (fun d : CatWordData => Classifier.create log d
        (trainingData.foldl (fun total p => (total + p.2.docCount) % 65536) 0) 1)
      trainingData label, mapFind_of_mem trainingData hmap label data hmem]
    rfl
  · simp [Classifier.create, hzero]

/-- An instance: the category `empty` without documents next to a category of two
documents. -/
theorem zero_documents_model_witness :
    ∃ classifiers model,
      buildClassifiers Real.log
        [(lit "empty", CatWordData.mk 0 0 0 []),
          (lit "sports", CatWordData.mk 2 2 5 [(lit "game", 3), (lit "score", 2)])] =
        .ok classifiers ∧
      mapFind classifiers (lit "empty") = some model ∧
      model = Classifier.create Real.log (CatWordData.mk 0 0 0 [])
        (([(lit "empty", CatWordData.mk 0 0 0 []),
          (lit "sports", CatWordData.mk 2 2 5 [(lit "game", 3), (lit "score", 2)])] :
            InfoByCategory).foldl (fun total p => (total + p.2.docCount) % 65536) 0) 1 ∧
      model.docProbability =
        Real.log (0 / ((([(lit "empty", CatWordData.mk 0 0 0 []),
          (lit "sports", CatWordData.mk 2 2 5 [(lit "game", 3), (lit "score", 2)])] :
            InfoByCategory).foldl (fun total p => (total + p.2.docCount) % 65536) 0 : Nat) : ℝ)) :=
  zero_documents_model Real.log
    [(lit "empty", CatWordData.mk 0 0 0 []),
      (lit "sports", CatWordData.mk 2 2 5 [(lit "game", 3), (lit "score", 2)])]
    (lit "empty") (CatWordData.mk 0 0 0 []) (by decide) (by decide)
    (List.mem_cons_self _ _) rfl

/-- C11 as stated fails: training on the category `empty`, which has no documents, and
the category `sports` raises no error and returns a model for `empty`. -/
theorem zero_documents_not_rejected :
    ∃ classifiers,
      buildClassifiers (fun x : ℚ => x)
        [(lit "empty", CatWordData.mk 0 0 0 []),
          (lit "sports", CatWordData.mk 2 2 5 [(lit "game", 3), (lit "score", 2)])] =
        .ok classifiers ∧
      (mapFind classifiers (lit "empty")).isSome = true ∧
      ∀ e, buildClassifiers (fun x : ℚ => x)
        [(lit "empty", CatWordData.mk 0 0 0 []),
          (lit "sports", CatWordData.mk 2 2 5 [(lit "game", 3), (lit "score", 2)])] ≠
        .error e := by
  have h := buildClassifiers_ok (fun x : ℚ => x)
    [(lit "empty", CatWordData.mk 0 0 0 []),
      (lit "sports", CatWordData.mk 2 2 5 [(lit "game", 3), (lit "score", 2)])]
    (by decide) (by decide)
  refine ⟨_, h, ?_, ?_⟩
  · simp [mapFind]
  · intro e he
    rw [h] at he
    cases he

/-- C12: with no built model, either overload of `classify` throws whatever the directory
search and the file reader would do, and leaves the caller's results map as it was; with
a model, either overload runs on a cleared results map, so that nothing of the caller's
earlier content takes part. -/
theorem classify_guard {R : Type} [LinearOrderedField R] (classifiers : CategoryClassifiers R)
    (targets : List Str) (classifyDir : Str) (results : DocClassifyMap) :
    (classifiers = [] →
        ∀ (findFiles : Str → Except Fault (List Str))
          (getWordMap : Str → Except Fault DocumentWordMap),
          classifyList findFiles getWordMap classifiers targets results =
              (some (.baseException
                (lit "Internal error: attempt to classify documents with invalid classifier")),
                results) ∧
            classify findFiles getWordMap classifiers classifyDir results =
              (some (.baseException
                (lit "Internal error: attempt to classify documents with invalid classifier")),
                results)) ∧
      (classifiers ≠ [] →
        ∀ (findFiles : Str → Except Fault (List Str))
          (getWordMap : Str → Except Fault DocumentWordMap),
          classifyList findFiles getWordMap classifiers targets results =
              classifyTargets findFiles getWordMap classifiers targets [] ∧
            classify findFiles getWordMap classifiers classifyDir results =
              classifyDirs findFiles getWordMap classifiers classifyDir []) := by
  constructor
  · intro h findFiles getWordMap
    subst h
    exact ⟨rfl, rfl⟩
  · intro h findFiles getWordMap
    have he : classifiers.isEmpty = false := by
      cases classifiers with
      | nil => exact absurd rfl h
      | cons _ _ => rfl
    simp [classifyList, classify, he]

/-- An instance: no model, a results map with one entry, and collaborators that would
fail. -/
theorem classify_guard_witness :
    classifyList (fun _ => .error .loopBound) (fun _ => .error .loopBound)
        ([] : CategoryClassifiers ℚ) [lit "docs"] [(lit "f", lit "sports")] =
      (some (.baseException
        (lit "Internal error: attempt to classify documents with invalid classifier")),
        [(lit "f", lit "sports")]) :=
  ((classify_guard ([] : CategoryClassifiers ℚ) [lit "docs"] (lit "docs")
    [(lit "f", lit "sports")]).1 rfl (fun _ => .error .loopBound)
    (fun _ => .error .loopBound)).1

/-! ## The rule-list `replaceSuffix` applies the first rule that passes its test -/

theorem replaceSuffix_eq (word : List Char) (n : Nat) (rule : List Char × List Char) :
    replaceSuffix word rule.1 n rule.2 =
      .ok (if ruleApplies word n rule = true then (applyRule word rule, true)
        else (word, false)) := by
  obtain ⟨r, hr, h⟩ := replaceSuffix_spec word rule.1 n rule.2
  rw [hr]
  unfold replaceSuffix at hr
  by_cases hc : (decide (rule.1.length + n > word.length) || !hasSuffix word rule.1) = true
  · rw [if_pos hc] at hr
    cases hr
    simp [ruleApplies, hc]
  · rw [if_neg hc] at hr
    have hr2 : r.2 = true := by
      rcases h with ⟨hf, hw⟩ | ⟨ht, -, -⟩
      · exfalso
        cases hrep : replaceAt word (word.length - rule.1.length) rule.1.length rule.2 with
        | error e => rw [hrep] at hr; cases hr
        | ok w =>
          rw [hrep] at hr
          simp only [bind_ok, pure_eq_ok, Except.ok.injEq] at hr
          rw [← hr] at hf
          cases hf
      · exact ht
    rcases h with ⟨hf, -⟩ | ⟨-, -, hw⟩
    · rw [hr2] at hf
      cases hf
    · have happ : ruleApplies word n rule = true := by
        simp only [ruleApplies]
        simpa using hc
      rw [if_pos happ]
      congr 1
      exact Prod.ext hw hr2

theorem replaceSuffixLoop_find (n : Nat) :
    ∀ (suffixes : SuffixReplacements) (word : List Char),
      replaceSuffixLoop word n suffixes =
        .ok (match suffixes.find? (ruleApplies word n) with
          | some rule => (applyRule word rule, true)
          | none => (word, false)) := by
  intro suffixes
  induction suffixes with
  | nil => intro word; rfl
  | cons rule rest ih =>
    intro word
    simp only [replaceSuffixLoop, replaceSuffix_eq, bind_ok]
    cases h : ruleApplies word n rule with
    | true => simp [List.find?, h]
    | false => simp [List.find?, h, ih]

theorem find?_split {α : Type} (p : α → Bool) :
    ∀ (before : List α) (x : α) (after : List α), (∀ y ∈ before, p y = false) → p x = true →
      (before ++ x :: after).find? p = some x := by
  intro before
  induction before with
  | nil => intro x after _ hx; simp [List.find?, hx]
  | cons y rest ih =>
    intro x after hb hx
    have hy : p y = false := hb y (List.mem_cons_self _ _)
    simp only [List.cons_append, List.find?, hy]
    exact ih x after (fun z hz => hb z (List.mem_cons_of_mem _ hz)) hx

theorem replaceSuffixList_find (word : List Char) (syllables : List Nat) (want : Nat)
    (suffixes : SuffixReplacements) (hwant : want < sizeMod) :
    replaceSuffixList word syllables want suffixes =
      .ok (match syllableBoundary syllables want with
        | none => (word, false)
        | some boundary =>
          match suffixes.find? (ruleApplies word (boundary + 1)) with
          | some rule => (applyRule word rule, true)
          | none => (word, false)) := by
  unfold replaceSuffixList syllableBoundary
  by_cases h1 : want ≤ 1
  · have h2 : ¬ syllables.length + 1 < want := by omega
    have h3 : ¬ want > 1 := by omega
    simp only [h2, h3, h1, if_false, if_true, pure_eq_ok, bind_ok]
    exact replaceSuffixLoop_find 1 suffixes word
  · have hsub : subSz want 2 = want - 2 := subSz_of_le (by omega) hwant
    simp only [h1, if_false, hsub]
    by_cases h2 : syllables.length + 1 < want
    · have : syllables[want - 2]? = none := List.getElem?_eq_none (by omega)
      simp [h2, this]
    · have hlt : want - 2 < syllables.length := by omega
      have hget : syllables[want - 2]? = some syllables[want - 2] :=
        List.getElem?_eq_getElem hlt
      have h3 : want > 1 := by omega
      simp only [h2, if_false, h3, if_true, sylAt, hget, bind_ok, pure_eq_ok]
      exact replaceSuffixLoop_find _ suffixes word
theorem ruleApplies_iff (word : List Char) (boundary : Nat) (rule : List Char × List Char) :
    ruleApplies word (boundary + 1) rule = true ↔
      (hasSuffix word rule.1 = true ∧ rule.1.length + boundary + 1 ≤ word.length) := by
  unfold ruleApplies
  cases hasSuffix word rule.1
  · simp
  · simp only [gt_iff_lt, Bool.not_true, Bool.or_false, Bool.not_eq_true', decide_eq_false_iff_not,
      not_lt, true_and]
    omega

theorem ruleApplies_fun (word : List Char) (boundary : Nat) :
    ruleApplies word (boundary + 1) =
      fun rule => hasSuffix word rule.1 && decide (rule.1.length + boundary + 1 ≤ word.length) := by
  funext rule
  rw [Bool.eq_iff_iff, ruleApplies_iff]
  simp

/-- C27: the rule-list `replaceSuffix` returns `false` and leaves the word alone when the
word never had the wanted syllable or no rule qualifies, and otherwise rewrites the word
by the first rule of the list that qualifies, whatever rules stand before and after it. A
rule qualifies when its suffix ends the word and the word has at least suffix length +
boundary position + 1 letters. This number is taken below `2 ^ 64`, as it is for every
boundary that is a position of a string: the `size_t` sums `syllables[wantSyllable - 2] + 1`
and `suffix.length() + stemLength` of the source are then the sums of the numbers. -/
theorem replaceSuffixList_first_qualifying (word : List Char) (syllables : List Nat)
    (wantSyllable : Nat) (suffixes : SuffixReplacements) (hwant : wantSyllable < sizeMod)
    (hrange : ∀ boundary, syllableBoundary syllables wantSyllable = some boundary →
      ∀ rule ∈ suffixes, rule.1.length + boundary + 1 < sizeMod) :
    (∀ boundary, syllableBoundary syllables wantSyllable = some boundary →
      ∀ rule ∈ suffixes, addSz boundary 1 = boundary + 1 ∧
        addSz rule.1.length (addSz boundary 1) = rule.1.length + boundary + 1) ∧
    (syllableBoundary syllables wantSyllable = none →
      replaceSuffixList word syllables wantSyllable suffixes = .ok (word, false)) ∧
    ∀ boundary, syllableBoundary syllables wantSyllable = some boundary →
      (∀ before rule after, suffixes = before ++ rule :: after →
        (∀ earlier ∈ before, ¬ (hasSuffix word earlier.1 = true ∧
          earlier.1.length + boundary + 1 ≤ word.length)) →
        hasSuffix word rule.1 = true → rule.1.length + boundary + 1 ≤ word.length →
        replaceSuffixList word syllables wantSyllable suffixes =
          .ok (word.take (word.length - rule.1.length) ++ rule.2, true)) ∧
      ((∀ rule ∈ suffixes, ¬ (hasSuffix word rule.1 = true ∧
          rule.1.length + boundary + 1 ≤ word.length)) →
        replaceSuffixList word syllables wantSyllable suffixes = .ok (word, false)) := by
  refine ⟨?_, ?_⟩
  · intro boundary hb rule hrule
    have hlt := hrange boundary hb rule hrule
    have h1 : addSz boundary 1 = boundary + 1 := addSz_of_lt (by omega)
    refine ⟨h1, ?_⟩
    rw [h1, addSz_of_lt (by omega)]
    omega
  rw [replaceSuffixList_find word syllables wantSyllable suffixes hwant]
  refine ⟨fun h => by rw [h], ?_⟩
  intro boundary hb
  rw [hb]
  refine ⟨?_, ?_⟩
  · intro before rule after hs hbefore h1 h2
    have hfind : suffixes.find? (ruleApplies word (boundary + 1)) = some rule := by
      rw [hs]
      apply find?_split
      · intro y hy
        have := hbefore y hy
        rw [← ruleApplies_iff] at this
        simpa using this
      · exact (ruleApplies_iff word boundary rule).mpr ⟨h1, h2⟩
    simp only [hfind]
    rfl
  · intro hnone
    have hfind : suffixes.find? (ruleApplies word (boundary + 1)) = none := by
      rw [List.find?_eq_none]
      intro x hx
      have := hnone x hx
      rw [← ruleApplies_iff] at this
      exact this
    simp only [hfind]

/-- An instance: `element`, whose boundaries are 1, 3 and 5, with the rule list of
`case 'n'` and wanted syllable 3 becomes `elem`: `ement` and `ment` end the word but leave
too short a stem. -/
theorem replaceSuffixList_first_qualifying_witness :
    (3 : Nat) < sizeMod ∧ getSyllables (lit "element") = .ok [1, 3, 5] ∧
    syllableBoundary [1, 3, 5] 3 = some 3 ∧
    (∀ rule ∈ rules [("ant", ""), ("ement", ""), ("ment", ""), ("ent", "")],
      rule.1.length + 3 + 1 < sizeMod) ∧
    hasSuffix (lit "element") (lit "ement") = true ∧
    replaceSuffixList (lit "element") [1, 3, 5] 3
      (rules [("ant", ""), ("ement", ""), ("ment", ""), ("ent", "")]) =
      .ok (lit "elem", true) :=
  ⟨by decide, by decide, by decide, by decide, by decide,
    ((replaceSuffixList_first_qualifying (lit "element") [1, 3, 5] 3
      (rules [("ant", ""), ("ement", ""), ("ment", ""), ("ent", "")]) (by decide)
      (fun boundary hb => by
        have h3 : syllableBoundary [1, 3, 5] 3 = some 3 := by decide
        rw [h3] at hb
        cases hb
        decide)).2.2 3
      (by decide)).1 (rules [("ant", ""), ("ement", ""), ("ment", "")]) (lit "ent", lit "") []
      (by decide) (by decide) (by decide) (by decide)⟩

theorem hasSyllableCount_eq (stem : List Char) (syllables : List Nat) (want k : Nat)
    (hw : want = 2 ∨ want = 3) :
    hasSyllableCount stem syllables want k =
      .ok (match syllables[want - 2]? with
        | some b => decide (b < subSz stem.length k)
        | none => false) := by
  have e1 : subSz 2 1 = 1 := by decide
  have e2 : subSz 2 2 = 0 := by decide
  have e3 : subSz 3 1 = 2 := by decide
  have e4 : subSz 3 2 = 1 := by decide
  unfold hasSyllableCount
  rcases hw with rfl | rfl
  · simp only [e1, e2]
    by_cases hl : syllables.length ≥ 1
    · have hget : syllables[0]? = some syllables[0] := List.getElem?_eq_getElem (by omega)
      simp [hl, sylAt, hget]
    · have hget : syllables[0]? = none := List.getElem?_eq_none (by omega)
      simp [hl, hget]
  · simp only [e3, e4]
    by_cases hl : syllables.length ≥ 2
    · have hget : syllables[1]? = some syllables[1] := List.getElem?_eq_getElem (by omega)
      simp [hl, sylAt, hget]
    · have hget : syllables[1]? = none := List.getElem?_eq_none (by omega)
      simp [hl, hget]

theorem suffixPass_closed (table : Char → SuffixReplacements) (minLength back want k : Nat)
    (stem : List Char) (syllables : List Nat) (hw : want = 2 ∨ want = 3)
    (hk : k ≤ minLength + 1) (hlen : stem.length < sizeMod)
    (hclosed : ¬ stem.length > minLength ∨
      ∀ b, syllables[want - 2]? = some b → ¬ b + k < stem.length) :
    suffixPass table minLength back want want k stem syllables = .ok stem := by
  unfold suffixPass
  rw [andAlso_pure, hasSyllableCount_eq stem syllables want k hw]
  by_cases hmin : stem.length > minLength
  · have hsub : subSz stem.length k = stem.length - k := subSz_of_le (by omega) hlen
    rcases hclosed with h | h
    · exact absurd hmin h
    · cases hget : syllables[want - 2]? with
      | none => simp [hmin]
      | some b =>
        have hb : ¬ b < stem.length - k := by
          have := h b hget
          omega
        simp [hmin, hsub, hb]
  · simp [hmin]

theorem suffixPass_open (table : Char → SuffixReplacements) (minLength back want k : Nat)
    (stem : List Char) (syllables : List Nat) (hw : want = 2 ∨ want = 3)
    (hback : back ≤ minLength) (hk : k ≤ minLength + 1) (hlen : stem.length < sizeMod)
    (b : Nat) (c : Char) (hmin : stem.length > minLength) (hb : syllables[want - 2]? = some b)
    (hgate : b + k < stem.length) (hc : stem[stem.length - back]? = some c) :
    suffixPass table minLength back want want k stem syllables =
      .ok (match (table c).find? (ruleApplies stem (b + 1)) with
        | some rule => applyRule stem rule
        | none => stem) := by
  have hsub : subSz stem.length k = stem.length - k := subSz_of_le (by omega) hlen
  have hsubb : subSz stem.length back = stem.length - back := subSz_of_le (by omega) hlen
  have hwant : want < sizeMod := by
    rw [sizeMod_val]
    omega
  have hbound : syllableBoundary syllables want = some b := by
    unfold syllableBoundary
    have : ¬ want ≤ 1 := by omega
    simp only [this, if_false, hb]
  have hgate' : b < stem.length - k := by omega
  unfold suffixPass
  rw [andAlso_pure, hasSyllableCount_eq stem syllables want k hw, hb]
  simp only [hmin, decide_True, if_true, hsub, hgate', bind_ok, hsubb, charAt, hc]
  rw [replaceSuffixList_find stem syllables want (table c) hwant, hbound]
  cases hempty : table c with
  | nil => simp
  | cons rule rest =>
    simp only [List.isEmpty_cons, Bool.not_false, if_true, bind_ok, pure_eq_ok]
    split <;> rfl

/-- C26: in each of the three suffix passes of `getStem`, when the gate is open, the rule
list the `switch` selects is searched in list order for the first pair whose suffix ends
the stem and leaves the stem at least one letter beyond the syllable boundary; that pair
is applied and pairs before it, whether their suffix ends the stem or not, are passed
over; with no such pair, or the gate closed, the stem stays as it is. -/
theorem suffixPass_applies_first_passing (table : Char → SuffixReplacements)
    (minLength back wantSyllable suffixSize : Nat) (stem : List Char) (syllables : List Nat)
    (hpass : (table, minLength, back, wantSyllable, suffixSize) = (suffixes1, 3, 2, 2, 3) ∨
      (table, minLength, back, wantSyllable, suffixSize) = (suffixes2, 2, 1, 2, 3) ∨
      (table, minLength, back, wantSyllable, suffixSize) = (suffixes3, 3, 2, 3, 2))
    (hlen : stem.length < sizeMod) :
    ((¬ stem.length > minLength ∨
        ∀ b, syllables[wantSyllable - 2]? = some b → ¬ b + suffixSize < stem.length) →
      suffixPass table minLength back wantSyllable wantSyllable suffixSize stem syllables =
        .ok stem) ∧
    ∀ boundary c, stem.length > minLength → syllables[wantSyllable - 2]? = some boundary →
      boundary + suffixSize < stem.length → stem[stem.length - back]? = some c →
      suffixPass table minLength back wantSyllable wantSyllable suffixSize stem syllables =
        .ok (match (table c).find? (fun rule => hasSuffix stem rule.1 &&
            decide (rule.1.length + boundary + 1 ≤ stem.length)) with
          | some rule => stem.take (stem.length - rule.1.length) ++ rule.2
          | none => stem) := by
  have hparams : (wantSyllable = 2 ∨ wantSyllable = 3) ∧ back ≤ minLength ∧
      suffixSize ≤ minLength + 1 := by
    rcases hpass with h | h | h <;>
      · simp only [Prod.mk.injEq] at h
        obtain ⟨-, rfl, rfl, rfl, rfl⟩ := h
        decide
  obtain ⟨hw, hback, hk⟩ := hparams
  refine ⟨suffixPass_closed table minLength back wantSyllable suffixSize stem syllables hw hk
    hlen, ?_⟩
  intro boundary c hmin hb hgate hc
  rw [suffixPass_open table minLength back wantSyllable suffixSize stem syllables hw hback hk
    hlen boundary c hmin hb hgate hc, ruleApplies_fun]
  rfl

/-- An instance: the third pass on `element`, dispatched on `n`, passes over `ement`
and `ment` and applies `ent`. -/
theorem suffixPass_applies_first_passing_witness :
    (lit "element").length < sizeMod ∧
    suffixPass suffixes3 3 2 3 3 2 (lit "element") [1, 3, 5] = .ok (lit "elem") :=
  ⟨by decide,
    (suffixPass_applies_first_passing suffixes3 3 2 3 2 (lit "element") [1, 3, 5]
      (Or.inr (Or.inr rfl)) (by decide)).2 3 'n' (by decide) (by decide) (by decide)
      (by decide)⟩

/-- C26 as stated fails: `element` ends with `ement`, the first suffix of the
list of `case 'n'` it ends with, yet the third pass applies the later pair `ent`:
`getStem` returns `elem`, as the test table of the source expects, and not `el`. -/
theorem first_matching_suffix_not_applied :
    suffixes3 'n' = rules [("ant", ""), ("ement", ""), ("ment", ""), ("ent", "")] ∧
    hasSuffix (lit "element") (lit "ant") = false ∧
    hasSuffix (lit "element") (lit "ement") = true ∧
    getSyllables (lit "element") = .ok [1, 3, 5] ∧
    suffixPass suffixes3 3 2 3 3 2 (lit "element") [1, 3, 5] = .ok (lit "elem") ∧
    applyRule (lit "element") (lit "ement", lit "") = lit "el" ∧
    getStem (lit "element") = .ok (lit "elem") := by
  decide

/-! ## The gate and the `switch` of a suffix pass exclude no rule that applies -/

theorem find?_filter_of_imp {α : Type} (p q : α → Bool) :
    ∀ (l : List α), (∀ x ∈ l, p x = true → q x = true) →
      (l.filter q).find? p = l.find? p := by
  intro l
  induction l with
  | nil => intro _; rfl
  | cons x rest ih =>
    intro h
    have ih' := ih (fun y hy => h y (List.mem_cons_of_mem _ hy))
    cases hq : q x with
    | true =>
      simp only [List.filter_cons, hq, if_true, List.find?_cons, ih']
    | false =>
      have hp : p x = false := by
        cases hp : p x with
        | false => rfl
        | true =>
          have := h x (List.mem_cons_self _ _) hp
          rw [hq] at this
          cases this
      simp only [List.filter_cons, hq, Bool.false_eq_true, if_false, List.find?_cons, hp, ih']

theorem dispatchLetter_of_applies (stem : List Char) (n back : Nat)
    (rule : List Char × List Char) (c : Char) (hback : back ≤ rule.1.length)
    (hc : stem[stem.length - back]? = some c) (h : ruleApplies stem n rule = true) :
    dispatchLetter back rule = some c := by
  have hs : hasSuffix stem rule.1 = true := by
    unfold ruleApplies at h
    cases hh : hasSuffix stem rule.1 with
    | true => rfl
    | false => simp [hh] at h
  have hlt := hasSuffix_length hs
  have := hasSuffix_getElem? hs (rule.1.length - back)
  rw [show stem.length - rule.1.length + (rule.1.length - back) = stem.length - back by omega,
    hc] at this
  unfold dispatchLetter
  exact this.symm

theorem find?_dispatch (all : SuffixReplacements) (table : Char → SuffixReplacements)
    (back : Nat) (stem : List Char) (n : Nat) (c : Char)
    (htable : all.filter (fun rule => dispatchLetter back rule == some c) = table c)
    (hall : ∀ rule ∈ all, back ≤ rule.1.length)
    (hc : stem[stem.length - back]? = some c) :
    (table c).find? (ruleApplies stem n) = all.find? (ruleApplies stem n) := by
  rw [← htable]
  apply find?_filter_of_imp
  intro rule hrule happ
  rw [dispatchLetter_of_applies stem n back rule c (hall rule hrule) hc happ]
  simp

theorem allSuffixes1_dispatch (c : Char) :
    allSuffixes1.filter (fun rule => dispatchLetter 2 rule == some c) = suffixes1 c := by
  unfold suffixes1
  split
  · decide
  · decide
  · decide
  · decide
  · decide
  · decide
  · decide
  · rw [List.filter_eq_nil_iff]
    intro rule hrule
    have hmem : ∃ d ∈ ['a', 'c', 'e', 'l', 'o', 's', 't'], dispatchLetter 2 rule = some d := by
      revert rule
      decide
    obtain ⟨d, hd, hrd⟩ := hmem
    rw [hrd]
    simp only [List.mem_cons, List.mem_singleton, List.not_mem_nil, or_false] at hd
    simp only [beq_iff_eq, Option.some.injEq]
    intro h
    subst h
    rcases hd with h | h | h | h | h | h | h <;> contradiction
theorem allSuffixes2_dispatch (c : Char) :
    allSuffixes2.filter (fun rule => dispatchLetter 1 rule == some c) = suffixes2 c := by
  unfold suffixes2
  split
  · decide
  · decide
  · decide
  · decide
  · rw [List.filter_eq_nil_iff]
    intro rule hrule
    have hmem : ∃ d ∈ ['e', 'i', 'l', 's'], dispatchLetter 1 rule = some d := by
      revert rule
      decide
    obtain ⟨d, hd, hrd⟩ := hmem
    rw [hrd]
    simp only [List.mem_cons, List.mem_singleton, List.not_mem_nil, or_false] at hd
    simp only [beq_iff_eq, Option.some.injEq]
    intro h
    subst h
    rcases hd with h | h | h | h <;> contradiction

theorem allSuffixes3_dispatch (c : Char) :
    allSuffixes3.filter (fun rule => dispatchLetter 2 rule == some c) = suffixes3 c := by
  unfold suffixes3
  split
  · decide
  · decide
  · decide
  · decide
  · decide
  · decide
  · decide
  · decide
  · decide
  · decide
  · decide
  · decide
  · rw [List.filter_eq_nil_iff]
    intro rule hrule
    have hmem : ∃ d ∈ ['a', 'c', 'e', 'i', 'l', 'n', 'o', 's', 't', 'u', 'v', 'z'],
        dispatchLetter 2 rule = some d := by
      revert rule
      decide
    obtain ⟨d, hd, hrd⟩ := hmem
    rw [hrd]
    simp only [List.mem_cons, List.mem_singleton, List.not_mem_nil, or_false] at hd
    simp only [beq_iff_eq, Option.some.injEq]
    intro h
    subst h
    rcases hd with h | h | h | h | h | h | h | h | h | h | h | h <;> contradiction

theorem suffixPass_ungated (table : Char → SuffixReplacements) (all : SuffixReplacements)
    (minLength back want k : Nat) (stem : List Char) (syllables : List Nat)
    (hw : want = 2 ∨ want = 3) (hback1 : 1 ≤ back) (hback : back ≤ minLength)
    (hk : k ≤ minLength + 1) (hlen : stem.length < sizeMod)
    (htable : ∀ c, all.filter (fun rule => dispatchLetter back rule == some c) = table c)
    (hall : ∀ rule ∈ all, back ≤ rule.1.length ∧ k ≤ rule.1.length)
    (hgate : ∀ b, syllables[want - 2]? = some b → minLength ≤ k + b) :
    suffixPass table minLength back want want k stem syllables =
      ungatedPass all want stem syllables := by
  have hwant : want < sizeMod := by
    rw [sizeMod_val]
    omega
  have hbound : syllableBoundary syllables want = syllables[want - 2]? := by
    unfold syllableBoundary
    have : ¬ want ≤ 1 := by omega
    simp only [this, if_false]
  unfold ungatedPass
  rw [replaceSuffixList_find stem syllables want all hwant, hbound]
  cases hget : syllables[want - 2]? with
  | none =>
    rw [suffixPass_closed table minLength back want k stem syllables hw hk hlen
      (Or.inr (fun b hb => by rw [hget] at hb; cases hb))]
    rfl
  | some b =>
    by_cases hopen : stem.length > minLength ∧ b + k < stem.length
    · obtain ⟨hmin, hg⟩ := hopen
      have hc : stem[stem.length - back]? = some stem[stem.length - back] :=
        List.getElem?_eq_getElem (by omega)
      rw [suffixPass_open table minLength back want k stem syllables hw hback hk hlen b _ hmin
        hget hg hc, find?_dispatch all table back stem (b + 1) _ (htable _)
        (fun rule hrule => (hall rule hrule).1) hc]
      simp only [bind_ok, pure_eq_ok]
      split <;> rfl
    · have hnone : all.find? (ruleApplies stem (b + 1)) = none := by
        rw [List.find?_eq_none]
        intro rule hrule happ
        have happ' := (ruleApplies_iff stem b rule).mp (by simpa using happ)
        have h1 := (hall rule hrule).2
        have h2 := hgate b hget
        apply hopen
        constructor <;> omega
      rw [suffixPass_closed table minLength back want k stem syllables hw hk hlen (by
        by_cases hmin : stem.length > minLength
        · right
          intro b' hb'
          rw [hget] at hb'
          cases hb'
          intro hg
          exact hopen ⟨hmin, hg⟩
        · exact Or.inl hmin)]
      simp only [hnone, bind_ok, pure_eq_ok]

/-! ## The letters the syllable search stops at -/

theorem findFrom_spec (p : Char → Bool) :
    ∀ (cs : List Char) (i : Nat),
      (findFrom p cs i = npos ∧ ∀ c ∈ cs, p c = false) ∨
      ∃ k c, findFrom p cs i = i + k ∧ cs[k]? = some c ∧ p c = true ∧
        ∀ j, j < k → ∀ d, cs[j]? = some d → p d = false := by
  intro cs
  induction cs with
  | nil => intro i; exact Or.inl ⟨rfl, by simp⟩
  | cons c cs ih =>
    intro i
    simp only [findFrom]
    by_cases hp : p c = true
    · right
      refine ⟨0, c, by simp [hp], by simp, hp, ?_⟩
      intro j hj
      omega
    · have hp' : p c = false := by simpa using hp
      simp only [hp', Bool.false_eq_true, if_false]
      rcases ih (i + 1) with ⟨h1, h2⟩ | ⟨k, d, h1, h2, h3, h4⟩
      · left
        refine ⟨h1, ?_⟩
        intro x hx
        rcases List.mem_cons.mp hx with rfl | hx
        · exact hp'
        · exact h2 x hx
      · right
        refine ⟨k + 1, d, by rw [h1]; omega, by simpa using h2, h3, ?_⟩
        intro j hj e he
        cases j with
        | zero =>
          simp only [List.getElem?_cons_zero, Option.some.injEq] at he
          rw [← he]
          exact hp'
        | succ j =>
          simp only [List.getElem?_cons_succ] at he
          exact h4 j (by omega) e he

theorem findDrop_spec (p : Char → Bool) (s : List Char) (pos : Nat) :
    (findFrom p (s.drop pos) pos = npos ∧
      ∀ j, pos ≤ j → ∀ c, s[j]? = some c → p c = false) ∨
    ∃ r c, findFrom p (s.drop pos) pos = r ∧ pos ≤ r ∧ s[r]? = some c ∧ p c = true ∧
      ∀ j, pos ≤ j → j < r → ∀ d, s[j]? = some d → p d = false := by
  rcases findFrom_spec p (s.drop pos) pos with ⟨h1, h2⟩ | ⟨k, c, h1, h2, h3, h4⟩
  · left
    refine ⟨h1, ?_⟩
    intro j hj c hc
    apply h2 c
    rw [List.mem_iff_getElem?]
    refine ⟨j - pos, ?_⟩
    rw [List.getElem?_drop, show pos + (j - pos) = j by omega]
    exact hc
  · right
    rw [List.getElem?_drop] at h2
    refine ⟨pos + k, c, h1, by omega, h2, h3, ?_⟩
    intro j hj1 hj2 d hd
    apply h4 (j - pos) (by omega) d
    rw [List.getElem?_drop, show pos + (j - pos) = j by omega]
    exact hd

theorem vowels_of_vowelsAndY {c : Char} (h : vowelsAndY.contains c = true) (hy : c ≠ 'y') :
    vowels.contains c = true := by
  simp only [vowelsAndY, vowels, List.contains_cons, List.contains_nil, Bool.or_false,
    Bool.or_eq_true, beq_iff_eq] at h ⊢
  tauto

theorem vowelsAndY_of_vowels {c : Char} (h : vowels.contains c = true) :
    vowelsAndY.contains c = true := by
  simp only [vowelsAndY, vowels, List.contains_cons, List.contains_nil, Bool.or_false,
    Bool.or_eq_true, beq_iff_eq] at h ⊢
  tauto

theorem vowelAt_eq (s : List Char) (i : Nat) (c : Char) (hlen : s.length < sizeMod)
    (hc : s[i]? = some c) (hv : vowelsAndY.contains c = true) :
    vowelAt s i = .ok (countsAsVowel s i) := by
  have hi := getElem?_lt hc
  unfold vowelAt countsAsVowel
  simp only [charAt, hc, bind_ok]
  by_cases hy : c = 'y'
  · subst hy
    have hv' : 'y' ∉ vowels := by decide
    by_cases h0 : i = 0
    · subst h0
      simp [hv']
    · have hsub : subSz i 1 = i - 1 := @subSz_of_le i 1 (by omega) (lt_trans hi hlen)
      obtain ⟨p, -, hget⟩ := charAt_of_lt (show i - 1 < s.length by omega)
      simp [hv', h0, hsub, hget]
  · have hmem : c ∈ vowels := by simpa using vowels_of_vowelsAndY hv hy
    simp [hy, hmem]

theorem consonantAt_eq (s : List Char) (i : Nat) (c : Char) (hlen : s.length < sizeMod)
    (hc : s[i]? = some c) (hv : vowels.contains c = false) :
    consonantAt s i = .ok (closesSyllable s i) := by
  have hi := getElem?_lt hc
  have hmem : c ∉ vowels := by simpa using hv
  unfold consonantAt closesSyllable
  simp only [charAt, hc, bind_ok]
  by_cases hy : c = 'y'
  · subst hy
    by_cases h0 : i = 0
    · subst h0
      simp [hmem]
    · have hsub : subSz i 1 = i - 1 := @subSz_of_le i 1 (by omega) (lt_trans hi hlen)
      obtain ⟨p, -, hget⟩ := charAt_of_lt (show i - 1 < s.length by omega)
      simp [hmem, h0, hsub, hget]
  · simp [hy, hmem]

theorem countsAsVowel_false (s : List Char) (j : Nat)
    (h : ∀ c, s[j]? = some c → vowelsAndY.contains c = false) : countsAsVowel s j = false := by
  unfold countsAsVowel
  cases hc : s[j]? with
  | none => rfl
  | some c =>
    have h1 := h c hc
    have h2 : c ∉ vowels := by
      intro h2
      have h3 : vowels.contains c = true := by simpa using h2
      rw [vowelsAndY_of_vowels h3] at h1
      cases h1
    have h3 : c ≠ 'y' := by
      intro hy
      subst hy
      revert h1
      decide
    simp [h2, h3]

theorem closesSyllable_false (s : List Char) (j : Nat)
    (h : ∀ c, s[j]? = some c → (!vowels.contains c) = false) : closesSyllable s j = false := by
  unfold closesSyllable
  cases hc : s[j]? with
  | none => rfl
  | some c =>
    have h1 := h c hc
    have h2 : c ∈ vowels := by simpa using h1
    simp [h2]

theorem vowelLoop_spec (s : List Char) (hlen : s.length < sizeMod) :
    ∀ (fuel p0 : Nat), 1 ≤ fuel → s.length + 1 ≤ fuel + p0 →
      ∃ r, vowelLoop s fuel (findFirstOf s vowelsAndY p0) = .ok r ∧
        ((r = npos ∧ ∀ j, p0 ≤ j → countsAsVowel s j = false) ∨
          (p0 ≤ r ∧ r < s.length ∧ countsAsVowel s r = true ∧
            ∀ j, p0 ≤ j → j < r → countsAsVowel s j = false)) := by
  intro fuel
  induction fuel with
  | zero => intro p0 h; omega
  | succ fuel ih =>
    intro p0 _ hfuel
    simp only [vowelLoop]
    rcases findDrop_spec (fun c => vowelsAndY.contains c) s p0 with
      ⟨h1, h2⟩ | ⟨r, c, h1, h2, h3, h4, h5⟩
    · have hidx : findFirstOf s vowelsAndY p0 = npos := h1
      rw [hidx]
      refine ⟨npos, by simp, Or.inl ⟨rfl, ?_⟩⟩
      intro j hj
      exact countsAsVowel_false s j (fun c hc => h2 j hj c hc)
    · have hr := getElem?_lt h3
      have hne : r ≠ npos := by
        rw [npos_val]
        rw [sizeMod_val] at hlen
        omega
      have hidx : findFirstOf s vowelsAndY p0 = r := h1
      rw [hidx, vowelAt_eq s r c hlen h3 h4]
      simp only [bne_iff_ne, ne_eq, hne, not_false_eq_true, if_true, bind_ok]
      have hbefore : ∀ j, p0 ≤ j → j < r → countsAsVowel s j = false :=
        fun j hj1 hj2 => countsAsVowel_false s j (fun d hd => h5 j hj1 hj2 d hd)
      cases hv : countsAsVowel s r with
      | true => exact ⟨r, by simp, Or.inr ⟨h2, hr, hv, hbefore⟩⟩
      | false =>
        simp only [Bool.false_eq_true, if_false]
        rw [addSz_of_lt (by rw [sizeMod_val] at *; omega)]
        obtain ⟨r', hr', hspec⟩ := ih (r + 1) (by omega) (by omega)
        refine ⟨r', hr', ?_⟩
        have hall : ∀ j, p0 ≤ j → j < r + 1 → countsAsVowel s j = false := by
          intro j hj1 hj2
          by_cases hjr : j = r
          · rw [hjr]
            exact hv
          · exact hbefore j hj1 (by omega)
        rcases hspec with ⟨e1, e2⟩ | ⟨e1, e2, e3, e4⟩
        · left
          refine ⟨e1, ?_⟩
          intro j hj
          by_cases hjr : j < r + 1
          · exact hall j hj hjr
          · exact e2 j (by omega)
        · right
          refine ⟨by omega, e2, e3, ?_⟩
          intro j hj1 hj2
          by_cases hjr : j < r + 1
          · exact hall j hj1 hjr
          · exact e4 j (by omega) hj2

theorem consonantLoop_spec (s : List Char) (hlen : s.length < sizeMod) :
    ∀ (fuel p0 : Nat), 1 ≤ fuel → s.length + 1 ≤ fuel + p0 →
      ∃ r, consonantLoop s fuel (findFirstNotOf s vowels p0) = .ok r ∧
        ((r = npos ∧ ∀ j, p0 ≤ j → closesSyllable s j = false) ∨
          (p0 ≤ r ∧ r < s.length ∧ closesSyllable s r = true ∧
            ∀ j, p0 ≤ j → j < r → closesSyllable s j = false)) := by
  intro fuel
  induction fuel with
  | zero => intro p0 h; omega
  | succ fuel ih =>
    intro p0 _ hfuel
    simp only [consonantLoop]
    rcases findDrop_spec (fun c => !vowels.contains c) s p0 with
      ⟨h1, h2⟩ | ⟨r, c, h1, h2, h3, h4, h5⟩
    · have hidx : findFirstNotOf s vowels p0 = npos := h1
      rw [hidx]
      refine ⟨npos, by simp, Or.inl ⟨rfl, ?_⟩⟩
      intro j hj
      exact closesSyllable_false s j (fun c hc => h2 j hj c hc)
    · have hr := getElem?_lt h3
      have hne : r ≠ npos := by
        rw [npos_val]
        rw [sizeMod_val] at hlen
        omega
      have hidx : findFirstNotOf s vowels p0 = r := h1
      have h4' : vowels.contains c = false := by simpa using h4
      rw [hidx, consonantAt_eq s r c hlen h3 h4']
      simp only [bne_iff_ne, ne_eq, hne, not_false_eq_true, if_true, bind_ok]
      have hbefore : ∀ j, p0 ≤ j → j < r → closesSyllable s j = false :=
        fun j hj1 hj2 => closesSyllable_false s j (fun d hd => h5 j hj1 hj2 d hd)
      cases hv : closesSyllable s r with
      | true => exact ⟨r, by simp, Or.inr ⟨h2, hr, hv, hbefore⟩⟩
      | false =>
        simp only [Bool.false_eq_true, if_false]
        rw [addSz_of_lt (by rw [sizeMod_val] at *; omega)]
        obtain ⟨r', hr', hspec⟩ := ih (r + 1) (by omega) (by omega)
        refine ⟨r', hr', ?_⟩
        have hall : ∀ j, p0 ≤ j → j < r + 1 → closesSyllable s j = false := by
          intro j hj1 hj2
          by_cases hjr : j = r
          · rw [hjr]
            exact hv
          · exact hbefore j hj1 (by omega)
        rcases hspec with ⟨e1, e2⟩ | ⟨e1, e2, e3, e4⟩
        · left
          refine ⟨e1, ?_⟩
          intro j hj
          by_cases hjr : j < r + 1
          · exact hall j hj hjr
          · exact e2 j (by omega)
        · right
          refine ⟨by omega, e2, e3, ?_⟩
          intro j hj1 hj2
          by_cases hjr : j < r + 1
          · exact hall j hj1 hjr
          · exact e4 j (by omega) hj2

theorem nextSyllable_spec (s : List Char) (hlen : s.length < sizeMod) (pos : Nat) :
    ∃ r, nextSyllable s pos = .ok r ∧
      ((r = npos ∧
          ((∀ j, pos ≤ j → countsAsVowel s j = false) ∨
            ∃ v, pos ≤ v ∧ v < s.length ∧ countsAsVowel s v = true ∧
              (∀ j, pos ≤ j → j < v → countsAsVowel s j = false) ∧
              ∀ j, v < j → closesSyllable s j = false)) ∨
        ∃ v, pos ≤ v ∧ v < r ∧ r < s.length ∧ countsAsVowel s v = true ∧
          (∀ j, pos ≤ j → j < v → countsAsVowel s j = false) ∧
          closesSyllable s r = true ∧ ∀ j, v < j → j < r → closesSyllable s j = false) := by
  unfold nextSyllable
  obtain ⟨v, hv, hspec⟩ := vowelLoop_spec s hlen (s.length + 1) pos (by omega) (by omega)
  rw [hv]
  simp only [bind_ok]
  rcases hspec with ⟨e1, e2⟩ | ⟨e1, e2, e3, e4⟩
  · exact ⟨npos, by simp [e1], Or.inl ⟨rfl, Or.inl e2⟩⟩
  · have hne : v ≠ npos := by
      rw [npos_val]
      rw [sizeMod_val] at hlen
      omega
    simp only [beq_iff_eq, hne, if_false]
    rw [addSz_of_lt (by rw [sizeMod_val] at *; omega)]
    obtain ⟨r, hr, hspec2⟩ :=
      consonantLoop_spec s hlen (s.length + 1) (v + 1) (by omega) (by omega)
    refine ⟨r, hr, ?_⟩
    rcases hspec2 with ⟨f1, f2⟩ | ⟨f1, f2, f3, f4⟩
    · exact Or.inl ⟨f1, Or.inr ⟨v, e1, e2, e3, e4, fun j hj => f2 j (by omega)⟩⟩
    · exact Or.inr ⟨v, e1, by omega, f2, e3, e4, f3, fun j hj1 hj2 => f4 j (by omega) hj2⟩

/-- C29: `nextSyllable` returns the first position after the first vowel at or after
`pos` that closes the syllable, and `npos` when there is no such vowel or no such
position. A letter counts as that vowel when it is one of `a`, `e`, `i`, `o`, `u`, or a
`y` that follows a consonant; a `y` that starts the word or follows a vowel or a `y` does
not. A letter closes the syllable when it is outside `aeiou` and not a `y` that follows a
`y`. -/
theorem nextSyllable_vowels (word : List Char) (hlen : word.length < sizeMod) (pos : Nat) :
    (∃ r, nextSyllable word pos = .ok r ∧
      ((r = npos ∧
          ((∀ j, pos ≤ j → countsAsVowel word j = false) ∨
            ∃ v, pos ≤ v ∧ v < word.length ∧ countsAsVowel word v = true ∧
              (∀ j, pos ≤ j → j < v → countsAsVowel word j = false) ∧
              ∀ j, v < j → closesSyllable word j = false)) ∨
        ∃ v, pos ≤ v ∧ v < r ∧ r < word.length ∧ countsAsVowel word v = true ∧
          (∀ j, pos ≤ j → j < v → countsAsVowel word j = false) ∧
          closesSyllable word r = true ∧
          ∀ j, v < j → j < r → closesSyllable word j = false)) ∧
    (∀ i c, word[i]? = some c → c ∈ vowels → countsAsVowel word i = true) ∧
    (∀ i, word[i]? = some 'y' →
      (countsAsVowel word i = true ↔
        i ≠ 0 ∧ ∃ p, word[i - 1]? = some p ∧ isConsonant p = true)) ∧
    (∀ i, word[i]? = some 'y' →
      (closesSyllable word i = true ↔ i ≠ 0 ∧ word[i - 1]? ≠ some 'y')) := by
  refine ⟨nextSyllable_spec word hlen pos, ?_, ?_, ?_⟩
  · intro i c hc hmem
    unfold countsAsVowel
    simp [hc, hmem]
  · intro i hc
    have hy : 'y' ∉ vowels := by decide
    have hi := getElem?_lt hc
    unfold countsAsVowel
    by_cases h0 : i = 0
    · subst h0
      simp [hc, hy]
    · obtain ⟨p, -, hget⟩ := charAt_of_lt (show i - 1 < word.length by omega)
      simp [hc, hy, h0, hget]
  · intro i hc
    have hy : 'y' ∉ vowels := by decide
    have hi := getElem?_lt hc
    unfold closesSyllable
    by_cases h0 : i = 0
    · subst h0
      simp [hc, hy]
    · obtain ⟨p, -, hget⟩ := charAt_of_lt (show i - 1 < word.length by omega)
      simp [hc, hy, h0, hget]

/-- An instance: in `byte` the `y` follows the consonant `b` and is the vowel of the
first syllable, which the `t` closes. -/
theorem nextSyllable_vowels_witness :
    (lit "byte").length < sizeMod ∧ nextSyllable (lit "byte") 0 = .ok 2 ∧
    countsAsVowel (lit "byte") 1 = true :=
  ⟨by decide, by decide,
    ((nextSyllable_vowels (lit "byte") (by decide) 0).2.2.1 1 (by decide)).mpr
      ⟨by decide, 'b', by decide, by decide⟩⟩

/-- C29 as stated fails: the `y` of `yt` is not preceded by a consonant and
does not count as a vowel, so the word has no syllable boundary; the `y` of `byt` is
preceded by a consonant and does count as a vowel, so the `t` is a boundary. -/
theorem y_after_consonant_is_vowel :
    vowelAt (lit "yt") 0 = .ok false ∧ getSyllables (lit "yt") = .ok [] ∧
    vowelAt (lit "byt") 1 = .ok true ∧ getSyllables (lit "byt") = .ok [2] ∧
    vowelAt (lit "ayt") 1 = .ok false ∧ getSyllables (lit "ayt") = .ok [1] := by
  decide

theorem nextSyllable_bound (s : List Char) (hlen : s.length < sizeMod) (pos : Nat) :
    ∃ r, nextSyllable s pos = .ok r ∧
      (r ≠ npos → pos < r ∧ r < s.length ∧ ∃ c, s[r]? = some c ∧ c ∉ vowels) := by
  obtain ⟨r, hr, hspec⟩ := nextSyllable_spec s hlen pos
  refine ⟨r, hr, ?_⟩
  intro hne
  rcases hspec with ⟨e1, -⟩ | ⟨v, h1, h2, h3, -, -, h4, -⟩
  · exact absurd e1 hne
  · refine ⟨by omega, h3, ?_⟩
    obtain ⟨c, -, hc⟩ := charAt_of_lt h3
    refine ⟨c, hc, ?_⟩
    unfold closesSyllable at h4
    rw [hc] at h4
    simp only [Bool.and_eq_true, Bool.not_eq_true', decide_eq_false_iff_not] at h4
    intro hmem
    have : vowels.contains c = true := by simpa using hmem
    rw [this] at h4
    exact absurd h4.1 (by simp)

theorem getSyllablesLoop_spec (s : List Char) (hlen : s.length < sizeMod) :
    ∀ (fuel index : Nat) (syllables : List Nat), 1 ≤ fuel →
      (index ≠ npos → (4 - syllables.length) + 2 ≤ fuel) →
      syllables.length ≤ 4 → syllables.Pairwise (fun a b => a < b) →
      (∀ i ∈ syllables, i < index ∧ 1 ≤ i ∧ i < s.length ∧ ∃ c, s[i]? = some c ∧ c ∉ vowels) →
      ∃ l, getSyllablesLoop s fuel index syllables = .ok l ∧ l.length ≤ 4 ∧
        l.Pairwise (fun a b => a < b) ∧
        ∀ i ∈ l, 1 ≤ i ∧ i < s.length ∧ ∃ c, s[i]? = some c ∧ c ∉ vowels := by
  intro fuel
  induction fuel with
  | zero => intro index syllables h; omega
  | succ fuel ih =>
    intro index syllables _ hidx hcount hsorted hall
    simp only [getSyllablesLoop]
    split
    · rename_i hc
      simp only [Bool.and_eq_true, bne_iff_ne, ne_eq, decide_eq_true_eq] at hc
      obtain ⟨next, hnext, hbound⟩ := nextSyllable_bound s hlen index
      have hf := hidx hc.1
      simp only [hnext, bind_ok]
      split
      · rename_i hn
        have hn' : next ≠ npos := by simpa using hn
        obtain ⟨h1, h2, h3⟩ := hbound hn'
        rw [addSz_of_lt (by rw [sizeMod_val] at *; omega)]
        apply ih
        · omega
        · intro _
          simp only [List.length_append, List.length_singleton]
          omega
        · simp only [List.length_append, List.length_singleton]
          omega
        · rw [List.pairwise_append]
          refine ⟨hsorted, List.pairwise_singleton _ _, ?_⟩
          intro a ha b hb
          rw [List.mem_singleton] at hb
          rw [hb]
          have := (hall a ha).1
          omega
        · intro i hi
          rcases List.mem_append.mp hi with hi | hi
          · obtain ⟨e1, e2, e3, e4⟩ := hall i hi
            exact ⟨by omega, e2, e3, e4⟩
          · rw [List.mem_singleton] at hi
            rw [hi]
            exact ⟨by omega, by omega, h2, h3⟩
      · rename_i hn
        have hn' : next = npos := by simpa using hn
        rw [hn']
        cases fuel with
        | zero => omega
        | succ fuel =>
          refine ⟨syllables, by simp [getSyllablesLoop], hcount, hsorted, ?_⟩
          intro i hi
          exact (hall i hi).2
    · refine ⟨syllables, rfl, hcount, hsorted, ?_⟩
      intro i hi
      exact (hall i hi).2

/-- C30: `getSyllables` returns, for every word, a list of at most four positions in
strictly increasing order, each of them at least 1 and below the length of the word, and
the word holds a letter outside `a`, `e`, `i`, `o`, `u` at each. -/
theorem getSyllables_boundaries (word : List Char) (hlen : word.length < sizeMod) :
    ∃ syllables, getSyllables word = .ok syllables ∧ syllables.length ≤ 4 ∧
      syllables.Pairwise (fun a b => a < b) ∧
      ∀ i ∈ syllables, 1 ≤ i ∧ i < word.length ∧ ∃ c, word[i]? = some c ∧ c ∉ vowels :=
  getSyllablesLoop_spec word hlen 6 0 [] (by omega) (by intro _; simp) (by simp)
    List.Pairwise.nil (by simp)

/-- An instance: the boundaries of `generalization` are the letters `n`, `r`, `l` and
`z`. -/
theorem getSyllables_boundaries_witness :
    (lit "generalization").length < sizeMod ∧
    getSyllables (lit "generalization") = .ok [2, 4, 6, 8] ∧
    ∃ syllables, getSyllables (lit "generalization") = .ok syllables ∧ syllables.length ≤ 4 ∧
      syllables.Pairwise (fun a b => a < b) ∧
      ∀ i ∈ syllables, 1 ≤ i ∧ i < (lit "generalization").length ∧
        ∃ c, (lit "generalization")[i]? = some c ∧ c ∉ vowels :=
  ⟨by decide, by decide, getSyllables_boundaries (lit "generalization") (by decide)⟩

/-! ## The suffix passes on the syllable lists `getSyllables` returns -/

theorem suffixPasses_ungated (stem : List Char) (syllables : List Nat)
    (hlen : stem.length < sizeMod) (hsyl : ∀ i ∈ syllables, 1 ≤ i) :
    suffixPass suffixes1 3 2 2 2 3 stem syllables = ungatedPass allSuffixes1 2 stem syllables ∧
    suffixPass suffixes2 2 1 2 2 3 stem syllables = ungatedPass allSuffixes2 2 stem syllables ∧
    suffixPass suffixes3 3 2 3 3 2 stem syllables =
      ungatedPass allSuffixes3 3 stem syllables := by
  refine ⟨?_, ?_, ?_⟩
  · exact suffixPass_ungated suffixes1 allSuffixes1 3 2 2 3 stem syllables (Or.inl rfl)
      (by decide) (by decide) (by decide) hlen allSuffixes1_dispatch (by decide)
      (fun b _ => by omega)
  · exact suffixPass_ungated suffixes2 allSuffixes2 2 1 2 3 stem syllables (Or.inl rfl)
      (by decide) (by decide) (by decide) hlen allSuffixes2_dispatch (by decide)
      (fun b _ => by omega)
  · exact suffixPass_ungated suffixes3 allSuffixes3 3 2 3 2 stem syllables (Or.inr rfl)
      (by decide) (by decide) (by decide) hlen allSuffixes3_dispatch (by decide)
      (fun b hb => by
        have := hsyl b (List.mem_iff_getElem?.mpr ⟨_, hb⟩)
        omega)

/-- C28: the three suffix passes of `getStem` work on the syllable list `getSyllables`
returns for the word, a list of positions from 1 on. For every word, with that list, and
for every stem, each pass returns what the rule-list `replaceSuffix` returns on all the
rules of the pass, the cases of the `switch` concatenated in source order, without the
gate and the `switch`; the same holds for every list of positions from 1 on; and every
rule of a case has the letter of its case at the dispatched place of its suffix. -/
theorem suffixPass_refines_ungatedPass (word stem : List Char) (hword : word.length < sizeMod)
    (hlen : stem.length < sizeMod) :
    (∃ syllables, getSyllables word = .ok syllables ∧ (∀ i ∈ syllables, 1 ≤ i) ∧
      suffixPass suffixes1 3 2 2 2 3 stem syllables =
        ungatedPass allSuffixes1 2 stem syllables ∧
      suffixPass suffixes2 2 1 2 2 3 stem syllables =
        ungatedPass allSuffixes2 2 stem syllables ∧
      suffixPass suffixes3 3 2 3 3 2 stem syllables =
        ungatedPass allSuffixes3 3 stem syllables) ∧
    (∀ syllables : List Nat, (∀ i ∈ syllables, 1 ≤ i) →
      suffixPass suffixes1 3 2 2 2 3 stem syllables =
        ungatedPass allSuffixes1 2 stem syllables ∧
      suffixPass suffixes2 2 1 2 2 3 stem syllables =
        ungatedPass allSuffixes2 2 stem syllables ∧
      suffixPass suffixes3 3 2 3 3 2 stem syllables =
        ungatedPass allSuffixes3 3 stem syllables) ∧
    (∀ c, ∀ rule ∈ suffixes1 c, dispatchLetter 2 rule = some c) ∧
    (∀ c, ∀ rule ∈ suffixes2 c, dispatchLetter 1 rule = some c) ∧
    (∀ c, ∀ rule ∈ suffixes3 c, dispatchLetter 2 rule = some c) := by
  refine ⟨?_, ?_, ?_, ?_, ?_⟩
  · obtain ⟨syllables, hget, -, -, hall⟩ :=
      getSyllablesLoop_spec word hword 6 0 [] (by omega) (by intro _; simp) (by simp)
        List.Pairwise.nil (by simp)
    have hsyl : ∀ i ∈ syllables, 1 ≤ i := fun i hi => (hall i hi).1
    exact ⟨syllables, hget, hsyl, suffixPasses_ungated stem syllables hlen hsyl⟩
  · intro syllables hsyl
    exact suffixPasses_ungated stem syllables hlen hsyl
  · intro c
    unfold suffixes1
    split <;> first | decide | (intro rule h; cases h)
  · intro c
    unfold suffixes2
    split <;> first | decide | (intro rule h; cases h)
  · intro c
    unfold suffixes3
    split <;> first | decide | (intro rule h; cases h)

/-- An instance: the three passes on `rational`, whose boundaries are 2, 5 and 7. -/
theorem suffixPass_refines_ungatedPass_witness :
    (lit "rational").length < sizeMod ∧ getSyllables (lit "rational") = .ok [2, 5, 7] ∧
    suffixPass suffixes1 3 2 2 2 3 (lit "rational") [2, 5, 7] =
      ungatedPass allSuffixes1 2 (lit "rational") [2, 5, 7] ∧
    suffixPass suffixes3 3 2 3 3 2 (lit "rational") [2, 5, 7] =
      ungatedPass allSuffixes3 3 (lit "rational") [2, 5, 7] ∧
    ungatedPass allSuffixes3 3 (lit "rational") [2, 5, 7] = .ok (lit "ration") :=
  ⟨by decide, by decide,
    ((suffixPass_refines_ungatedPass (lit "rational") (lit "rational") (by decide)
      (by decide)).2.1 [2, 5, 7] (by decide)).1,
    ((suffixPass_refines_ungatedPass (lit "rational") (lit "rational") (by decide)
      (by decide)).2.1 [2, 5, 7] (by decide)).2.2,
    by decide⟩

/-! ## Claims on the decision: evidence term and determinism -/

theorem classifyLoopOn_score {R : Type} [LinearOrderedField R] (wordMap : DocumentWordMap) :
    ∀ (rest : List (Str × Classifier R)) (best : Str × R),
      classifyLoopOn (fun c => c.getCategoryProbability wordMap) rest best =
        classifyLoop wordMap rest best := by
  intro rest
  induction rest with
  | nil => intro best; rfl
  | cons p rest ih =>
    intro best
    obtain ⟨label, c⟩ := p
    obtain ⟨category, logProbability⟩ := best
    simp only [classifyLoopOn, classifyLoop, ih]

theorem classifyLoopOn_shift {R : Type} [LinearOrderedField R] (score : Classifier R → R)
    (E : R) :
    ∀ (rest : List (Str × Classifier R)) (best : Str × R),
      classifyLoopOn (fun c => score c - E) rest (best.1, best.2 - E) =
        ((classifyLoopOn score rest best).1, (classifyLoopOn score rest best).2 - E) := by
  intro rest
  induction rest with
  | nil => intro best; rfl
  | cons p rest ih =>
    intro best
    obtain ⟨label, c⟩ := p
    obtain ⟨category, logProbability⟩ := best
    simp only [classifyLoopOn]
    by_cases h : score c > logProbability
    · have h' : score c - E > logProbability - E := sub_lt_sub_right h E
      simp only [h, h', if_true]
      exact ih (label, score c)
    · have h' : ¬ score c - E > logProbability - E := by
        intro hc
        exact h (by simpa using hc)
      simp only [h, h', if_false]
      exact ih (category, logProbability)

/-- C21: the category chosen by the loop of `classifyFile` from the scores
`getCategoryProbability` gives is the category the same loop chooses when one value `E`
is subtracted from the score of every model; with no model both runs leave defined
behaviour alike. -/
theorem evidence_term_irrelevant {R : Type} [LinearOrderedField R]
    (wordMap : DocumentWordMap) (classifiers : CategoryClassifiers R) (E : R) :
    chooseCategoryOn (fun c => c.getCategoryProbability wordMap) classifiers =
      chooseCategory classifiers wordMap ∧
    chooseCategoryOn (fun c => c.getCategoryProbability wordMap - E) classifiers =
      chooseCategory classifiers wordMap := by
  cases classifiers with
  | nil => exact ⟨rfl, rfl⟩
  | cons p rest =>
    obtain ⟨label, c⟩ := p
    have h1 := classifyLoopOn_score wordMap rest (label, c.getCategoryProbability wordMap)
    have h2 := classifyLoopOn_shift (fun c : Classifier R => c.getCategoryProbability wordMap) E
      rest (label, c.getCategoryProbability wordMap)
    simp only [chooseCategoryOn, chooseCategory]
    refine ⟨by rw [h1], ?_⟩
    rw [h2, h1]

theorem mem_mapInsert {K V : Type} [LinearOrder K] (m : StdMap K V) (k : K) (v : V) :
    ∀ p ∈ mapInsert m k v, p ∈ m ∨ p = (k, v) := by
  induction m with
  | nil =>
    intro p hp
    simp only [mapInsert, List.mem_singleton] at hp
    exact Or.inr hp
  | cons q rest ih =>
    obtain ⟨k', v'⟩ := q
    intro p hp
    simp only [mapInsert] at hp
    split at hp
    · rcases List.mem_cons.mp hp with h | h
      · exact Or.inr h
      · exact Or.inl h
    · split at hp
      · rcases List.mem_cons.mp hp with h | h
        · exact Or.inl (by rw [h]; exact List.mem_cons_self _ _)
        · rcases ih p h with h' | h'
          · exact Or.inl (List.mem_cons_of_mem _ h')
          · exact Or.inr h'
      · exact Or.inl hp

theorem mapInsert_ordered {K V : Type} [LinearOrder K] (m : StdMap K V) (k : K) (v : V)
    (hm : Ordered m) : Ordered (mapInsert m k v) := by
  induction m with
  | nil => simp [mapInsert, Ordered]
  | cons q rest ih =>
    obtain ⟨k', v'⟩ := q
    have hhead := (List.pairwise_cons.mp hm).1
    have htail : Ordered rest := (List.pairwise_cons.mp hm).2
    simp only [mapInsert]
    split
    · rename_i hlt
      refine List.pairwise_cons.mpr ⟨?_, hm⟩
      intro p hp
      rcases List.mem_cons.mp hp with h | h
      · rw [h]
        exact hlt
      · exact lt_trans hlt (hhead p h)
    · split
      · rename_i hlt
        refine List.pairwise_cons.mpr ⟨?_, ih htail⟩
        intro p hp
        rcases mem_mapInsert rest k v p hp with h | h
        · exact hhead p h
        · rw [h]
          exact hlt
      · exact hm

theorem mapFind_mapInsert {K V : Type} [LinearOrder K] [DecidableEq K] (m : StdMap K V) (k : K)
    (v : V) (hm : Ordered m) (x : K) :
    mapFind (mapInsert m k v) x =
      match mapFind m x with
      | some w => some w
      | none => if k = x then some v else none := by
  induction m with
  | nil => simp [mapInsert, mapFind]
  | cons q rest ih =>
    obtain ⟨k', v'⟩ := q
    have hhead := (List.pairwise_cons.mp hm).1
    have htail : Ordered rest := (List.pairwise_cons.mp hm).2
    simp only [mapInsert]
    split
    · rename_i hlt
      by_cases hkx : k = x
      · have hnone : mapFind ((k', v') :: rest) x = none := by
          apply mapFind_none_of_lt
          intro p hp
          rw [← hkx]
          rcases List.mem_cons.mp hp with h | h
          · rw [h]
            exact hlt
          · exact lt_trans hlt (hhead p h)
        rw [hnone]
        simp [mapFind, hkx]
      · have : mapFind ((k, v) :: (k', v') :: rest) x = mapFind ((k', v') :: rest) x := by
          simp only [mapFind, hkx, if_false]
        rw [this]
        cases mapFind ((k', v') :: rest) x <;> simp [hkx]
    · split
      · by_cases hk'x : k' = x
        · simp [mapFind, hk'x]
        · simp only [mapFind, hk'x, if_false]
          exact ih htail
      · rename_i h1 h2
        have hkk : k' = k := le_antisymm (not_lt.mp h1) (not_lt.mp h2)
        by_cases hk'x : k' = x
        · simp [mapFind, hk'x]
        · have hkx : ¬ k = x := by
            rw [← hkk]
            exact hk'x
          cases mapFind ((k', v') :: rest) x <;> simp [hkx]

theorem mapFind_foldl_mapInsert {K V : Type} [LinearOrder K] [DecidableEq K] (x : K) :
    ∀ (l : List (K × V)) (acc : StdMap K V), Ordered acc →
      Ordered (l.foldl (fun m p => mapInsert m p.1 p.2) acc) ∧
      mapFind (l.foldl (fun m p => mapInsert m p.1 p.2) acc) x =
        match mapFind acc x with
        | some w => some w
        | none => mapFind l x := by
  intro l
  induction l with
  | nil =>
    intro acc hacc
    refine ⟨hacc, ?_⟩
    simp only [List.foldl_nil]
    cases mapFind acc x <;> rfl
  | cons p rest ih =>
    intro acc hacc
    obtain ⟨k, v⟩ := p
    obtain ⟨h1, h2⟩ := ih (mapInsert acc k v) (mapInsert_ordered acc k v hacc)
    refine ⟨h1, ?_⟩
    simp only [List.foldl_cons]
    rw [h2, mapFind_mapInsert acc k v hacc x]
    cases mapFind acc x with
    | some w => rfl
    | none =>
      by_cases hkx : k = x <;> simp [mapFind, hkx]

theorem mapFind_of_mem_nodup {K V : Type} [DecidableEq K] :
    ∀ (l : List (K × V)), (l.map Prod.fst).Nodup → ∀ k v, (k, v) ∈ l → mapFind l k = some v := by
  intro l
  induction l with
  | nil => intro _ k v h; cases h
  | cons p rest ih =>
    intro hnd k v h
    obtain ⟨k', v'⟩ := p
    simp only [List.map_cons, List.nodup_cons] at hnd
    rcases List.mem_cons.mp h with he | he
    · cases he
      simp [mapFind]
    · have hne : k' ≠ k := by
        intro hkk
        apply hnd.1
        rw [hkk]
        exact List.mem_map_of_mem Prod.fst he
      simp only [mapFind, hne, if_false]
      exact ih hnd.2 k v he

theorem mapFind_perm {K V : Type} [DecidableEq K] (l₁ l₂ : List (K × V)) (hp : l₁.Perm l₂)
    (hnd : (l₁.map Prod.fst).Nodup) (k : K) : mapFind l₁ k = mapFind l₂ k := by
  have hnd₂ : (l₂.map Prod.fst).Nodup := (hp.map Prod.fst).nodup_iff.mp hnd
  cases h1 : mapFind l₁ k with
  | some v =>
    have := mem_of_mapFind l₁ k v h1
    exact (mapFind_of_mem_nodup l₂ hnd₂ k v (hp.mem_iff.mp this)).symm
  | none =>
    cases h2 : mapFind l₂ k with
    | none => rfl
    | some v =>
      have := mem_of_mapFind l₂ k v h2
      rw [mapFind_of_mem_nodup l₁ hnd k v (hp.mem_iff.mpr this)] at h1
      cases h1

/-- C23: the category chosen depends only on which model is stored under which label:
two model maps that agree on every lookup give the same result on every document, and
models inserted into an empty map in two different orders, each label once, give the
same map and so the same result. The result of a run is a function of its arguments. -/
theorem classification_deterministic {R : Type} [LinearOrderedField R]
    (wordMap : DocumentWordMap) :
    (∀ (m₁ m₂ : CategoryClassifiers R), Ordered m₁ → Ordered m₂ →
      (∀ label, mapFind m₁ label = mapFind m₂ label) →
      chooseCategory m₁ wordMap = chooseCategory m₂ wordMap) ∧
    (∀ (built₁ built₂ : List (Str × Classifier R)), built₁.Perm built₂ →
      (built₁.map Prod.fst).Nodup →
      built₁.foldl (fun m p => mapInsert m p.1 p.2) [] =
        built₂.foldl (fun m p => mapInsert m p.1 p.2) [] ∧
      chooseCategory (built₁.foldl (fun m p => mapInsert m p.1 p.2) []) wordMap =
        chooseCategory (built₂.foldl (fun m p => mapInsert m p.1 p.2) []) wordMap) := by
  refine ⟨?_, ?_⟩
  · intro m₁ m₂ h1 h2 hfind
    rw [ordered_ext m₁ m₂ h1 h2 hfind]
  · intro built₁ built₂ hperm hnd
    have heq : built₁.foldl (fun m p => mapInsert m p.1 p.2) [] =
        built₂.foldl (fun m p => mapInsert m p.1 p.2) [] := by
      apply ordered_ext
      · exact (mapFind_foldl_mapInsert ([] : Str) built₁ [] List.Pairwise.nil).1
      · exact (mapFind_foldl_mapInsert ([] : Str) built₂ [] List.Pairwise.nil).1
      · intro label
        rw [(mapFind_foldl_mapInsert label built₁ [] List.Pairwise.nil).2,
          (mapFind_foldl_mapInsert label built₂ [] List.Pairwise.nil).2]
        simp only [mapFind]
        exact mapFind_perm built₁ built₂ hperm hnd label
    exact ⟨heq, by rw [heq]⟩

/-- An instance: the models of `sports` and `politics` inserted in either order. -/
theorem classification_deterministic_witness :
    chooseCategory
      ([(lit "sports", (⟨0, [], 0⟩ : Classifier ℚ)), (lit "politics", ⟨1, [], 0⟩)].foldl
        (fun m p => mapInsert m p.1 p.2) []) [(lit "game", 1)] =
    chooseCategory
      ([(lit "politics", (⟨1, [], 0⟩ : Classifier ℚ)), (lit "sports", ⟨0, [], 0⟩)].foldl
        (fun m p => mapInsert m p.1 p.2) []) [(lit "game", 1)] :=
  ((classification_deterministic [(lit "game", 1)]).2
    [(lit "sports", (⟨0, [], 0⟩ : Classifier ℚ)), (lit "politics", ⟨1, [], 0⟩)]
    [(lit "politics", (⟨1, [], 0⟩ : Classifier ℚ)), (lit "sports", ⟨0, [], 0⟩)]
    (List.Perm.swap _ _ _) (by decide)).2

/-! ## A document of words only one category has seen -/

theorem mapFind_create {R : Type} [LinearOrderedField R] (log : R → R) (data : CatWordData)
    (D : Nat) (k : R) (hmap : Ordered data.wordData) (w : Str) :
    mapFind (Classifier.create log data D k).wordProbability w =
      (mapFind data.wordData w).map fun count : Nat =>
        log (((count : R) + k) / adjustedWordCount data k) := by
  simp only [Classifier.create]
  rw [foldl_mapInsert_nil
    (fun p : Str × Nat => log (((p.2 : R) + k) / adjustedWordCount data k)) data.wordData hmap]
  exact mapFind_map (fun count : Nat => log (((count : R) + k) / adjustedWordCount data k))
    data.wordData w

theorem score_lt_of_unseen {R : Type} [LinearOrderedField R] (log : R → R)
    (hlog : ∀ x y : R, 0 < x → x < y → log x < log y) (da db : CatWordData) (D : Nat)
    (document : DocumentWordMap) (hmapa : Ordered da.wordData) (hmapb : Ordered db.wordData)
    (hdoc : da.docCount = db.docCount) (htotal : da.totalWordCount = db.totalWordCount)
    (hunique : da.wordCount = db.wordCount) (hpos : 0 < da.totalWordCount + da.wordCount)
    (hne : document ≠ [])
    (hwords : ∀ p ∈ document, 1 ≤ p.2 ∧ 1 ≤ (mapFind da.wordData p.1).getD 0 ∧
      mapFind db.wordData p.1 = none) :
    (Classifier.create log db D 1).getCategoryProbability document <
      (Classifier.create log da D 1).getCategoryProbability document := by
  have hA : (0 : R) < adjustedWordCount da 1 := by
    have : (0 : R) < ((da.totalWordCount + da.wordCount : Nat) : R) := Nat.cast_pos.mpr hpos
    simpa [adjustedWordCount] using this
  have hAB : adjustedWordCount db (1 : R) = adjustedWordCount da 1 := by
    simp only [adjustedWordCount, htotal, hunique]
  unfold Classifier.getCategoryProbability
  rw [getCategoryProbability_fold, getCategoryProbability_fold]
  have hprior : (Classifier.create log db D 1).docProbability =
      (Classifier.create log da D 1).docProbability := by
    simp only [Classifier.create, hdoc]
  rw [hprior]
  apply add_lt_add_left
  apply List.sum_lt_sum_of_ne_nil hne
  intro p hp
  obtain ⟨h1, h2, h3⟩ := hwords p hp
  rw [mapFind_create log db D 1 hmapb, mapFind_create log da D 1 hmapa, h3]
  cases hfa : mapFind da.wordData p.1 with
  | none =>
    rw [hfa] at h2
    simp at h2
  | some n =>
    rw [hfa] at h2
    have hn : 1 ≤ n := by simpa using h2
    have hp2 : (0 : R) < (p.2 : R) := Nat.cast_pos.mpr (by omega)
    have hn' : (1 : R) ≤ (n : R) := by exact_mod_cast hn
    simp only [Option.map_none', Option.getD_none, Option.map_some', Option.getD_some]
    apply mul_lt_mul_of_pos_left _ hp2
    have hu : (Classifier.create log db D 1).unknownWordProbability =
        log (1 / adjustedWordCount da 1) := by
      simp only [Classifier.create, hAB]
    rw [hu]
    apply hlog
    · exact div_pos one_pos hA
    · rw [div_lt_div_iff_of_pos_right hA]
      linarith

theorem first_category_wins {R : Type} [LinearOrderedField R] (log : R → R)
    (hlog : ∀ x y : R, 0 < x → x < y → log x < log y) (la lb : Str) (da db : CatWordData)
    (document : DocumentWordMap) (hlabel : la ≠ lb) (hmapa : Ordered da.wordData)
    (hmapb : Ordered db.wordData) (hdoc : da.docCount = db.docCount)
    (htotal : da.totalWordCount = db.totalWordCount) (hunique : da.wordCount = db.wordCount)
    (hpos : 0 < da.totalWordCount + da.wordCount) (hne : document ≠ [])
    (hwords : ∀ p ∈ document, 1 ≤ p.2 ∧ 1 ≤ (mapFind da.wordData p.1).getD 0 ∧
      mapFind db.wordData p.1 = none) :
    ∃ classifiers,
      buildClassifiers log (mapInsert (mapInsert [] la da) lb db) = .ok classifiers ∧
      chooseCategory classifiers document = .ok la := by
  have hscore := fun D : Nat => score_lt_of_unseen log hlog da db D document hmapa hmapb hdoc
    htotal hunique hpos hne hwords
  rcases lt_or_gt_of_ne hlabel with h | h
  · have htd : mapInsert (mapInsert [] la da) lb db = [(la, da), (lb, db)] := by
      simp [mapInsert, h, not_lt_of_lt h]
    have hord : Ordered [(la, da), (lb, db)] := by
      simp [Ordered, h]
    rw [htd, buildClassifiers_ok log _ hord (by simp)]
    refine ⟨_, rfl, ?_⟩
    simp only [List.map_cons, List.map_nil, chooseCategory, classifyLoop]
    rw [if_neg (not_lt_of_lt (hscore _))]
  · have htd : mapInsert (mapInsert [] la da) lb db = [(lb, db), (la, da)] := by
      simp [mapInsert, h]
    have hord : Ordered [(lb, db), (la, da)] := by
      simp [Ordered, h]
    rw [htd, buildClassifiers_ok log _ hord (by simp)]
    refine ⟨_, rfl, ?_⟩
    simp only [List.map_cons, List.map_nil, chooseCategory, classifyLoop]
    rw [if_pos (hscore _)]
theorem generateInfoLoop_fails (generateInfo : Str → Except Fault InfoByCategory) (root : Str)
    (after : List Str) (e : Fault) (hroot : generateInfo root = .error e) :
    ∀ (before : List Str) (info : InfoByCategory),
      (∀ r ∈ before, ∃ i, generateInfo r = .ok i) →
      ∃ partialInfo,
        generateInfoLoop generateInfo (before ++ root :: after) info = (some e, partialInfo) := by
  intro before
  induction before with
  | nil =>
    intro info _
    exact ⟨info, by simp [generateInfoLoop, hroot]⟩
  | cons r rest ih =>
    intro info hok
    obtain ⟨i, hi⟩ := hok r (List.mem_cons_self _ _)
    obtain ⟨partialInfo, hp⟩ :=
      ih (mergeRoot info i) (fun q hq => hok q (List.mem_cons_of_mem _ hq))
    exact ⟨partialInfo, by simp [generateInfoLoop, hi, hp]⟩

theorem generateInfoList_cleared (generateInfo : Str → Except Fault InfoByCategory)
    (roots : List Str) (info : InfoByCategory) (e : Fault) (result : InfoByCategory)
    (h : generateInfoList generateInfo roots info = (some e, result)) : result = [] := by
  unfold generateInfoList at h
  cases hloop : generateInfoLoop generateInfo roots [] with
  | mk thrown left =>
    rw [hloop] at h
    cases thrown with
    | none => simp at h
    | some e' =>
      simp only [Prod.mk.injEq] at h
      exact h.2.symm

/-- C24: when `generateInfo` over a list of roots fails at a root, the roots before it
having been read and merged, it throws the exception of that root and leaves the caller's
map empty, whatever the map held before; whenever it throws, the map is empty. The
constructor of `DocumentClassifier` leaves `_classifiers` empty whenever it throws, be it
on the training data or on the tests of the number of categories. -/
theorem failure_leaves_no_partial_data {R : Type} [DivisionRing R] (log : R → R)
    (generateInfo : Str → Except Fault InfoByCategory) :
    (∀ (before : List Str) (root : Str) (after : List Str) (e : Fault) (info : InfoByCategory),
      (∀ r ∈ before, ∃ i, generateInfo r = .ok i) → generateInfo root = .error e →
      generateInfoList generateInfo (before ++ root :: after) info = (some e, [])) ∧
    (∀ (roots : List Str) (info : InfoByCategory) (e : Fault) (result : InfoByCategory),
      generateInfoList generateInfo roots info = (some e, result) → result = []) ∧
    (∀ (trainingDirs : List Str) (e : Fault) (classifiers : CategoryClassifiers R),
      DocumentClassifier.create log generateInfo trainingDirs = (some e, classifiers) →
      classifiers = []) ∧
    (∀ (trainingDirs : List Str) (trainingData : InfoByCategory) (e : Fault),
      generateInfoList generateInfo trainingDirs [] = (none, trainingData) →
      buildClassifiers log trainingData = .error e →
      DocumentClassifier.create log generateInfo trainingDirs = (some e, [])) := by
  refine ⟨?_, ?_, ?_, ?_⟩
  · intro before root after e info hok hroot
    obtain ⟨partialInfo, hp⟩ := generateInfoLoop_fails generateInfo root after e hroot before []
      hok
    simp only [generateInfoList, hp]
  · exact generateInfoList_cleared generateInfo
  · intro trainingDirs e classifiers h
    unfold DocumentClassifier.create at h
    cases hlist : generateInfoList generateInfo trainingDirs [] with
    | mk thrown trainingData =>
      rw [hlist] at h
      cases thrown with
      | some e' =>
        simp only [Prod.mk.injEq] at h
        exact h.2.symm
      | none =>
        simp only at h
        cases hbuild : buildClassifiers log trainingData with
        | error e' =>
          rw [hbuild] at h
          simp only [Prod.mk.injEq] at h
          exact h.2.symm
        | ok cs =>
          rw [hbuild] at h
          simp at h
  · intro trainingDirs trainingData e hlist hbuild
    simp only [DocumentClassifier.create, hlist, hbuild]

/-- An instance: the root `a` is read and merged, the root `b` fails; the loop leaves
the category of `a` in the map and the handler clears it. -/
theorem failure_leaves_no_partial_data_witness :
    generateInfoLoop
        (fun root => if root = lit "a" then .ok [(lit "sports", ⟨1, 1, 1, [(lit "game", 1)]⟩)]
          else .error (.baseException (lit "unreadable")))
        [lit "a", lit "b"] [] =
      (some (.baseException (lit "unreadable")),
        [(lit "sports", ⟨1, 1, 1, [(lit "game", 1)]⟩)]) ∧
    generateInfoList
        (fun root => if root = lit "a" then .ok [(lit "sports", ⟨1, 1, 1, [(lit "game", 1)]⟩)]
          else .error (.baseException (lit "unreadable")))
        ([lit "a"] ++ lit "b" :: []) [(lit "stale", CatWordData.init)] =
      (some (.baseException (lit "unreadable")), []) :=
  ⟨rfl,
    (failure_leaves_no_partial_data (fun x : ℚ => x)
      (fun root => if root = lit "a" then .ok [(lit "sports", ⟨1, 1, 1, [(lit "game", 1)]⟩)]
        else .error (.baseException (lit "unreadable")))).1
      [lit "a"] (lit "b") [] (.baseException (lit "unreadable"))
      [(lit "stale", CatWordData.init)]
      (fun r hr => by
        rw [List.mem_singleton] at hr
        rw [hr]
        exact ⟨_, rfl⟩)
      rfl⟩

/-! ## Claims on the validator -/

/-- C25: the validator computes precision as `c / (c + t)`, and 0 when `c + t = 0`. Unless
`c = 0`, `t ≠ 0` and `o = 0`, it computes recall as `c / (c + o)`, and 0 when `c + o = 0`,
and the F-measure as `2 P R / (P + R)`, and 0 when `P + R = 0`. With `c = 0`, `t ≠ 0` and
`o = 0` the test before the recall, which is the one of the precision, lets the division
`0.0 / 0.0` through: recall and F-measure are not numbers. -/
theorem validator_measures {R : Type} [LinearOrderedField R] (c t o : Nat) :
    (precisionOf ⟨c, t, o⟩ : Option R) =
      some (if c + t = 0 then 0 else (c : R) / ((c : R) + (t : R))) ∧
    (¬ (c = 0 ∧ t ≠ 0 ∧ o = 0) →
      (recallOf ⟨c, t, o⟩ : Option R) =
        some (if c + o = 0 then 0 else (c : R) / ((c : R) + (o : R))) ∧
      (fmeasureOf ⟨c, t, o⟩ : Option R) =
        some (if (if c + t = 0 then 0 else (c : R) / ((c : R) + (t : R))) +
            (if c + o = 0 then 0 else (c : R) / ((c : R) + (o : R))) = 0 then 0
          else 2 * (if c + t = 0 then 0 else (c : R) / ((c : R) + (t : R))) *
            (if c + o = 0 then 0 else (c : R) / ((c : R) + (o : R))) /
            ((if c + t = 0 then 0 else (c : R) / ((c : R) + (t : R))) +
              (if c + o = 0 then 0 else (c : R) / ((c : R) + (o : R)))))) ∧
    (c = 0 → t ≠ 0 → o = 0 →
      (precisionOf ⟨c, t, o⟩ : Option R) = some 0 ∧
      (recallOf ⟨c, t, o⟩ : Option R) = none ∧ (fmeasureOf ⟨c, t, o⟩ : Option R) = none) := by
  have hcast : ∀ a b : Nat, (a : R) + (b : R) = 0 ↔ a + b = 0 := by
    intro a b
    rw [← Nat.cast_add, Nat.cast_eq_zero]
  have hprec : (precisionOf ⟨c, t, o⟩ : Option R) =
      some (if c + t = 0 then 0 else (c : R) / ((c : R) + (t : R))) := by
    unfold precisionOf
    by_cases h : c + t = 0
    · have hc : c = 0 := by omega
      have ht : t = 0 := by omega
      simp [hc, ht]
    · have hguard : c ≠ 0 ∨ t ≠ 0 := by omega
      have hne : ¬ ((c : R) + (t : R) = 0) := fun hz => h ((hcast c t).mp hz)
      simp only [hguard, if_true, addDouble, divDouble, hne, if_false, h]
  refine ⟨hprec, ?_, ?_⟩
  · intro hcase
    have hrec : (recallOf ⟨c, t, o⟩ : Option R) =
        some (if c + o = 0 then 0 else (c : R) / ((c : R) + (o : R))) := by
      unfold recallOf
      by_cases hguard : c ≠ 0 ∨ t ≠ 0
      · have h : ¬ c + o = 0 := by
          intro h
          apply hcase
          omega
        have hne : ¬ ((c : R) + (o : R) = 0) := fun hz => h ((hcast c o).mp hz)
        simp only [hguard, if_true, addDouble, divDouble, hne, if_false, h]
      · have hc : c = 0 := by omega
        rw [if_neg hguard]
        simp [hc]
    refine ⟨hrec, ?_⟩
    unfold fmeasureOf
    simp only [hprec, hrec, addDouble, mulDouble, divDouble]
    by_cases hsum : (if c + t = 0 then 0 else (c : R) / ((c : R) + (t : R))) +
        (if c + o = 0 then 0 else (c : R) / ((c : R) + (o : R))) = 0
    · simp only [ne_eq, Option.some.injEq, hsum, not_true_eq_false, if_false, if_true]
    · simp only [ne_eq, Option.some.injEq, hsum, not_false_eq_true, if_true, if_false]
      congr 1
      ring
  · intro hc ht ho
    subst hc
    subst ho
    have hguard : (0 : Nat) ≠ 0 ∨ t ≠ 0 := Or.inr ht
    have hp0 : (precisionOf ⟨0, t, 0⟩ : Option R) = some 0 := by
      rw [hprec]
      simp
    have hr0 : (recallOf ⟨0, t, 0⟩ : Option R) = none := by
      unfold recallOf
      simp [ht, addDouble, divDouble]
    refine ⟨hp0, hr0, ?_⟩
    unfold fmeasureOf
    simp [hp0, hr0, addDouble, mulDouble, divDouble]

/-- An instance: three documents right, one taken in and one lost give precision and
recall 3/4 and F-measure 3/4; no document right and one taken in give a recall that is
not a number. -/
theorem validator_measures_witness :
    (recallOf ⟨3, 1, 1⟩ : Option ℚ) =
      some (if (3 : ℕ) + 1 = 0 then 0 else ((3 : ℕ) : ℚ) / (((3 : ℕ) : ℚ) + ((1 : ℕ) : ℚ))) ∧
    ((precisionOf ⟨0, 1, 0⟩ : Option ℚ) = some 0 ∧
      (recallOf ⟨0, 1, 0⟩ : Option ℚ) = none ∧ (fmeasureOf ⟨0, 1, 0⟩ : Option ℚ) = none) :=
  ⟨((validator_measures 3 1 1).2.1 (by decide)).1,
    (validator_measures 0 1 0).2.2 rfl (by decide) rfl⟩

/-! ## Claims on the length of the stem and on the single-rule `replaceSuffix` -/

/-- C35: the stem `getStem` returns is never longer than the word: every run that returns
a stem returns one of at most the length of the word, and on every non-empty word other
than the words of two or more `y`, optionally followed by one `s`, on which the terminal-y
scan leaves the string, `getStem` does return a stem. -/
theorem getStem_not_longer (word : List Char) (hlen : word.length < sizeMod) :
    (∀ s, getStem word = .ok s → s.length ≤ word.length) ∧
    (word ≠ [] → yScanOverruns word = false →
      ∃ s, getStem word = .ok s ∧ s.length ≤ word.length) := by
  refine ⟨?_, ?_⟩
  · intro s hs
    by_cases hne : word = []
    · subst hne
      rw [show getStem [] = .error (.outOfBounds npos 0) by decide] at hs
      cases hs
    · cases hy : yScanOverruns word with
      | true =>
        obtain ⟨n, hn⟩ := getStem_fault word hlen hy
        rw [hn] at hs
        cases hs
      | false =>
        obtain ⟨s', hs', -, hle⟩ := getStem_keeps word hne hlen hy
        rw [hs'] at hs
        cases hs
        exact hle
  · intro hne hy
    obtain ⟨s, hs, -, hle⟩ := getStem_keeps word hne hlen hy
    exact ⟨s, hs, hle⟩

/-- An instance: `hoping`, where the `e` is put back after `ing` is removed. -/
theorem getStem_not_longer_witness :
    (lit "hoping").length < sizeMod ∧ getStem (lit "hoping") = .ok (lit "hope") ∧
    ∃ s, getStem (lit "hoping") = .ok s ∧ s.length ≤ (lit "hoping").length :=
  ⟨by decide, by decide,
    (getStem_not_longer (lit "hoping") (by decide)).2 (by decide) (by decide)⟩

theorem hasSuffix_append (p suffix : List Char) (hp : 1 ≤ p.length) :
    hasSuffix (p ++ suffix) suffix = true := by
  unfold hasSuffix
  have h1 : ¬ (p ++ suffix).length ≤ suffix.length := by
    rw [List.length_append]
    omega
  have h2 : (p ++ suffix).length - suffix.length = p.length := by
    rw [List.length_append]
    omega
  simp only [h1, if_false, h2, List.drop_left, List.take_length, beq_self_eq_true]

/-- C32: the single-rule `replaceSuffix` rewrites a word `p ++ suffix` whose prefix `p` has
at least `n` letters and at least one letter to `p ++ replacement` and returns `true`; a
word that is not of this form, in particular one no longer than the suffix, is returned
as it is with `false`. The minimum `n` is taken in the range in which the sum
`suffix.length() + n` of the test, a `size_t`, is the sum of the two numbers. -/
theorem replaceSuffix_iff (word suffix : List Char) (n : Nat) (replacement : List Char)
    (hn : suffix.length + n < sizeMod) :
    addSz suffix.length n = suffix.length + n ∧
    (∀ p, word = p ++ suffix → n ≤ p.length → 1 ≤ p.length →
      replaceSuffix word suffix n replacement = .ok (p ++ replacement, true)) ∧
    ((¬ ∃ p, word = p ++ suffix ∧ n ≤ p.length ∧ 1 ≤ p.length) →
      replaceSuffix word suffix n replacement = .ok (word, false)) ∧
    (word.length ≤ suffix.length →
      replaceSuffix word suffix n replacement = .ok (word, false)) := by
  have heq := replaceSuffix_eq word n (suffix, replacement)
  simp only at heq
  have hnone : (¬ ∃ p, word = p ++ suffix ∧ n ≤ p.length ∧ 1 ≤ p.length) →
      replaceSuffix word suffix n replacement = .ok (word, false) := by
    intro hno
    rw [heq]
    cases happ : ruleApplies word n (suffix, replacement) with
    | false => simp
    | true =>
      exfalso
      apply hno
      unfold ruleApplies at happ
      simp only [gt_iff_lt, Bool.not_eq_true', Bool.or_eq_false_iff, decide_eq_false_iff_not,
        not_lt, Bool.not_eq_false'] at happ
      obtain ⟨hlt, hsplit⟩ := hasSuffix_split happ.2
      refine ⟨word.take (word.length - suffix.length), hsplit, ?_, ?_⟩
      · rw [List.length_take]
        have := happ.1
        omega
      · rw [List.length_take]
        omega
  refine ⟨addSz_of_lt hn, ?_, hnone, ?_⟩
  · intro p hw hnp hp1
    rw [heq]
    have hs : hasSuffix word suffix = true := by
      rw [hw]
      exact hasSuffix_append p suffix hp1
    have hlenw : word.length = p.length + suffix.length := by
      rw [hw, List.length_append]
    have happ : ruleApplies word n (suffix, replacement) = true := by
      unfold ruleApplies
      simp only [hs, Bool.not_true, Bool.or_false, Bool.not_eq_true', decide_eq_false_iff_not,
        gt_iff_lt, not_lt]
      omega
    rw [if_pos happ]
    have htake : word.take (word.length - suffix.length) = p := by
      rw [hlenw, hw]
      simp
    simp only [applyRule, htake]
  · intro hshort
    apply hnone
    rintro ⟨p, hw, -, hp1⟩
    have := congrArg List.length hw
    rw [List.length_append] at this
    omega

/-- An instance: `caresses` with the rule `sses` to `ss`, and `ss` alone, which is the
suffix `ss` with no stem before it. -/
theorem replaceSuffix_iff_witness :
    (lit "sses").length + 1 < sizeMod ∧
    replaceSuffix (lit "caresses") (lit "sses") 1 (lit "ss") = .ok (lit "care" ++ lit "ss", true) ∧
    replaceSuffix (lit "ss") (lit "ss") 1 (lit "") = .ok (lit "ss", false) :=
  ⟨by decide,
    (replaceSuffix_iff (lit "caresses") (lit "sses") 1 (lit "ss") (by decide)).2.1 (lit "care")
      (by decide) (by decide) (by decide),
    (replaceSuffix_iff (lit "ss") (lit "ss") 1 (lit "") (by decide)).2.2.2 (by decide)⟩

/-! ## Claims on likelihoods and priors -/

theorem totalDocCount_foldl :
    ∀ (trainingData : InfoByCategory) (start : Nat), start < 65536 →
      trainingData.foldl (fun total p => (total + p.2.docCount) % 65536) start =
        (start + (trainingData.map fun p => p.2.docCount).sum) % 65536 := by
  intro trainingData
  induction trainingData with
  | nil =>
    intro start hs
    simp [Nat.mod_eq_of_lt hs]
  | cons p rest ih =>
    intro start _
    rw [List.foldl_cons, ih _ (Nat.mod_lt _ (by decide))]
    simp only [List.map_cons, List.sum_cons]
    omega

theorem sum_div_docCount {R : Type} [LinearOrderedField R] (D : R) :
    ∀ (trainingData : InfoByCategory),
      (trainingData.map fun p => (p.2.docCount : R) / D).sum =
        (((trainingData.map fun p => p.2.docCount).sum : Nat) : R) / D := by
  intro trainingData
  induction trainingData with
  | nil => simp
  | cons p rest ih =>
    simp only [List.map_cons, List.sum_cons, ih, Nat.cast_add]
    ring

theorem docCount_le_sum (trainingData : InfoByCategory) :
    ∀ p ∈ trainingData, p.2.docCount ≤ (trainingData.map fun p => p.2.docCount).sum := by
  induction trainingData with
  | nil => intro p hp; cases hp
  | cons q rest ih =>
    intro p hp
    simp only [List.map_cons, List.sum_cons]
    rcases List.mem_cons.mp hp with h | h
    · rw [h]
      omega
    · have := ih p h
      omega

/-- C38, with the proviso that the total fits its `unsigned short`: the constructor of
`DocumentClassifier` hands every `Classifier` the sum of `getDocCount()` over all
categories modulo `65536`; when that sum is below `65536` the count handed over is the
sum itself, and if every category has at least one document the ratios
`documentCount / D` lie in `(0, 1]` and add up to 1. -/
theorem total_document_count {R : Type} [LinearOrderedField R] (log : R → R)
    (trainingData : InfoByCategory) (hmap : Ordered trainingData)
    (h2 : 2 ≤ trainingData.length) :
    buildClassifiers log trainingData =
      .ok (trainingData.map fun p =>
        (p.1, Classifier.create log p.2
          ((trainingData.map fun p => p.2.docCount).sum % 65536) 1)) ∧
    ((trainingData.map fun p => p.2.docCount).sum < 65536 →
      (∀ p ∈ trainingData, 1 ≤ p.2.docCount) →
      buildClassifiers log trainingData =
        .ok (trainingData.map fun p =>
          (p.1, Classifier.create log p.2 (trainingData.map fun p => p.2.docCount).sum 1)) ∧
      (∀ p ∈ trainingData,
        (Classifier.create log p.2 (trainingData.map fun p => p.2.docCount).sum 1).docProbability =
          log ((p.2.docCount : R) /
            (((trainingData.map fun p => p.2.docCount).sum : Nat) : R)) ∧
        0 < (p.2.docCount : R) / (((trainingData.map fun p => p.2.docCount).sum : Nat) : R) ∧
        (p.2.docCount : R) / (((trainingData.map fun p => p.2.docCount).sum : Nat) : R) ≤ 1) ∧
      (trainingData.map fun p =>
        (p.2.docCount : R) / (((trainingData.map fun p => p.2.docCount).sum : Nat) : R)).sum =
        1) := by
  have hD : trainingData.foldl (fun total p => (total + p.2.docCount) % 65536) 0 =
      (trainingData.map fun p => p.2.docCount).sum % 65536 := by
    rw [totalDocCount_foldl trainingData 0 (by decide)]
    simp
  have hbuild := buildClassifiers_ok log trainingData hmap h2
  rw [hD] at hbuild
  refine ⟨hbuild, ?_⟩
  intro hsum hdocs
  rw [Nat.mod_eq_of_lt hsum] at hbuild
  obtain ⟨q, hq⟩ : ∃ q, q ∈ trainingData := by
    cases trainingData with
    | nil => simp at h2
    | cons q rest => exact ⟨q, List.mem_cons_self _ _⟩
  have hpos : 0 < (trainingData.map fun p => p.2.docCount).sum := by
    have h1 := hdocs q hq
    have h3 := docCount_le_sum trainingData q hq
    omega
  have hposR : (0 : R) < (((trainingData.map fun p => p.2.docCount).sum : Nat) : R) :=
    Nat.cast_pos.mpr hpos
  refine ⟨hbuild, ?_, ?_⟩
  · intro p hp
    refine ⟨rfl, ?_, ?_⟩
    · exact div_pos (Nat.cast_pos.mpr (hdocs p hp)) hposR
    · rw [div_le_one hposR]
      exact_mod_cast docCount_le_sum trainingData p hp
  · rw [sum_div_docCount]
    exact div_self (ne_of_gt hposR)

/-- An instance: two categories of three documents each are handed the count 6. -/
theorem total_document_count_witness :
    buildClassifiers (fun x : ℚ => x)
        [(lit "politics", ⟨3, 2, 9, [(lit "election", 6), (lit "vote", 3)]⟩),
          (lit "sports", ⟨3, 2, 9, [(lit "game", 6), (lit "score", 3)]⟩)] =
      .ok (([(lit "politics", ⟨3, 2, 9, [(lit "election", 6), (lit "vote", 3)]⟩),
          (lit "sports", ⟨3, 2, 9, [(lit "game", 6), (lit "score", 3)]⟩)] :
            InfoByCategory).map fun p =>
        (p.1, Classifier.create (fun x : ℚ => x) p.2
          (([(lit "politics", ⟨3, 2, 9, [(lit "election", 6), (lit "vote", 3)]⟩),
            (lit "sports", ⟨3, 2, 9, [(lit "game", 6), (lit "score", 3)]⟩)] :
              InfoByCategory).map fun p => p.2.docCount).sum 1)) :=
  ((total_document_count (fun x : ℚ => x)
      [(lit "politics", ⟨3, 2, 9, [(lit "election", 6), (lit "vote", 3)]⟩),
        (lit "sports", ⟨3, 2, 9, [(lit "game", 6), (lit "score", 3)]⟩)] (by decide)
      (by decide)).2 (by decide) (by decide)).1

/-- C38 as stated fails: two categories of 32768 documents each are handed the total 0,
not 65536, so that their prior ratios are divisions by zero. -/
theorem total_document_count_wraps :
    buildClassifiers (fun x : ℚ => x)
        [(lit "politics", ⟨32768, 1, 32768, [(lit "vote", 32768)]⟩),
          (lit "sports", ⟨32768, 1, 32768, [(lit "game", 32768)]⟩)] =
      .ok [(lit "politics",
          Classifier.create (fun x : ℚ => x) ⟨32768, 1, 32768, [(lit "vote", 32768)]⟩ 0 1),
        (lit "sports",
          Classifier.create (fun x : ℚ => x) ⟨32768, 1, 32768, [(lit "game", 32768)]⟩ 0 1)] ∧
    (([(lit "politics", ⟨32768, 1, 32768, [(lit "vote", 32768)]⟩),
        (lit "sports", ⟨32768, 1, 32768, [(lit "game", 32768)]⟩)] :
          InfoByCategory).map fun p => p.2.docCount).sum = 65536 := by
  refine ⟨?_, by decide⟩
  rw [buildClassifiers_ok _ _ (by decide) (by decide)]
  rfl

/-! ## Claims on the divisions of the validator -/

theorem precisionOf_ne_none {R : Type} [LinearOrderedField R] (s : CatStats) :
    (precisionOf s : Option R) ≠ none := by
  unfold precisionOf
  by_cases hguard : s.correct ≠ 0 ∨ s.misclassToThis ≠ 0
  · have hne : ¬ ((s.correct : R) + (s.misclassToThis : R) = 0) := by
      rw [← Nat.cast_add, Nat.cast_eq_zero]
      omega
    simp [hguard, addDouble, divDouble, hne]
  · simp [hguard]

theorem recallOf_eq_none_iff {R : Type} [LinearOrderedField R] (s : CatStats) :
    (recallOf s : Option R) = none ↔
      s.correct = 0 ∧ s.misclassToThis ≠ 0 ∧ s.misclassToOther = 0 := by
  unfold recallOf
  by_cases hguard : s.correct ≠ 0 ∨ s.misclassToThis ≠ 0
  · rw [if_pos hguard]
    simp only [addDouble, divDouble]
    by_cases hz : (s.correct : R) + (s.misclassToOther : R) = 0
    · have hz' : s.correct + s.misclassToOther = 0 := by
        rw [← Nat.cast_add, Nat.cast_eq_zero] at hz
        exact hz
      simp only [hz, if_true, true_iff]
      omega
    · have hz' : ¬ s.correct + s.misclassToOther = 0 := by
        intro h
        apply hz
        rw [← Nat.cast_add, Nat.cast_eq_zero]
        exact h
      simp only [hz, if_false]
      constructor
      · intro h
        cases h
      · intro h
        omega
  · rw [if_neg hguard]
    constructor
    · intro h
      cases h
    · intro h
      omega

/-- C39: the division of the precision is never a division by zero, whereas the division
of the recall is one exactly for the statistics with `_correct = 0`,
`_misclassToThis ≠ 0` and `_misclassToOther = 0`; such statistics do appear in the map:
a results file whose only line puts a file of category `A` into the valid category `B`
leaves `B` with the counters 0, 1, 0, for which the recall is `0.0 / 0.0`. -/
theorem recall_divides_by_zero {R : Type} [LinearOrderedField R] :
    (∀ s : CatStats, (precisionOf s : Option R) ≠ none) ∧
    (∀ s : CatStats, (recallOf s : Option R) = none ↔
      s.correct = 0 ∧ s.misclassToThis ≠ 0 ∧ s.misclassToOther = 0) ∧
    getClassifyResultStats (lit "results.txt")
        ⟨[(lit "r/A/a1", lit "A"), (lit "r/B/b1", lit "B")], [lit "A", lit "B"]⟩
        [(lit "r/A/a1", lit "B")] =
      .ok [(lit "A", ⟨0, 0, 1⟩), (lit "B", ⟨0, 1, 0⟩)] ∧
    (recallOf ⟨0, 1, 0⟩ : Option R) = none :=
  ⟨precisionOf_ne_none, recallOf_eq_none_iff, rfl,
    (recallOf_eq_none_iff ⟨0, 1, 0⟩).mpr ⟨rfl, by decide, rfl⟩⟩

/-! ## Claims on the smoothed probabilities of a category -/

theorem length_addWordCount_le {K : Type} [LinearOrder K] [DecidableEq K] (m : StdMap K Nat)
    (w : K) (c : Nat) : (addWordCount m w c).length ≤ m.length + 1 := by
  induction m with
  | nil => simp [addWordCount]
  | cons q rest ih =>
    obtain ⟨k, v⟩ := q
    simp only [addWordCount]
    split
    · simp only [List.length_cons]
      omega
    · split <;> simp only [List.length_cons] <;> omega

theorem length_mergeMap_le {K : Type} [LinearOrder K] [DecidableEq K] :
    ∀ (other m : StdMap K Nat), (mergeMap m other).length ≤ m.length + other.length := by
  intro other
  induction other with
  | nil => intro m; simp [mergeMap]
  | cons p rest ih =>
    intro m
    have hstep : mergeMap m (p :: rest) = mergeMap (addWordCount m p.1 p.2) rest := rfl
    rw [hstep]
    have h1 := ih (addWordCount m p.1 p.2)
    have h2 := length_addWordCount_le m p.1 p.2
    simp only [List.length_cons]
    omega

theorem statsOps_wordCount (getTotalWordCount : DocumentWordMap → Nat) :
    ∀ ops : StatsOps, ops.wordCountExact getTotalWordCount = true →
      (ops.run getTotalWordCount).wordData.length ≤ (ops.run getTotalWordCount).wordCount ∧
        (ops.run getTotalWordCount).wordCount = (ops.documents.map List.length).sum := by
  intro ops
  induction ops with
  | fresh => intro _; exact ⟨le_refl _, rfl⟩
  | addDocument s d ih =>
    intro h
    simp only [StatsOps.wordCountExact, Bool.and_eq_true, decide_eq_true_eq] at h
    obtain ⟨h1, h2⟩ := ih h.1
    have hlen := length_mergeMap_le d (s.run getTotalWordCount).wordData
    simp only [StatsOps.run, CatWordData.addDocument, StatsOps.documents, List.map_append,
      List.sum_append, List.map_cons, List.map_nil, List.sum_cons, List.sum_nil]
    rw [Nat.mod_eq_of_lt h.2]
    omega
  | mergeData s o ihs iho =>
    intro h
    simp only [StatsOps.wordCountExact, Bool.and_eq_true, decide_eq_true_eq] at h
    obtain ⟨h1, h2⟩ := ihs h.1.1
    obtain ⟨h3, h4⟩ := iho h.1.2
    have hlen := length_mergeMap_le (o.run getTotalWordCount).wordData
      (s.run getTotalWordCount).wordData
    simp only [StatsOps.run, CatWordData.mergeData, StatsOps.documents, List.map_append,
      List.sum_append]
    rw [Nat.mod_eq_of_lt h.2]
    omega

theorem sum_length_pos :
    ∀ (documents : List DocumentWordMap), documents ≠ [] → (∀ d ∈ documents, d ≠ []) →
      1 ≤ (documents.map List.length).sum := by
  intro documents hne hall
  cases documents with
  | nil => exact absurd rfl hne
  | cons d rest =>
    have := List.length_pos.mpr (hall d (List.mem_cons_self _ _))
    simp only [List.map_cons, List.sum_cons]
    omega

theorem count_le_sumCounts {K : Type} (m : StdMap K Nat) :
    ∀ p ∈ m, p.2 ≤ sumCounts m := by
  induction m with
  | nil => intro p hp; cases hp
  | cons q rest ih =>
    intro p hp
    simp only [sumCounts, List.map_cons, List.sum_cons]
    rcases List.mem_cons.mp hp with h | h
    · rw [h]
      omega
    · have := ih p h
      simp only [sumCounts] at this
      omega

theorem sum_smoothed (k A : ℝ) :
    ∀ (m : DocumentWordMap),
      (m.map fun p => ((p.2 : ℝ) + k) / A).sum =
        (((sumCounts m : Nat) : ℝ) + (m.length : ℝ) * k) / A := by
  intro m
  induction m with
  | nil => simp [sumCounts]
  | cons q rest ih =>
    simp only [List.map_cons, List.sum_cons, ih, sumCounts, List.length_cons, Nat.cast_add,
      Nat.cast_one]
    ring

/-- C37: for statistics built by `addDocument` and `mergeData` calls from at least one
document, all documents non-empty and no counter wrapping, and for every weight `k > 0`:
the adjusted word count is positive; the ratios `(count + k) / adjustedWordCount` of the
words of the word map add up to at most 1; each of them and `k / adjustedWordCount` lie
in `(0, 1]`; no log likelihood of the model is positive; and the ratios add up to exactly
1 if and only if `getWordCount()` is the number of words of the word map. The total word
count of a document is the sum of its counts. -/
theorem smoothed_probabilities (getTotalWordCount : DocumentWordMap → Nat)
    (hTotal : ∀ d, getTotalWordCount d = sumCounts d % 4294967296) (ops : StatsOps) (k : ℝ)
    (totalDocCount : Nat) (hk : 0 < k) (hexact : ops.exact getTotalWordCount = true)
    (hfits : ops.wordCountExact getTotalWordCount = true) (hdocs : ops.documents ≠ [])
    (hne : ∀ d ∈ ops.documents, d ≠ []) :
    0 < adjustedWordCount (ops.run getTotalWordCount) k ∧
    ((ops.run getTotalWordCount).wordData.map fun p =>
      ((p.2 : ℝ) + k) / adjustedWordCount (ops.run getTotalWordCount) k).sum ≤ 1 ∧
    (∀ p ∈ (ops.run getTotalWordCount).wordData,
      0 < ((p.2 : ℝ) + k) / adjustedWordCount (ops.run getTotalWordCount) k ∧
      ((p.2 : ℝ) + k) / adjustedWordCount (ops.run getTotalWordCount) k ≤ 1) ∧
    (0 < k / adjustedWordCount (ops.run getTotalWordCount) k ∧
      k / adjustedWordCount (ops.run getTotalWordCount) k ≤ 1) ∧
    (∀ w wordProbability,
      mapFind (Classifier.create Real.log (ops.run getTotalWordCount) totalDocCount
        k).wordProbability w = some wordProbability → wordProbability ≤ 0) ∧
    (Classifier.create Real.log (ops.run getTotalWordCount) totalDocCount
      k).unknownWordProbability ≤ 0 ∧
    (((ops.run getTotalWordCount).wordData.map fun p =>
      ((p.2 : ℝ) + k) / adjustedWordCount (ops.run getTotalWordCount) k).sum = 1 ↔
      (ops.run getTotalWordCount).wordCount = (ops.run getTotalWordCount).wordData.length) := by
  obtain ⟨hmap, htotal⟩ := statsOps_exact_total getTotalWordCount hTotal ops hexact
  obtain ⟨hVW, hW⟩ := statsOps_wordCount getTotalWordCount ops hfits
  have hW1 : 1 ≤ (ops.run getTotalWordCount).wordCount := by
    rw [hW]
    exact sum_length_pos ops.documents hdocs hne
  generalize ops.run getTotalWordCount = data at hmap htotal hVW hW1
  have hWR : (1 : ℝ) ≤ (data.wordCount : ℝ) := by exact_mod_cast hW1
  have hVWR : (data.wordData.length : ℝ) ≤ (data.wordCount : ℝ) := by exact_mod_cast hVW
  have hT0 : (0 : ℝ) ≤ (data.totalWordCount : ℝ) := Nat.cast_nonneg _
  have hA : 0 < adjustedWordCount data k := by
    unfold adjustedWordCount
    nlinarith
  have hAdef : adjustedWordCount data k =
      (data.totalWordCount : ℝ) + (data.wordCount : ℝ) * k := rfl
  have hsum := sum_smoothed k (adjustedWordCount data k) data.wordData
  rw [← htotal] at hsum
  have hkA : k / adjustedWordCount data k ≤ 1 := by
    rw [div_le_one hA, hAdef]
    nlinarith
  have hratio : ∀ p ∈ data.wordData,
      0 < ((p.2 : ℝ) + k) / adjustedWordCount data k ∧
      ((p.2 : ℝ) + k) / adjustedWordCount data k ≤ 1 := by
    intro p hp
    have hp0 : (0 : ℝ) ≤ (p.2 : ℝ) := Nat.cast_nonneg _
    have hpT : (p.2 : ℝ) ≤ (data.totalWordCount : ℝ) := by
      rw [htotal]
      exact_mod_cast count_le_sumCounts data.wordData p hp
    refine ⟨div_pos (by linarith) hA, ?_⟩
    rw [div_le_one hA, hAdef]
    nlinarith
  refine ⟨hA, ?_, hratio, ⟨div_pos hk hA, hkA⟩, ?_, ?_, ?_⟩
  · rw [hsum, div_le_one hA, hAdef]
    nlinarith
  · intro w wp hw
    rw [mapFind_create Real.log data totalDocCount k hmap w] at hw
    cases hfind : mapFind data.wordData w with
    | none =>
      rw [hfind] at hw
      cases hw
    | some count =>
      rw [hfind] at hw
      simp only [Option.map_some', Option.some.injEq] at hw
      obtain ⟨h0, h1⟩ := hratio (w, count) (mem_of_mapFind _ w count hfind)
      rw [← hw]
      exact Real.log_nonpos (le_of_lt h0) h1
  · exact Real.log_nonpos (le_of_lt (div_pos hk hA)) hkA
  · rw [hsum, div_eq_one_iff_eq (ne_of_gt hA), hAdef]
    constructor
    · intro h
      have h2 : (data.wordData.length : ℝ) * k = (data.wordCount : ℝ) * k := by linarith
      have h3 : (data.wordData.length : ℝ) = (data.wordCount : ℝ) :=
        mul_right_cancel₀ (ne_of_gt hk) h2
      exact_mod_cast h3.symm
    · intro h
      rw [h]

/-- An instance: one document with `game` twice and `score` once; the ratios 3/5 and 2/5
add up to 1. -/
theorem smoothed_probabilities_witness :
    StatsOps.exact (fun d => sumCounts d % 4294967296)
        (.addDocument .fresh [(lit "game", 2), (lit "score", 1)]) = true ∧
    0 < adjustedWordCount
      (StatsOps.run (fun d => sumCounts d % 4294967296)
        (.addDocument .fresh [(lit "game", 2), (lit "score", 1)])) (1 : ℝ) :=
  ⟨by decide,
    (smoothed_probabilities (fun d => sumCounts d % 4294967296) (fun _ => rfl)
      (.addDocument .fresh [(lit "game", 2), (lit "score", 1)]) 1 1 one_pos (by decide)
      (by decide) (by decide) (by decide)).1⟩

/-! ## The merge of the statistics of several roots -/

theorem mergeCategory_lower (info : InfoByCategory) (w : Str) (d : CatWordData) (b : Str)
    (hb : ∀ p ∈ info, b < p.1) (hw : b < w) : ∀ p ∈ mergeCategory info w d, b < p.1 := by
  induction info with
  | nil =>
    intro p hp
    simp only [mergeCategory, List.mem_singleton] at hp
    rw [hp]
    exact hw
  | cons q rest ih =>
    obtain ⟨k, v⟩ := q
    have hk : b < k := hb (k, v) (List.mem_cons_self _ _)
    have hrest : ∀ p ∈ rest, b < p.1 := fun p hp => hb p (List.mem_cons_of_mem _ hp)
    intro p hp
    simp only [mergeCategory] at hp
    split at hp
    · rcases List.mem_cons.mp hp with he | he
      · rw [he]
        exact hk
      · exact ih hrest p he
    · split at hp
      · rcases List.mem_cons.mp hp with he | he
        · rw [he]
          exact hk
        · exact hrest p he
      · rcases List.mem_cons.mp hp with he | he
        · rw [he]
          exact hw
        · exact hb p he

theorem mergeCategory_ordered (info : InfoByCategory) (w : Str) (d : CatWordData)
    (hm : Ordered info) : Ordered (mergeCategory info w d) := by
  induction info with
  | nil => simp [mergeCategory, Ordered]
  | cons q rest ih =>
    obtain ⟨k, v⟩ := q
    have hlt := (List.pairwise_cons.mp hm).1
    have hrest : Ordered rest := (List.pairwise_cons.mp hm).2
    simp only [mergeCategory]
    split
    · rename_i hkw
      exact List.pairwise_cons.mpr
        ⟨fun p hp => mergeCategory_lower rest w d k (fun q hq => hlt q hq) hkw p hp, ih hrest⟩
    · split
      · exact List.pairwise_cons.mpr ⟨fun p hp => hlt p hp, hrest⟩
      · rename_i h1 h2
        have hwk : w < k := lt_of_le_of_ne (not_lt.mp h1) (fun e => h2 e.symm)
        refine List.pairwise_cons.mpr ⟨?_, hm⟩
        intro p hp
        rcases List.mem_cons.mp hp with he | he
        · rw [he]
          exact hwk
        · exact lt_trans hwk (hlt p he)

theorem mapFind_mergeCategory (info : InfoByCategory) (w : Str) (d : CatWordData)
    (hm : Ordered info) (x : Str) :
    mapFind (mergeCategory info w d) x =
      if x = w then mergedStats (mapFind info w) (some d) else mapFind info x := by
  induction info with
  | nil =>
    by_cases hx : x = w
    · simp [mergeCategory, mapFind, hx, mergedStats]
    · have : w ≠ x := fun e => hx e.symm
      simp [mergeCategory, mapFind, hx, this]
  | cons q rest ih =>
    obtain ⟨k, v⟩ := q
    have hlt := (List.pairwise_cons.mp hm).1
    have hrest : Ordered rest := (List.pairwise_cons.mp hm).2
    simp only [mergeCategory]
    split
    · rename_i hkw
      have hkne : k ≠ w := ne_of_lt hkw
      by_cases hx : x = w
      · subst hx
        simp only [mapFind, hkne, if_false, ih hrest, if_true]
      · by_cases hkx : k = x
        · simp [mapFind, hkx, hx]
        · simp only [mapFind, hkx, if_false, ih hrest, hx]
    · split
      · rename_i h1 h2
        by_cases hx : x = w
        · simp [mapFind, h2, hx, mergedStats]
        · have hkx : k ≠ x := by rw [h2]; exact fun e => hx e.symm
          simp [mapFind, hkx, hx]
      · rename_i h1 h2
        have hwk : w < k := lt_of_le_of_ne (not_lt.mp h1) (fun e => h2 e.symm)
        have hnone : mapFind ((k, v) :: rest) w = none := by
          apply mapFind_none_of_lt
          intro p hp
          rcases List.mem_cons.mp hp with he | he
          · rw [he]
            exact hwk
          · exact lt_trans hwk (hlt p he)
        by_cases hx : x = w
        · rw [hnone]
          simp [mapFind, hx, mergedStats]
        · have hwx : w ≠ x := fun e => hx e.symm
          simp only [hx, if_false]
          conv_lhs => rw [mapFind]
          simp only [hwx, if_false]

theorem mergeRoot_ordered :
    ∀ (newInfo info : InfoByCategory), Ordered info → Ordered (mergeRoot info newInfo) := by
  intro newInfo
  induction newInfo with
  | nil => intro info hm; exact hm
  | cons p rest ih =>
    intro info hm
    exact ih (mergeCategory info p.1 p.2) (mergeCategory_ordered info p.1 p.2 hm)

theorem mapFind_mergeRoot :
    ∀ (newInfo info : InfoByCategory), Ordered info → Ordered newInfo → ∀ x : Str,
      mapFind (mergeRoot info newInfo) x = mergedStats (mapFind info x) (mapFind newInfo x) := by
  intro newInfo
  induction newInfo with
  | nil =>
    intro info _ _ x
    cases h : mapFind info x <;> simp [mergeRoot, mapFind, mergedStats, h]
  | cons p rest ih =>
    intro info hm ho x
    obtain ⟨w, d⟩ := p
    have hlt := (List.pairwise_cons.mp ho).1
    have hrest : Ordered rest := (List.pairwise_cons.mp ho).2
    have hstep : mergeRoot info ((w, d) :: rest) = mergeRoot (mergeCategory info w d) rest :=
      rfl
    rw [hstep, ih (mergeCategory info w d) (mergeCategory_ordered info w d hm) hrest x,
      mapFind_mergeCategory info w d hm x]
    by_cases hx : x = w
    · have hnone : mapFind rest w = none := mapFind_none_of_lt rest w (fun q hq => hlt q hq)
      rw [hx, hnone]
      cases h : mapFind info w <;> simp [mapFind, mergedStats]
    · have hwx : w ≠ x := fun e => hx e.symm
      simp only [hx, if_false, mapFind, hwx]

theorem mergeData_ordered (a b : CatWordData) (ha : Ordered a.wordData) :
    Ordered (a.mergeData b).wordData :=
  mergeMap_ordered b.wordData a.wordData ha

theorem mergeData_comm (a b : CatWordData) (ha : Ordered a.wordData)
    (hb : Ordered b.wordData) : a.mergeData b = b.mergeData a := by
  obtain ⟨⟨h1, -⟩, -⟩ := mergeMap_ordered_comm_assoc a.wordData b.wordData [] ha hb
    List.Pairwise.nil
  simp only [CatWordData.mergeData, CatWordData.mk.injEq]
  exact ⟨by omega, by omega, by omega, h1⟩

theorem mergeData_assoc (a b c : CatWordData) (ha : Ordered a.wordData)
    (hb : Ordered b.wordData) (hc : Ordered c.wordData) :
    (a.mergeData b).mergeData c = a.mergeData (b.mergeData c) := by
  obtain ⟨-, ⟨h2, -⟩⟩ := mergeMap_ordered_comm_assoc a.wordData b.wordData c.wordData ha hb hc
  simp only [CatWordData.mergeData, CatWordData.mk.injEq]
  exact ⟨by omega, by omega, by omega, h2⟩

theorem wellFormed_find {info : InfoByCategory} (h : wellFormed info) {x : Str}
    {d : CatWordData} (hx : mapFind info x = some d) : Ordered d.wordData :=
  h.2 (x, d) (mem_of_mapFind info x d hx)

theorem mergedStats_ordered {a b : Option CatWordData}
    (ha : ∀ d, a = some d → Ordered d.wordData) (hb : ∀ d, b = some d → Ordered d.wordData) :
    ∀ d, mergedStats a b = some d → Ordered d.wordData := by
  intro d hd
  cases a with
  | none =>
    cases b with
    | none => cases hd
    | some y => exact hb d hd
  | some x =>
    cases b with
    | none => exact ha d hd
    | some y =>
      simp only [mergedStats, Option.some.injEq] at hd
      rw [← hd]
      exact mergeData_ordered x y (ha x rfl)

theorem mergeRoot_wellFormed (info newInfo : InfoByCategory) (hi : wellFormed info)
    (hn : wellFormed newInfo) : wellFormed (mergeRoot info newInfo) := by
  have hord := mergeRoot_ordered newInfo info hi.1
  refine ⟨hord, ?_⟩
  intro p hp
  have hfind := mapFind_of_mem (mergeRoot info newInfo) hord p.1 p.2 hp
  rw [mapFind_mergeRoot newInfo info hi.1 hn.1 p.1] at hfind
  exact mergedStats_ordered (fun d hd => wellFormed_find hi hd)
    (fun d hd => wellFormed_find hn hd) p.2 hfind

theorem mergedStats_right_comm (u a b : Option CatWordData)
    (hu : ∀ d, u = some d → Ordered d.wordData) (ha : ∀ d, a = some d → Ordered d.wordData)
    (hb : ∀ d, b = some d → Ordered d.wordData) :
    mergedStats (mergedStats u a) b = mergedStats (mergedStats u b) a := by
  cases u with
  | none =>
    cases a with
    | none => cases b <;> rfl
    | some x =>
      cases b with
      | none => rfl
      | some y =>
        simp only [mergedStats]
        rw [mergeData_comm x y (ha x rfl) (hb y rfl)]
  | some z =>
    cases a with
    | none => cases b <;> rfl
    | some x =>
      cases b with
      | none => rfl
      | some y =>
        simp only [mergedStats]
        rw [mergeData_assoc z x y (hu z rfl) (ha x rfl) (hb y rfl),
          mergeData_comm x y (ha x rfl) (hb y rfl),
          ← mergeData_assoc z y x (hu z rfl) (hb y rfl) (ha x rfl)]

theorem mergeRoot_right_comm (info a b : InfoByCategory) (hi : wellFormed info)
    (ha : wellFormed a) (hb : wellFormed b) :
    mergeRoot (mergeRoot info a) b = mergeRoot (mergeRoot info b) a := by
  have hia := mergeRoot_wellFormed info a hi ha
  have hib := mergeRoot_wellFormed info b hi hb
  apply ordered_ext _ _ (mergeRoot_ordered b _ hia.1) (mergeRoot_ordered a _ hib.1)
  intro x
  rw [mapFind_mergeRoot b _ hia.1 hb.1 x, mapFind_mergeRoot a _ hi.1 ha.1 x,
    mapFind_mergeRoot a _ hib.1 ha.1 x, mapFind_mergeRoot b _ hi.1 hb.1 x]
  exact mergedStats_right_comm _ _ _ (fun d hd => wellFormed_find hi hd)
    (fun d hd => wellFormed_find ha hd) (fun d hd => wellFormed_find hb hd)

theorem foldl_mergeRoot_wellFormed :
    ∀ (infos : List InfoByCategory) (info : InfoByCategory), wellFormed info →
      (∀ i ∈ infos, wellFormed i) → wellFormed (infos.foldl mergeRoot info) := by
  intro infos
  induction infos with
  | nil => intro info hi _; exact hi
  | cons a rest ih =>
    intro info hi hall
    exact ih (mergeRoot info a)
      (mergeRoot_wellFormed info a hi (hall a (List.mem_cons_self _ _)))
      (fun i h => hall i (List.mem_cons_of_mem _ h))

theorem foldl_mergeRoot_perm (l₁ l₂ : List InfoByCategory) (hp : l₁.Perm l₂) :
    ∀ (info : InfoByCategory), wellFormed info → (∀ i ∈ l₁, wellFormed i) →
      l₁.foldl mergeRoot info = l₂.foldl mergeRoot info := by
  induction hp with
  | nil => intro info _ _; rfl
  | cons a _ ih =>
    intro info hi hall
    exact ih (mergeRoot info a)
      (mergeRoot_wellFormed info a hi (hall a (List.mem_cons_self _ _)))
      (fun i h => hall i (List.mem_cons_of_mem _ h))
  | swap a b l =>
    intro info hi hall
    simp only [List.foldl_cons]
    rw [mergeRoot_right_comm info b a hi (hall b (List.mem_cons_self _ _))
      (hall a (List.mem_cons_of_mem _ (List.mem_cons_self _ _)))]
  | trans h₁ _ ih₁ ih₂ =>
    intro info hi hall
    rw [ih₁ info hi hall]
    exact ih₂ info hi (fun i h => hall i (h₁.mem_iff.mpr h))

theorem mapFind_foldl_mergeRoot (x : Str) :
    ∀ (infos : List InfoByCategory) (info : InfoByCategory), Ordered info →
      (∀ i ∈ infos, Ordered i) →
      mapFind (infos.foldl mergeRoot info) x =
        (infos.map fun i => mapFind i x).foldl mergedStats (mapFind info x) := by
  intro infos
  induction infos with
  | nil => intro info _ _; rfl
  | cons a rest ih =>
    intro info hi hall
    simp only [List.foldl_cons, List.map_cons]
    rw [ih (mergeRoot info a) (mergeRoot_ordered a info hi)
      (fun i h => hall i (List.mem_cons_of_mem _ h)),
      mapFind_mergeRoot a info hi (hall a (List.mem_cons_self _ _)) x]

theorem generateInfoLoop_ok (generateInfo : Str → Except Fault InfoByCategory)
    (infoOf : Str → InfoByCategory) :
    ∀ (roots : List Str) (info : InfoByCategory),
      (∀ r ∈ roots, generateInfo r = .ok (infoOf r)) →
      generateInfoLoop generateInfo roots info =
        (none, (roots.map infoOf).foldl mergeRoot info) := by
  intro roots
  induction roots with
  | nil => intro info _; rfl
  | cons r rest ih =>
    intro info hall
    simp only [generateInfoLoop, hall r (List.mem_cons_self _ _), List.map_cons,
      List.foldl_cons]
    exact ih _ (fun q hq => hall q (List.mem_cons_of_mem _ hq))

theorem foldl_mergedStats_some (infoOf : Str → InfoByCategory) (x : Str) :
    ∀ (roots : List Str) (s : CatWordData),
      ((roots.map infoOf).map fun i => mapFind i x).foldl mergedStats (some s) =
        some ((roots.filterMap fun r => mapFind (infoOf r) x).foldl CatWordData.mergeData s) := by
  intro roots
  induction roots with
  | nil => intro s; rfl
  | cons r rest ih =>
    intro s
    simp only [List.map_cons, List.foldl_cons, List.filterMap_cons]
    cases h : mapFind (infoOf r) x with
    | none => exact ih s
    | some d => exact ih (s.mergeData d)

theorem foldl_mergedStats_none (infoOf : Str → InfoByCategory) (x : Str) :
    ∀ (roots : List Str),
      ((roots.map infoOf).map fun i => mapFind i x).foldl mergedStats none =
        match roots.filterMap fun r => mapFind (infoOf r) x with
        | [] => none
        | s :: rest => some (rest.foldl CatWordData.mergeData s) := by
  intro roots
  induction roots with
  | nil => rfl
  | cons r rest ih =>
    simp only [List.map_cons, List.foldl_cons, List.filterMap_cons]
    cases h : mapFind (infoOf r) x with
    | none => exact ih
    | some d => exact foldl_mergedStats_some infoOf x rest d

/-- C33: when every root yields its map of statistics, `generateInfo` over the list of
roots returns a map that holds, for every category, the statistics of that category from
the roots that have it, combined by `mergeData` in the order of the roots (those of the
only root, unchanged, when one root has it, and no entry when none has it); and the list
of roots in any other order yields the same map. The maps of the roots are `std::map`s,
as are their word maps. -/
theorem aggregation_order_independent (generateInfo : Str → Except Fault InfoByCategory)
    (infoOf : Str → InfoByCategory) (roots : List Str) (info : InfoByCategory)
    (hroots : ∀ r ∈ roots, generateInfo r = .ok (infoOf r) ∧ wellFormed (infoOf r)) :
    ∃ aggregated,
      generateInfoList generateInfo roots info = (none, aggregated) ∧ Ordered aggregated ∧
      (∀ category,
        mapFind aggregated category =
          match roots.filterMap fun r => mapFind (infoOf r) category with
          | [] => none
          | s :: rest => some (rest.foldl CatWordData.mergeData s)) ∧
      ∀ (permuted : List Str) (info' : InfoByCategory), permuted.Perm roots →
        generateInfoList generateInfo permuted info' = (none, aggregated) := by
  have hnil : wellFormed ([] : InfoByCategory) :=
    ⟨List.Pairwise.nil, fun p hp => by cases hp⟩
  have hrun : ∀ l : List Str, (∀ r ∈ l, r ∈ roots) → ∀ i : InfoByCategory,
      generateInfoList generateInfo l i = (none, (l.map infoOf).foldl mergeRoot []) := by
    intro l hl i
    simp only [generateInfoList,
      generateInfoLoop_ok generateInfo infoOf l [] (fun r hr => (hroots r (hl r hr)).1)]
  have hwf : ∀ i ∈ roots.map infoOf, wellFormed i := by
    intro i hi
    obtain ⟨r, hr, rfl⟩ := List.mem_map.mp hi
    exact (hroots r hr).2
  refine ⟨(roots.map infoOf).foldl mergeRoot [], hrun roots (fun r hr => hr) info,
    (foldl_mergeRoot_wellFormed _ [] hnil hwf).1, ?_, ?_⟩
  · intro category
    rw [mapFind_foldl_mergeRoot category _ [] List.Pairwise.nil (fun i hi => (hwf i hi).1)]
    exact foldl_mergedStats_none infoOf category roots
  · intro permuted info' hperm
    rw [hrun permuted (fun r hr => hperm.mem_iff.mp hr) info']
    congr 1
    exact (foldl_mergeRoot_perm _ _ (hperm.map infoOf).symm [] hnil hwf).symm

/-- An instance: the category `sports` found under two roots and `politics` under one, the
roots taken in either order. -/
theorem aggregation_order_independent_witness :
    generateInfoList
        (fun r => .ok (if r = lit "a" then [(lit "sports", ⟨1, 1, 2, [(lit "game", 2)]⟩)]
          else [(lit "politics", ⟨1, 1, 1, [(lit "vote", 1)]⟩),
            (lit "sports", ⟨2, 2, 3, [(lit "game", 1), (lit "score", 2)]⟩)]))
        [lit "b", lit "a"] [] =
      (none, [(lit "politics", ⟨1, 1, 1, [(lit "vote", 1)]⟩),
        (lit "sports", ⟨3, 3, 5, [(lit "game", 3), (lit "score", 2)]⟩)]) ∧
    ∃ aggregated,
      generateInfoList
          (fun r => .ok (if r = lit "a" then [(lit "sports", ⟨1, 1, 2, [(lit "game", 2)]⟩)]
            else [(lit "politics", ⟨1, 1, 1, [(lit "vote", 1)]⟩),
              (lit "sports", ⟨2, 2, 3, [(lit "game", 1), (lit "score", 2)]⟩)]))
          [lit "a", lit "b"] [] = (none, aggregated) ∧
        Ordered aggregated ∧
        (∀ category,
          mapFind aggregated category =
            match [lit "a", lit "b"].filterMap fun r =>
              mapFind (if r = lit "a" then [(lit "sports", ⟨1, 1, 2, [(lit "game", 2)]⟩)]
                else [(lit "politics", ⟨1, 1, 1, [(lit "vote", 1)]⟩),
                  (lit "sports", ⟨2, 2, 3, [(lit "game", 1), (lit "score", 2)]⟩)])
                category with
            | [] => none
            | s :: rest => some (rest.foldl CatWordData.mergeData s)) ∧
        ∀ (permuted : List Str) (info' : InfoByCategory),
          permuted.Perm [lit "a", lit "b"] →
          generateInfoList
              (fun r => .ok (if r = lit "a" then
                  [(lit "sports", ⟨1, 1, 2, [(lit "game", 2)]⟩)]
                else [(lit "politics", ⟨1, 1, 1, [(lit "vote", 1)]⟩),
                  (lit "sports", ⟨2, 2, 3, [(lit "game", 1), (lit "score", 2)]⟩)]))
              permuted info' = (none, aggregated) :=
  ⟨rfl,
    aggregation_order_independent
      (fun r => .ok (if r = lit "a" then [(lit "sports", ⟨1, 1, 2, [(lit "game", 2)]⟩)]
        else [(lit "politics", ⟨1, 1, 1, [(lit "vote", 1)]⟩),
          (lit "sports", ⟨2, 2, 3, [(lit "game", 1), (lit "score", 2)]⟩)]))
      (fun r => if r = lit "a" then [(lit "sports", ⟨1, 1, 2, [(lit "game", 2)]⟩)]
        else [(lit "politics", ⟨1, 1, 1, [(lit "vote", 1)]⟩),
          (lit "sports", ⟨2, 2, 3, [(lit "game", 1), (lit "score", 2)]⟩)])
      [lit "a", lit "b"] []
      (fun r hr => ⟨rfl, by
        simp only [List.mem_cons, List.mem_singleton, List.not_mem_nil, or_false] at hr
        rcases hr with rfl | rfl
        · exact ⟨by decide, by decide⟩
        · exact ⟨by decide, by decide⟩⟩)⟩

/-! ## The category of a path and the statistics of one root -/

theorem rfindFrom_eq (p : Char → Bool) (s : List Char) :
    ∀ (i j : Nat) (c : Char), j ≤ i → s[j]? = some c → p c = true →
      (∀ k d, j < k → k ≤ i → s[k]? = some d → p d = false) → rfindFrom p s i = j := by
  intro i
  induction i with
  | zero =>
    intro j c hj hc hp _
    have hj0 : j = 0 := by omega
    subst hj0
    simp [rfindFrom, hc, hp]
  | succ i ih =>
    intro j c hj hc hp hafter
    by_cases hji : j = i + 1
    · subst hji
      simp [rfindFrom, hc, hp]
    · have hrec : rfindFrom p s i = j :=
        ih j c (by omega) hc hp (fun k d h1 h2 h3 => hafter k d h1 (by omega) h3)
      unfold rfindFrom
      cases hget : s[i + 1]? with
      | none => simpa using hrec
      | some d =>
        have hd := hafter (i + 1) d (by omega) (le_refl _) hget
        simpa [hd] using hrec

theorem getElem?_append_cons_left (a b : List Char) (x : Char) (k : Nat) (hk : k < a.length) :
    (a ++ x :: b)[k]? = a[k]? :=
  List.getElem?_append_left hk

theorem getElem?_append_cons_mid (a b : List Char) (x : Char) :
    (a ++ x :: b)[a.length]? = some x := by
  rw [List.getElem?_append_right (le_refl _)]
  simp

theorem getElem?_append_cons_right (a b : List Char) (x : Char) (k : Nat)
    (hk : a.length < k) : (a ++ x :: b)[k]? = b[k - a.length - 1]? := by
  rw [List.getElem?_append_right (le_of_lt hk)]
  obtain ⟨m, hm⟩ : ∃ m, k - a.length = m + 1 := ⟨k - a.length - 1, by omega⟩
  rw [hm]
  simp

theorem not_separator_of_mem {l : List Char} (h : ∀ c ∈ l, c ∉ pathSeparators) {k : Nat}
    {d : Char} (hd : l[k]? = some d) : pathSeparators.contains d = false := by
  have hmem : d ∈ l := List.mem_iff_getElem?.mpr ⟨k, hd⟩
  have := h d hmem
  simpa using this

theorem categoryOf_path (dir category file : List Char) (s₁ s₂ : Char)
    (h₁ : s₁ ∈ pathSeparators) (h₂ : s₂ ∈ pathSeparators) (hne : category ≠ [])
    (hcat : ∀ c ∈ category, c ∉ pathSeparators) (hfile : ∀ c ∈ file, c ∉ pathSeparators)
    (hlen : (dir ++ s₁ :: (category ++ s₂ :: file)).length < 4294967296) :
    categoryOf (dir ++ s₁ :: (category ++ s₂ :: file)) = .ok category := by
  have hcl : 1 ≤ category.length := List.length_pos.mpr hne
  have hlen' : dir.length + 1 + (category.length + 1 + file.length) < 4294967296 := by
    simp only [List.length_append, List.length_cons] at hlen
    omega
  have hlength : (dir ++ s₁ :: (category ++ s₂ :: file)).length =
      dir.length + 1 + (category.length + 1 + file.length) := by
    simp only [List.length_append, List.length_cons]
    omega
  have hp₁ : pathSeparators.contains s₁ = true := by simpa using h₁
  have hp₂ : pathSeparators.contains s₂ = true := by simpa using h₂
  -- the letters of the path
  have hat₂ : (dir ++ s₁ :: (category ++ s₂ :: file))[dir.length + 1 + category.length]? =
      some s₂ := by
    rw [getElem?_append_cons_right dir _ s₁ _ (by omega),
      show dir.length + 1 + category.length - dir.length - 1 = category.length by omega]
    exact getElem?_append_cons_mid category file s₂
  have hat₁ : (dir ++ s₁ :: (category ++ s₂ :: file))[dir.length]? = some s₁ :=
    getElem?_append_cons_mid dir _ s₁
  have hafter₂ : ∀ k d, dir.length + 1 + category.length < k →
      (dir ++ s₁ :: (category ++ s₂ :: file))[k]? = some d →
      pathSeparators.contains d = false := by
    intro k d hk hd
    rw [getElem?_append_cons_right dir _ s₁ _ (by omega),
      getElem?_append_cons_right category file s₂ _ (by omega)] at hd
    exact not_separator_of_mem hfile hd
  have hbetween : ∀ k d, dir.length < k → k ≤ dir.length + 1 + category.length - 1 →
      (dir ++ s₁ :: (category ++ s₂ :: file))[k]? = some d →
      pathSeparators.contains d = false := by
    intro k d hk1 hk2 hd
    rw [getElem?_append_cons_right dir _ s₁ _ hk1,
      getElem?_append_cons_left category file s₂ _ (by omega)] at hd
    exact not_separator_of_mem hcat hd
  -- the two searches
  have hempty : (dir ++ s₁ :: (category ++ s₂ :: file)).isEmpty = false := by
    cases dir <;> rfl
  have hlast : findLastOf (dir ++ s₁ :: (category ++ s₂ :: file)) pathSeparators npos =
      dir.length + 1 + category.length := by
    unfold findLastOf
    rw [hempty]
    simp only [Bool.false_eq_true, if_false]
    apply rfindFrom_eq _ _ _ _ s₂ _ hat₂ hp₂
    · intro k d h1 _ hd
      exact hafter₂ k d h1 hd
    · rw [hlength, npos_val]
      omega
  have hsecond : findLastOf (dir ++ s₁ :: (category ++ s₂ :: file)) pathSeparators
      (dir.length + 1 + category.length - 1) = dir.length := by
    unfold findLastOf
    rw [hempty]
    simp only [Bool.false_eq_true, if_false]
    apply rfindFrom_eq _ _ _ _ s₁ _ hat₁ hp₁
    · intro k d h1 h2 hd
      exact hbetween k d h1 (by omega) hd
    · rw [hlength]
      omega
  have e1 : (dir.length + 1 + category.length) % 4294967296 =
      dir.length + 1 + category.length := Nat.mod_eq_of_lt (by omega)
  have e2 : (dir.length + 1 + category.length + 4294967296 - 1) % 4294967296 =
      dir.length + 1 + category.length - 1 := by omega
  have e3 : dir.length % 4294967296 = dir.length := Nat.mod_eq_of_lt (by omega)
  have e4 : (dir.length + 1 + category.length + 4294967296 - dir.length) % 4294967296 =
      category.length + 1 := by omega
  have e5 : (dir.length + 1) % 4294967296 = dir.length + 1 := Nat.mod_eq_of_lt (by omega)
  have e6 : (dir.length + 1 + category.length + 4294967296 - dir.length + 4294967296 - 1) %
      4294967296 = category.length := by omega
  have n1 : ¬ dir.length + 1 + category.length = npos := by
    rw [npos_val]
    omega
  have n2 : ¬ dir.length = npos := by
    rw [npos_val]
    omega
  have n3 : ¬ dir.length + 1 + category.length = 0 := by omega
  have n4 : ¬ category.length + 1 ≤ 1 := by omega
  have n5 : ¬ dir.length + 1 > (dir ++ s₁ :: (category ++ s₂ :: file)).length := by
    rw [hlength]
    omega
  have c1 : (dir.length + 1 + category.length != npos &&
      dir.length + 1 + category.length != 0) = true := by
    simp [n1, n3]
  have c2 : (dir.length == npos || decide (category.length + 1 ≤ 1)) = false := by
    simp [n2, n4]
  unfold categoryOf
  simp only [hlast, e1, e2, c1, if_true, hsecond, e3, e4, c2, Bool.false_eq_true, if_false,
    e5, e6, substr, n5]
  have hdrop : List.drop (dir.length + 1) (dir ++ s₁ :: (category ++ s₂ :: file)) =
      category ++ s₂ :: file := by
    have happ : dir ++ s₁ :: (category ++ s₂ :: file) =
        (dir ++ [s₁]) ++ (category ++ s₂ :: file) := by simp
    rw [happ]
    exact List.drop_left' (by simp)
  rw [hdrop, List.take_left]

theorem firstRunStats_cons_ne (getTotalWordCount : DocumentWordMap → Nat) (x c : Str)
    (d : DocumentWordMap) (documents : List (Str × DocumentWordMap)) (h : c ≠ x) :
    firstRunStats getTotalWordCount x ((c, d) :: documents) =
      firstRunStats getTotalWordCount x documents := by
  have hb : ((c, d).1 != x) = true := by simpa using h
  simp only [firstRunStats, List.dropWhile_cons, hb, if_true]

theorem firstRunStats_cons_eq (getTotalWordCount : DocumentWordMap → Nat) (x : Str)
    (d : DocumentWordMap) (documents : List (Str × DocumentWordMap)) :
    firstRunStats getTotalWordCount x ((x, d) :: documents) =
      some (((documents.takeWhile (fun p => p.1 == x)).map Prod.snd).foldl
        (CatWordData.addDocument getTotalWordCount)
        (CatWordData.init.addDocument getTotalWordCount d)) := by
  simp [firstRunStats, List.dropWhile_cons, List.takeWhile_cons]

theorem generateInfoFiles_find (getTotalWordCount : DocumentWordMap → Nat)
    (getWordMap : Str → Except Fault DocumentWordMap) (catOf : Str → Str)
    (docOf : Str → DocumentWordMap) :
    ∀ (rest : List Str) (c₀ : Str) (res : CatWordData) (info : InfoByCategory), Ordered info →
      (∀ path ∈ rest, categoryOf path = .ok (catOf path) ∧ getWordMap path = .ok (docOf path)) →
      ∃ final,
        generateInfoFiles getTotalWordCount getWordMap rest (some (c₀, res)) info = .ok final ∧
        Ordered final ∧
        ∀ x, mapFind final x =
          match mapFind info x with
          | some v => some v
          | none =>
            if x = c₀ then
              some ((((rest.map fun p => (catOf p, docOf p)).takeWhile
                (fun p => p.1 == c₀)).map Prod.snd).foldl
                (CatWordData.addDocument getTotalWordCount) res)
            else firstRunStats getTotalWordCount x (rest.map fun p => (catOf p, docOf p)) := by
  intro rest
  induction rest with
  | nil =>
    intro c₀ res info hinfo _
    refine ⟨mapInsert info c₀ res, rfl, mapInsert_ordered info c₀ res hinfo, ?_⟩
    intro x
    rw [mapFind_mapInsert info c₀ res hinfo x]
    cases mapFind info x with
    | some v => rfl
    | none =>
      by_cases hx : x = c₀
      · simp [hx]
      · have hx' : ¬ c₀ = x := fun e => hx e.symm
        simp [hx, hx', firstRunStats]
  | cons path rest ih =>
    intro c₀ res info hinfo hall
    obtain ⟨hcat, hdoc⟩ := hall path (List.mem_cons_self _ _)
    have hrest := fun q hq => hall q (List.mem_cons_of_mem _ hq)
    by_cases hc : c₀ = catOf path
    · obtain ⟨final, hrun, hord, hfind⟩ :=
        ih c₀ (res.addDocument getTotalWordCount (docOf path)) info hinfo hrest
      refine ⟨final, ?_, hord, ?_⟩
      · simp only [generateInfoFiles, hcat, bind_ok, hdoc, ← hc, bne_self_eq_false,
          Bool.false_eq_true, if_false]
        exact hrun
      · intro x
        rw [hfind x]
        cases mapFind info x with
        | some v => rfl
        | none =>
          by_cases hx : x = c₀
          · simp [hx, ← hc, List.takeWhile_cons]
          · have hx' : c₀ ≠ x := fun e => hx e.symm
            simp only [hx, if_false, List.map_cons, ← hc]
            rw [firstRunStats_cons_ne getTotalWordCount x c₀ _ _ hx']
    · have hne : (c₀ != catOf path) = true := by simpa using hc
      obtain ⟨final, hrun, hord, hfind⟩ :=
        ih (catOf path) (CatWordData.init.addDocument getTotalWordCount (docOf path))
          (mapInsert info c₀ res) (mapInsert_ordered info c₀ res hinfo) hrest
      refine ⟨final, ?_, hord, ?_⟩
      · simp only [generateInfoFiles, hcat, bind_ok, hdoc, hne, if_true]
        exact hrun
      · intro x
        rw [hfind x, mapFind_mapInsert info c₀ res hinfo x]
        cases mapFind info x with
        | some v => rfl
        | none =>
          by_cases hx : x = c₀
          · subst hx
            have hcx : ¬ catOf path = x := fun e => hc e.symm
            simp [List.takeWhile_cons, hcx]
          · have hx' : ¬ c₀ = x := fun e => hx e.symm
            simp only [hx, hx', if_false, List.map_cons]
            by_cases hxc : x = catOf path
            · rw [← hxc, firstRunStats_cons_eq]
              simp
            · have hxc' : catOf path ≠ x := fun e => hxc e.symm
              simp only [hxc, if_false]
              rw [firstRunStats_cons_ne getTotalWordCount x _ _ _ hxc']

theorem generateInfoFiles_start (getTotalWordCount : DocumentWordMap → Nat)
    (getWordMap : Str → Except Fault DocumentWordMap) (catOf : Str → Str)
    (docOf : Str → DocumentWordMap) (fileList : List Str)
    (hall : ∀ path ∈ fileList,
      categoryOf path = .ok (catOf path) ∧ getWordMap path = .ok (docOf path)) :
    ∃ final,
      generateInfoFiles getTotalWordCount getWordMap fileList none [] = .ok final ∧
      Ordered final ∧
      ∀ x, mapFind final x =
        firstRunStats getTotalWordCount x (fileList.map fun p => (catOf p, docOf p)) := by
  cases fileList with
  | nil => exact ⟨[], rfl, List.Pairwise.nil, fun x => rfl⟩
  | cons path rest =>
    obtain ⟨hcat, hdoc⟩ := hall path (List.mem_cons_self _ _)
    obtain ⟨final, hrun, hord, hfind⟩ :=
      generateInfoFiles_find getTotalWordCount getWordMap catOf docOf rest (catOf path)
        (CatWordData.init.addDocument getTotalWordCount (docOf path)) [] List.Pairwise.nil
        (fun q hq => hall q (List.mem_cons_of_mem _ hq))
    refine ⟨final, ?_, hord, ?_⟩
    · simp only [generateInfoFiles, hcat, bind_ok, hdoc]
      exact hrun
    · intro x
      rw [hfind x]
      simp only [mapFind, List.map_cons]
      by_cases hx : x = catOf path
      · rw [← hx, firstRunStats_cons_eq]
        simp
      · have hx' : catOf path ≠ x := fun e => hx e.symm
        simp only [hx, if_false]
        rw [firstRunStats_cons_ne getTotalWordCount x _ _ _ hx']

theorem filter_dropWhile_not {α : Type} (q : α → Bool) :
    ∀ l : List α, (l.dropWhile fun a => !q a).filter q = l.filter q := by
  intro l
  induction l with
  | nil => rfl
  | cons a rest ih =>
    cases h : q a with
    | true => simp [List.dropWhile_cons, h]
    | false => simp [List.dropWhile_cons, List.filter_cons, h, ih]

theorem firstRunStats_contiguous (getTotalWordCount : DocumentWordMap → Nat) (x : Str)
    (documents : List (Str × DocumentWordMap))
    (hrun : ∀ p ∈ ((documents.dropWhile fun p => p.1 != x).dropWhile fun p => p.1 == x),
      (p.1 != x) = true) :
    firstRunStats getTotalWordCount x documents =
      if x ∈ documents.map Prod.fst then
        some (((documents.filter fun p => p.1 == x).map Prod.snd).foldl
          (CatWordData.addDocument getTotalWordCount) CatWordData.init)
      else none := by
  have hnot : (fun p : Str × DocumentWordMap => p.1 != x) = fun p => !(p.1 == x) := rfl
  have hfilter : documents.filter (fun p => p.1 == x) =
      (documents.dropWhile fun p => p.1 != x).takeWhile fun p => p.1 == x := by
    rw [← filter_dropWhile_not (fun p : Str × DocumentWordMap => p.1 == x) documents, ← hnot]
    generalize documents.dropWhile (fun p => p.1 != x) = found at hrun
    conv_lhs => rw [← List.takeWhile_append_dropWhile (fun p => p.1 == x) found]
    rw [List.filter_append]
    have h1 : (found.takeWhile fun p => p.1 == x).filter (fun p => p.1 == x) =
        found.takeWhile fun p => p.1 == x := by
      rw [List.filter_eq_self]
      intro a ha
      exact List.mem_takeWhile_imp (p := fun p : Str × DocumentWordMap => p.1 == x) ha
    have h2 : (found.dropWhile fun p => p.1 == x).filter (fun p => p.1 == x) = [] := by
      rw [List.filter_eq_nil_iff]
      intro a ha
      have := hrun a ha
      simpa using this
    rw [h1, h2, List.append_nil]
  unfold firstRunStats
  by_cases hmem : x ∈ documents.map Prod.fst
  · rw [if_pos hmem, hfilter]
    cases hfound : documents.dropWhile (fun p => p.1 != x) with
    | nil =>
      exfalso
      rw [List.dropWhile_eq_nil_iff] at hfound
      obtain ⟨p, hp, hpx⟩ := List.mem_map.mp hmem
      have := hfound p hp
      simp [hpx] at this
    | cons a rest => rfl
  · rw [if_neg hmem]
    have hnil : documents.dropWhile (fun p => p.1 != x) = [] := by
      rw [List.dropWhile_eq_nil_iff]
      intro p hp
      have : p.1 ≠ x := fun e => hmem (List.mem_map.mpr ⟨p, hp, e⟩)
      simpa using this
    rw [hnil]

/-- C34: for the list of files the directory search returns for a root, every path of
which yields a category and a word map, `generateInfo` returns a map that holds for every
category the statistics of its first run of consecutive files, `addDocument` folded over
the documents of that run, and no entry for a category without a file. When the files of
every category stand together in the list, as a directory search yields them, these are
the statistics of all the documents of the category. The category of a path is the text
between its last two separators. -/
theorem generateInfo_first_runs (findFiles : Str → Except Fault (List Str))
    (getTotalWordCount : DocumentWordMap → Nat)
    (getWordMap : Str → Except Fault DocumentWordMap) (filesRoot : Str) (fileList : List Str)
    (catOf : Str → Str) (docOf : Str → DocumentWordMap)
    (hfind : findFiles filesRoot = .ok fileList)
    (hfiles : ∀ path ∈ fileList,
      categoryOf path = .ok (catOf path) ∧ getWordMap path = .ok (docOf path)) :
    (∃ info,
      generateInfo findFiles getTotalWordCount getWordMap filesRoot = .ok info ∧
      Ordered info ∧
      (∀ category,
        mapFind info category =
          firstRunStats getTotalWordCount category
            (fileList.map fun p => (catOf p, docOf p))) ∧
      (contiguous (fileList.map fun p => (catOf p, docOf p)) = true →
        ∀ category,
          mapFind info category =
            if category ∈ (fileList.map fun p => (catOf p, docOf p)).map Prod.fst then
              some ((((fileList.map fun p => (catOf p, docOf p)).filter
                fun p => p.1 == category).map Prod.snd).foldl
                (CatWordData.addDocument getTotalWordCount) CatWordData.init)
            else none)) ∧
    ∀ (dir category file : List Char) (s₁ s₂ : Char), s₁ ∈ pathSeparators →
      s₂ ∈ pathSeparators → category ≠ [] → (∀ c ∈ category, c ∉ pathSeparators) →
      (∀ c ∈ file, c ∉ pathSeparators) →
      (dir ++ s₁ :: (category ++ s₂ :: file)).length < 4294967296 →
      categoryOf (dir ++ s₁ :: (category ++ s₂ :: file)) = .ok category := by
  refine ⟨?_, categoryOf_path⟩
  obtain ⟨final, hrun, hord, hfound⟩ :=
    generateInfoFiles_start getTotalWordCount getWordMap catOf docOf fileList hfiles
  refine ⟨final, ?_, hord, hfound, ?_⟩
  · simp only [generateInfo, hfind, bind_ok]
    exact hrun
  · intro hcont category
    rw [hfound category]
    by_cases hmem : category ∈ (fileList.map fun p => (catOf p, docOf p)).map Prod.fst
    · apply firstRunStats_contiguous
      obtain ⟨q, hq, hqc⟩ := List.mem_map.mp hmem
      unfold contiguous at hcont
      rw [List.all_eq_true] at hcont
      have := hcont q hq
      rw [List.all_eq_true, hqc] at this
      exact this
    · rw [if_neg hmem]
      have hnil : (fileList.map fun p => (catOf p, docOf p)).dropWhile
          (fun p => p.1 != category) = [] := by
        rw [List.dropWhile_eq_nil_iff]
        intro p hp
        have : p.1 ≠ category := fun e => hmem (List.mem_map.mpr ⟨p, hp, e⟩)
        simpa using this
      simp only [firstRunStats, hnil]

/-- An instance: two files of the category `a` followed by one of `b`, each holding one
word. -/
theorem generateInfo_first_runs_witness :
    categoryOf (lit "r/a/1") = .ok (lit "a") ∧
    ∃ info,
      generateInfo (fun _ => .ok [lit "r/a/1", lit "r/a/2", lit "r/b/3"]) sumCounts
          (fun path => .ok [(path, 1)]) (lit "r") = .ok info ∧
        Ordered info ∧
        (∀ category,
          mapFind info category =
            firstRunStats sumCounts category
              ([lit "r/a/1", lit "r/a/2", lit "r/b/3"].map fun p =>
                ((p.drop 2).take 1, [(p, 1)]))) ∧
        (contiguous ([lit "r/a/1", lit "r/a/2", lit "r/b/3"].map fun p =>
            ((p.drop 2).take 1, ([(p, 1)] : DocumentWordMap))) = true →
          ∀ category,
            mapFind info category =
              if category ∈ ([lit "r/a/1", lit "r/a/2", lit "r/b/3"].map fun p =>
                  ((p.drop 2).take 1, ([(p, 1)] : DocumentWordMap))).map Prod.fst then
                some (((([lit "r/a/1", lit "r/a/2", lit "r/b/3"].map fun p =>
                  ((p.drop 2).take 1, ([(p, 1)] : DocumentWordMap))).filter
                  fun p => p.1 == category).map Prod.snd).foldl
                  (CatWordData.addDocument sumCounts) CatWordData.init)
              else none) :=
  ⟨by decide,
    (generateInfo_first_runs (fun _ => .ok [lit "r/a/1", lit "r/a/2", lit "r/b/3"]) sumCounts
      (fun path => .ok [(path, 1)]) (lit "r") [lit "r/a/1", lit "r/a/2", lit "r/b/3"]
      (fun p => (p.drop 2).take 1) (fun p => [(p, 1)]) rfl (by decide)).1⟩

/-- C34 as stated fails: when a file of the category `b` stands between two files of the
category `a`, the statistics of `a` hold the first file only; the second run of `a` is
given to `insert`, which leaves the entry the map already has. -/
theorem second_run_is_dropped :
    (generateInfo (fun _ => .ok [lit "r/a/1", lit "r/b/2", lit "r/a/3"]) sumCounts
        (fun path => .ok [(path, 1)]) (lit "r")).map
        (fun info => (mapFind info (lit "a")).map fun s => s.docCount) =
      .ok (some 1) ∧
    (([([(lit "r/a/1", 1)] : DocumentWordMap), [(lit "r/a/3", 1)]].foldl
      (CatWordData.addDocument sumCounts) CatWordData.init).docCount = 2) := by
  decide

/-! ## `getSyllables` and the measure of a word without `y` -/

theorem countsAsVowel_noY (word : List Char) (hy : 'y' ∉ word) (i : Nat) :
    countsAsVowel word i =
      match word[i]? with
      | some c => vowels.contains c
      | none => false := by
  unfold countsAsVowel
  cases hc : word[i]? with
  | none => rfl
  | some c =>
    have hne : c ≠ 'y' := by
      intro h
      rw [h] at hc
      exact hy (List.mem_iff_getElem?.mpr ⟨i, hc⟩)
    simp [hne]

theorem closesSyllable_noY (word : List Char) (hy : 'y' ∉ word) (i : Nat) :
    closesSyllable word i =
      match word[i]? with
      | some c => !vowels.contains c
      | none => false := by
  unfold closesSyllable
  cases hc : word[i]? with
  | none => rfl
  | some c =>
    have hne : c ≠ 'y' := by
      intro h
      rw [h] at hc
      exact hy (List.mem_iff_getElem?.mpr ⟨i, hc⟩)
    simp [hne]

theorem vcTransition_of (word : List Char) (i : Nat) (p c : Char) (hi : i ≠ 0)
    (hp : word[i - 1]? = some p) (hc : word[i]? = some c) :
    vcTransition word i = (vowels.contains p && !vowels.contains c) := by
  have h0 : (i != 0) = true := by simpa using hi
  unfold vcTransition
  simp only [h0, hp, hc, Bool.true_and]

theorem vcTransition_false_of_prev (word : List Char) (i : Nat)
    (h : ∀ p, word[i - 1]? = some p → vowels.contains p = false) :
    vcTransition word i = false := by
  unfold vcTransition
  cases hp : word[i - 1]? with
  | none => simp only [Bool.and_false, Bool.false_and]
  | some p => simp only [h p hp, Bool.and_false, Bool.false_and]

theorem vcTransition_false_of_here (word : List Char) (i : Nat)
    (h : ∀ c, word[i]? = some c → vowels.contains c = true) :
    vcTransition word i = false := by
  unfold vcTransition
  cases hc : word[i]? with
  | none => simp only [Bool.and_false]
  | some c => simp only [h c hc, Bool.not_true, Bool.and_false]

theorem vcTransitionsFrom_step (word : List Char) (a : Nat) (ha : a < word.length) :
    vcTransitionsFrom word a =
      (if vcTransition word a = true then [a] else []) ++ vcTransitionsFrom word (a + 1) := by
  unfold vcTransitionsFrom
  obtain ⟨m, hm⟩ : ∃ m, word.length - a = m + 1 := ⟨word.length - a - 1, by omega⟩
  have hm' : word.length - (a + 1) = m := by omega
  rw [hm, hm', List.range'_succ, List.filter_cons]
  split <;> rfl

theorem vcTransitionsFrom_ge (word : List Char) (a : Nat) (ha : word.length ≤ a) :
    vcTransitionsFrom word a = [] := by
  unfold vcTransitionsFrom
  rw [show word.length - a = 0 by omega]
  rfl

theorem vcTransitionsFrom_skip (word : List Char) :
    ∀ (d a : Nat), (∀ i, a ≤ i → i < a + d → vcTransition word i = false) →
      a + d ≤ word.length → vcTransitionsFrom word a = vcTransitionsFrom word (a + d) := by
  intro d
  induction d with
  | zero => intro a _ _; rfl
  | succ d ih =>
    intro a hnone hle
    rw [vcTransitionsFrom_step word a (by omega), hnone a (le_refl _) (by omega)]
    simp only [Bool.false_eq_true, if_false, List.nil_append]
    rw [ih (a + 1) (fun i h1 h2 => hnone i (by omega) (by omega)) (by omega)]
    congr 1
    omega

theorem vcTransitionsFrom_first (word : List Char) (a r : Nat) (har : a ≤ r)
    (hr : r < word.length) (ht : vcTransition word r = true)
    (hnone : ∀ i, a ≤ i → i < r → vcTransition word i = false) :
    vcTransitionsFrom word a = r :: vcTransitionsFrom word (r + 1) := by
  have hskip := vcTransitionsFrom_skip word (r - a) a
    (fun i h1 h2 => hnone i h1 (by omega)) (by omega)
  rw [show a + (r - a) = r by omega] at hskip
  rw [hskip, vcTransitionsFrom_step word r hr, ht]
  rfl

theorem vcTransitionsFrom_none (word : List Char) (a : Nat)
    (hnone : ∀ i, a ≤ i → i < word.length → vcTransition word i = false) :
    vcTransitionsFrom word a = [] := by
  by_cases ha : word.length ≤ a
  · exact vcTransitionsFrom_ge word a ha
  · have hskip := vcTransitionsFrom_skip word (word.length - a) a
      (fun i h1 h2 => hnone i h1 (by omega)) (by omega)
    rw [hskip]
    exact vcTransitionsFrom_ge word _ (by omega)

theorem nextSyllable_transition (word : List Char) (hlen : word.length < sizeMod)
    (hy : 'y' ∉ word) (pos : Nat) (hpos : vcTransition word pos = false) :
    ∃ r, nextSyllable word pos = .ok r ∧
      ((r = npos ∧ ∀ i, pos ≤ i → i < word.length → vcTransition word i = false) ∨
        (r ≠ npos ∧ pos < r ∧ r < word.length ∧ vcTransition word r = true ∧
          vcTransition word (r + 1) = false ∧
          ∀ i, pos ≤ i → i < r → vcTransition word i = false)) := by
  have hvowel : ∀ j, countsAsVowel word j = false →
      ∀ p, word[j]? = some p → vowels.contains p = false := by
    intro j hj p hp
    rw [countsAsVowel_noY word hy j, hp] at hj
    exact hj
  have hcloses : ∀ j, closesSyllable word j = false →
      ∀ c, word[j]? = some c → vowels.contains c = true := by
    intro j hj c hc
    rw [closesSyllable_noY word hy j, hc] at hj
    simpa using hj
  have hbefore : ∀ v, (∀ j, pos ≤ j → j < v → countsAsVowel word j = false) →
      ∀ i, pos ≤ i → i ≤ v → vcTransition word i = false := by
    intro v hv i h1 h2
    by_cases hip : i = pos
    · rw [hip]
      exact hpos
    · exact vcTransition_false_of_prev word i
        (fun p hp => hvowel (i - 1) (hv (i - 1) (by omega) (by omega)) p hp)
  obtain ⟨r, hr, hspec⟩ := nextSyllable_spec word hlen pos
  refine ⟨r, hr, ?_⟩
  rcases hspec with ⟨e1, hcase⟩ | ⟨v, h1, h2, h3, h4, h5, h6, h7⟩
  · left
    refine ⟨e1, ?_⟩
    rcases hcase with hall | ⟨v, h1, h2, h3, h4, h5⟩
    · intro i hi1 _
      by_cases hip : i = pos
      · rw [hip]
        exact hpos
      · exact vcTransition_false_of_prev word i
          (fun p hp => hvowel (i - 1) (hall (i - 1) (by omega)) p hp)
    · intro i hi1 _
      by_cases hiv : i ≤ v
      · exact hbefore v h4 i hi1 hiv
      · exact vcTransition_false_of_here word i
          (fun c hc => hcloses i (h5 i (by omega)) c hc)
  · right
    have hne : r ≠ npos := by
      rw [npos_val]
      rw [sizeMod_val] at hlen
      omega
    obtain ⟨c, -, hc⟩ := charAt_of_lt h3
    obtain ⟨p, -, hp⟩ := charAt_of_lt (show r - 1 < word.length by omega)
    have hcv : vowels.contains c = false := by
      rw [closesSyllable_noY word hy r, hc] at h6
      simpa using h6
    have hpv : vowels.contains p = true := by
      by_cases hrv : r - 1 = v
      · rw [hrv] at hp
        rw [countsAsVowel_noY word hy v, hp] at h4
        exact h4
      · exact hcloses (r - 1) (h7 (r - 1) (by omega) (by omega)) p hp
    refine ⟨hne, by omega, h3, ?_, ?_, ?_⟩
    · rw [vcTransition_of word r p c (by omega) hp hc, hpv, hcv]
      rfl
    · apply vcTransition_false_of_prev
      intro q hq
      rw [show r + 1 - 1 = r by omega, hc] at hq
      cases hq
      exact hcv
    · intro i hi1 hi2
      by_cases hiv : i ≤ v
      · exact hbefore v h5 i hi1 hiv
      · exact vcTransition_false_of_here word i
          (fun c' hc' => hcloses i (h7 i (by omega) hi2) c' hc')

theorem getSyllablesLoop_transitions (word : List Char) (hlen : word.length < sizeMod)
    (hy : 'y' ∉ word) :
    ∀ (fuel index : Nat) (syllables : List Nat), 1 ≤ fuel →
      (index ≠ npos → (4 - syllables.length) + 2 ≤ fuel) → syllables.length ≤ 4 →
      (index ≠ npos → vcTransition word index = false) →
      getSyllablesLoop word fuel index syllables =
        .ok (if index = npos then syllables
          else (syllables ++ vcTransitionsFrom word index).take 4) := by
  intro fuel
  induction fuel with
  | zero => intro index syllables h; omega
  | succ fuel ih =>
    intro index syllables _ hfuel hcount hindex
    simp only [getSyllablesLoop]
    by_cases hn : index = npos
    · simp [hn]
    · by_cases h4 : syllables.length < 4
      · have hf := hfuel hn
        have hcond : (index != npos && decide (syllables.length < 4)) = true := by
          simp [hn, h4]
        obtain ⟨next, hnext, hspec⟩ :=
          nextSyllable_transition word hlen hy index (hindex hn)
        rw [if_pos hcond, if_neg hn]
        simp only [hnext, bind_ok]
        rcases hspec with ⟨e1, hnone⟩ | ⟨hne, h1, h2, h3, h5, h6⟩
        · rw [e1, if_neg (by simp)]
          rw [ih npos syllables (by omega) (fun h => absurd rfl h) hcount
            (fun h => absurd rfl h), vcTransitionsFrom_none word index hnone]
          simp only [if_true, List.append_nil]
          rw [List.take_of_length_le hcount]
        · have hadd : addSz next 1 = next + 1 := addSz_of_lt (by
            rw [sizeMod_val] at *
            omega)
          rw [if_pos (by simpa using hne), hadd]
          rw [ih (next + 1) (syllables ++ [next]) (by omega)
            (fun _ => by
              simp only [List.length_append, List.length_singleton]
              omega)
            (by
              simp only [List.length_append, List.length_singleton]
              omega)
            (fun _ => h5),
            vcTransitionsFrom_first word index next (by omega) h2 h3 h6]
          by_cases hne' : next + 1 = npos
          · have hend : word.length ≤ next + 1 := by
              rw [hne', npos_val]
              rw [sizeMod_val] at hlen
              omega
            rw [if_pos hne', vcTransitionsFrom_ge word (next + 1) hend,
              List.take_of_length_le (by
                simp only [List.length_append, List.length_singleton]
                omega)]
          · rw [if_neg hne']
            simp only [List.append_assoc, List.singleton_append]
      · have hlen4 : syllables.length = 4 := by omega
        have hcond : ¬ (index != npos && decide (syllables.length < 4)) = true := by
          simp [h4]
        rw [if_neg hcond, if_neg hn]
        rw [List.take_append_of_le_length (by omega), List.take_of_length_le (by omega)]
        rfl

theorem getSyllables_transitions (word : List Char) (hlen : word.length < sizeMod)
    (hy : 'y' ∉ word) : getSyllables word = .ok ((vcTransitions word).take 4) := by
  have h0 : (0 : Nat) ≠ npos := by
    rw [npos_val]
    omega
  have := getSyllablesLoop_transitions word hlen hy 6 0 [] (by omega) (fun _ => by simp)
    (by simp) (fun _ => by simp [vcTransition])
  simpa [getSyllables, vcTransitions, h0] using this

theorem vcTransitions_sorted (word : List Char) :
    (vcTransitions word).Pairwise (fun a b => a < b) := by
  unfold vcTransitions vcTransitionsFrom
  exact List.Pairwise.filter _ (List.pairwise_lt_range' 0 _)

theorem mem_vcTransitions (word : List Char) (i : Nat) :
    i ∈ vcTransitions word ↔ vcTransition word i = true := by
  unfold vcTransitions vcTransitionsFrom
  rw [List.mem_filter, List.mem_range']
  constructor
  · exact fun h => h.2
  · intro h
    refine ⟨⟨i, ?_, by omega⟩, h⟩
    unfold vcTransition at h
    cases hc : word[i]? with
    | none => simp [hc] at h
    | some c =>
      have := (List.getElem?_eq_some_iff.mp hc).1
      omega

theorem vcTransitions_take (word : List Char) (n : Nat) :
    vcTransitions (word.take n) = (vcTransitions word).filter (fun t => decide (t < n)) := by
  unfold vcTransitions vcTransitionsFrom
  rw [List.filter_filter]
  simp only [Nat.sub_zero, List.length_take]
  have hsplit : List.range' 0 word.length =
      List.range' 0 (min n word.length) ++
        List.range' (min n word.length) (word.length - min n word.length) := by
    have happ := List.range'_append 0 (min n word.length) (word.length - min n word.length) 1
    simp only [Nat.zero_add, Nat.one_mul] at happ
    rw [happ]
    congr 1
    omega
  rw [hsplit, List.filter_append]
  have hrest : (List.range' (min n word.length) (word.length - min n word.length)).filter
      (fun a => decide (a < n) && vcTransition word a) = [] := by
    rw [List.filter_eq_nil_iff]
    intro a ha
    rw [List.mem_range'] at ha
    obtain ⟨k, hk, hak⟩ := ha
    have : ¬ (a < n) := by omega
    simp [this]
  rw [hrest, List.append_nil]
  apply List.filter_congr
  intro a ha
  rw [List.mem_range'] at ha
  obtain ⟨k, hk, hak⟩ := ha
  have hlt : a < n := by omega
  unfold vcTransition
  by_cases ha0 : a = 0
  · simp [ha0]
  · rw [List.getElem?_take_of_lt hlt, List.getElem?_take_of_lt (show a - 1 < n by omega)]
    simp [hlt]

theorem sorted_filter_length (bound : Nat) :
    ∀ (l : List Nat), l.Pairwise (fun a b => a < b) → ∀ m,
      (m + 1 ≤ (l.filter (fun t => decide (t < bound))).length ↔
        ∃ t, l[m]? = some t ∧ t < bound) := by
  intro l
  induction l with
  | nil => intro _ m; simp
  | cons x l ih =>
    intro hs m
    rw [List.pairwise_cons] at hs
    by_cases hx : x < bound
    · rw [List.filter_cons_of_pos (by simpa using hx)]
      cases m with
      | zero => simp [hx]
      | succ m =>
        rw [List.length_cons, List.getElem?_cons_succ, ← ih hs.2 m]
        omega
    · rw [List.filter_cons_of_neg (by simpa using hx)]
      have hnil : l.filter (fun t => decide (t < bound)) = [] := by
        rw [List.filter_eq_nil_iff]
        intro a ha
        have := hs.1 a ha
        simp only [decide_eq_true_eq]
        omega
      rw [hnil]
      constructor
      · intro h
        simp at h
      · rintro ⟨t, ht, hlt⟩
        cases m with
        | zero =>
          simp only [List.getElem?_cons_zero, Option.some.injEq] at ht
          omega
        | succ m =>
          rw [List.getElem?_cons_succ] at ht
          have := hs.1 t (List.mem_iff_getElem?.mpr ⟨m, ht⟩)
          omega

/-- C31 (amended): a position is a transition when the letter before it is one of `a`,
`e`, `i`, `o`, `u` and the letter at it is not; the measure of a word is the number of
its transitions. For every word without `y`, `getSyllables` returns the first four
transitions in increasing order, so the length of the result is `min 4 m` for the measure
`m` of the word; and for `2 ≤ n ≤ 5` and `s ≤ |stem|`, `hasSyllableCount stem syllables n s`
holds exactly when the prefix of the word of length `|stem| - s` has measure at least
`n - 1`. -/
theorem getSyllables_measure (word : List Char) (hlen : word.length < sizeMod)
    (hy : 'y' ∉ word) :
    getSyllables word = .ok ((vcTransitions word).take 4) ∧
    (vcTransitions word).Pairwise (fun a b => a < b) ∧
    (∀ i, i ∈ vcTransitions word ↔ vcTransition word i = true) ∧
    ((vcTransitions word).take 4).length = min 4 (measure word) ∧
    ∀ (stem : List Char) (n s : Nat), 2 ≤ n → n ≤ 5 → s ≤ stem.length →
      stem.length < sizeMod →
      hasSyllableCount stem ((vcTransitions word).take 4) n s =
        .ok (decide (n - 1 ≤ measure (word.take (stem.length - s)))) := by
  refine ⟨getSyllables_transitions word hlen hy, vcTransitions_sorted word,
    mem_vcTransitions word, by simp [measure], ?_⟩
  intro stem n s hn2 hn5 hs hstem
  have hsub1 : subSz n 1 = n - 1 := subSz_of_le (by omega) (by
    rw [sizeMod_val]
    omega)
  have hsub2 : subSz n 2 = n - 2 := subSz_of_le (by omega) (by
    rw [sizeMod_val]
    omega)
  have hn1 : ¬ (n == 1) = true := by
    simp only [beq_iff_eq]
    omega
  have hsucc : n - 2 + 1 = n - 1 := by omega
  have hmeasure : ∀ bound, n - 1 ≤ measure (word.take bound) ↔
      ∃ t, (vcTransitions word)[n - 2]? = some t ∧ t < bound := by
    intro bound
    have hiff := sorted_filter_length bound (vcTransitions word)
      (vcTransitions_sorted word) (n - 2)
    rw [hsucc, ← vcTransitions_take] at hiff
    exact hiff
  unfold hasSyllableCount
  rw [if_neg hn1, hsub1, hsub2, subSz_of_le hs hstem]
  clear hsub1 hsub2 hstem hlen hn1
  by_cases hcount : ((vcTransitions word).take 4).length ≥ n - 1
  · rw [if_pos hcount]
    rw [List.length_take] at hcount
    have hlt : n - 2 < (vcTransitions word).length := by omega
    have hget : ((vcTransitions word).take 4)[n - 2]? = some ((vcTransitions word)[n - 2]) := by
      rw [List.getElem?_take_of_lt (by omega), List.getElem?_eq_getElem hlt]
    simp only [sylAt, hget, bind_ok, pure_eq_ok]
    congr 1
    rw [decide_eq_decide, hmeasure, List.getElem?_eq_getElem hlt]
    constructor
    · intro h
      exact ⟨_, rfl, h⟩
    · rintro ⟨t, ht, hlt⟩
      cases ht
      exact hlt
  · rw [if_neg hcount]
    rw [List.length_take] at hcount
    have hshort : (vcTransitions word).length ≤ n - 2 := by omega
    simp only [pure_eq_ok]
    congr 1
    symm
    rw [decide_eq_false_iff_not, hmeasure, List.getElem?_eq_none hshort]
    rintro ⟨t, ht, -⟩
    cases ht

/-- An instance: `relational` has the transitions `l`, `t`, `n` and `l`; the stem
`relat` left by the suffix `ional` has measure 2 and the whole word has measure 4. -/
theorem getSyllables_measure_witness :
    (lit "relational").length < sizeMod ∧ 'y' ∉ lit "relational" ∧
    getSyllables (lit "relational") = .ok [2, 4, 7, 9] ∧
    measure (lit "relational") = 4 ∧
    hasSyllableCount (lit "relational") ((vcTransitions (lit "relational")).take 4) 3 5 =
      .ok (decide (3 - 1 ≤ measure ((lit "relational").take ((lit "relational").length - 5)))) ∧
    hasSyllableCount (lit "relational") [2, 4, 7, 9] 3 5 = .ok true ∧
    hasSyllableCount (lit "relational") [2, 4, 7, 9] 4 5 = .ok false :=
  ⟨by decide, by decide, by decide, by decide,
    (getSyllables_measure (lit "relational") (by decide) (by decide)).2.2.2.2
      (lit "relational") 3 5 (by decide) (by decide) (by decide) (by decide),
    by decide, by decide⟩

/-- C31 as stated fails: `abababababab` has measure 6, yet `hasSyllableCount` with
`n = 6` is false, since `getSyllables` keeps four positions only; and with the stem `a`
and `s = 3` the unsigned difference `|stem| - s` wraps, so `hasSyllableCount` with `n = 2`
holds for the syllables of `abab` though no prefix of negative length exists and the empty
prefix has measure 0. -/
theorem hasSyllableCount_measure_fails :
    'y' ∉ lit "abababababab" ∧
    getSyllables (lit "abababababab") = .ok [1, 3, 5, 7] ∧
    hasSyllableCount (lit "abababababab") [1, 3, 5, 7] 6 0 = .ok false ∧
    6 - 1 ≤ measure ((lit "abababababab").take ((lit "abababababab").length - 0)) ∧
    'y' ∉ lit "abab" ∧
    getSyllables (lit "abab") = .ok [1, 3] ∧
    hasSyllableCount (lit "a") [1, 3] 2 3 = .ok true ∧
    measure ((lit "abab").take ((lit "a").length - 3)) = 0 := by
  refine ⟨by decide, by decide, by decide, by decide, by decide, by decide, by decide,
    by decide⟩

/-! ## The classifier on `double`s -/

theorem log2_of_bounds (x : ℚ) (n e : Nat) (hx : |x| = (n : ℚ)) (h1 : 2 ^ e ≤ n)
    (h2 : n < 2 ^ (e + 1)) : Int.log 2 |x| = (e : ℤ) := by
  rw [hx, Int.log_natCast, Nat.log_eq_of_pow_le_of_lt_pow h1 h2]

theorem roundDouble_one : roundDouble 1 = 1 := by
  have hlog : Int.log 2 |(1 : ℚ)| = ((0 : Nat) : ℤ) :=
    log2_of_bounds _ 1 0 (by norm_num) (by norm_num) (by norm_num)
  unfold roundDouble
  rw [hlog]
  norm_num

end BayeseanClassifier
